import Mathlib

/-!
# LRUCache (src/LRUCache.h): a bounded key-value cache with batch compaction

Shallow embedding of the class template `LRUCache<TKey, TValue>`.

Modelling conventions.

* `std::list<_LRUEntry>` is a Lean list of nodes, front first.  Every node carries,
  next to its entry, the identity of the list node (`ref`): this is what a
  `std::list` iterator designates, and it is stable under `splice`.
* `std::unordered_map<TKey, _LookUpEntry>` is an association list with at most one
  pair per key; `find`, `emplace` and `erase` are the three map operations the class
  uses.  The map is never iterated, so its internal order is not observable.
* Operations are written in state-passing style.  Undefined behaviour of the C++
  program (dereferencing an iterator that designates no node of the list, advancing
  an iterator outside `[begin, end]`) is the result `none`.  The exception
  `std::invalid_argument` thrown by `Get` is an `Except.error` next to the state the
  cache is left in.
* `int` is `Int` (sizes stay far below `2^31`).  A finite `float` is the rational
  number it denotes, and every `float` operation is the exact operation followed by the
  IEEE 754 binary32 rounding to nearest, ties to even (`toFloat`), as on a platform
  that evaluates `float` expressions in `float`; infinities and NaN are not values of
  the model.  The conversion of a `float` to `int` truncates toward zero and is
  undefined behaviour when the result is not an `int` of 32 bits.
* The mutex (`_ConditionalMutex`) and the console output of `Log` are not modelled:
  calls are sequential and `Log` does not touch the cache.
-/

namespace LRUCacheModel

/-- The class `_LRUEntry`: an owned pair of key and value. -/
structure LRUEntry (TKey TValue : Type) where
  Key : TKey
  Value : TValue
deriving DecidableEq, Repr

/-- One node of `std::list<_LRUEntry>`: `ref` is the identity of the node (the thing an
iterator into the list designates), `entry` the element stored in it. -/
structure Node (TKey TValue : Type) where
  ref : Nat
  entry : LRUEntry TKey TValue
deriving DecidableEq, Repr

/-- The class `_LookUpEntry`: an iterator into `m_lruList`. -/
structure LookUpEntry where
  LRUEntryRef : Nat
deriving DecidableEq, Repr

/-- The exception thrown by `Get` on an absent key (`what` is its message). -/
inductive Exn where
  | invalid_argument (what : String)
deriving DecidableEq, Repr

/-- The data members of `LRUCache<TKey, TValue>`.  `nextNode` is the allocator of list
nodes: the identity the next `emplace_front` gives to its node. -/
structure LRUCache (TKey TValue : Type) where
  m_lruList : List (Node TKey TValue)
  m_lookUpMap : List (TKey × LookUpEntry)
  m_compactFactor : ℚ
  m_capacity : Int
  m_threadSafe : Bool
  nextNode : Nat
deriving DecidableEq

/-! ## Binary floating point (`float`, `double`) -/

/-- Auxiliary recursion of `natLog2`, on a fuel argument. -/
def log2Aux : Nat → Nat → Nat
  | 0, _ => 0
  | fuel + 1, n => if n < 2 then 0 else log2Aux fuel (n / 2) + 1

/-- The integer logarithm floor(log2 n) of a natural number (0 for `n = 0`). -/
def natLog2 (n : Nat) : Nat := log2Aux n n

/-- The binary exponent floor(log2 |x|) of a rational number `x ≠ 0`: the `E` with
`2^E ≤ |x| < 2^(E+1)`. -/
def ilog2 (x : ℚ) : Int :=
  if (2 : ℚ) ^ ((natLog2 x.num.natAbs : Int) - (natLog2 x.den : Int)) ≤ |x| then
    (natLog2 x.num.natAbs : Int) - (natLog2 x.den : Int)
  else (natLog2 x.num.natAbs : Int) - (natLog2 x.den : Int) - 1

/-- Rounding of a rational number to the nearest integer, ties to the even one. -/
def roundHalfEven (y : ℚ) : Int :=
  if y - (⌊y⌋ : ℚ) < 1 / 2 then ⌊y⌋
  else if 1 / 2 < y - (⌊y⌋ : ℚ) then ⌊y⌋ + 1
  else if ⌊y⌋ % 2 = 0 then ⌊y⌋ else ⌊y⌋ + 1

/-- IEEE 754 rounding to nearest, ties to even, into the binary format with `p`
significand bits whose smallest subnormal is `2^emin`: `x` is rounded to the nearest
multiple of `2^e`, where `e = max (floor(log2 |x|) - (p - 1)) emin`.  Overflow is not cut
off here: a result of magnitude `2^128` or more (for `float`) stands for an infinity. -/
def roundNearestEven (p : Nat) (emin : Int) (x : ℚ) : ℚ :=
  if x = 0 then 0
  else (roundHalfEven (x / (2 : ℚ) ^ (max (ilog2 x - ((p : Int) - 1)) emin)) : ℚ)
    * (2 : ℚ) ^ (max (ilog2 x - ((p : Int) - 1)) emin)

/-- Rounding to `float` (IEEE 754 binary32: 24 significand bits, subnormals down to
`2^-149`): the result of every `float` operation and of the conversions to `float`. -/
def toFloat (x : ℚ) : ℚ := roundNearestEven 24 (-149) x

/-- Rounding to `double` (IEEE 754 binary64): the value of a floating literal such as
`0.4`. -/
def toDouble (x : ℚ) : ℚ := roundNearestEven 53 (-1074) x

/-- Conversion of a `float` to `int` (32 bits): truncation toward zero; the behaviour is
undefined (`none`) when the truncated value is not an `int`. -/
def floatToInt (x : ℚ) : Option Int :=
  if -2147483648 ≤ Int.tdiv x.num (x.den : Int) ∧ Int.tdiv x.num (x.den : Int) ≤ 2147483647 then
    some (Int.tdiv x.num (x.den : Int))
  else none

/-- The expression `m_capacity * (1 - m_compactFactor)` of `ensureCompaction` converted
to `int`, for `m_capacity = capacity` and `m_compactFactor = compactFactor`: the `int`s
`1` and `capacity` are converted to `float`, the subtraction and the product are
`float` operations. -/
def cutOf (capacity : Int) (compactFactor : ℚ) : Option Int :=
  floatToInt (toFloat (toFloat (capacity : ℚ) * toFloat (toFloat 1 - compactFactor)))

/-- Source constant `DEFAULT_COMPACT_FACTOR = 0.4`: the `double` literal `0.4` converted
to `float`. -/
def DEFAULT_COMPACT_FACTOR : ℚ := toFloat (toDouble (2 / 5))

/-- Source constant `DEFAULT_CAPACITY = 50`. -/
def DEFAULT_CAPACITY : Int := 50

section Containers

variable {TKey TValue : Type} [DecidableEq TKey]

/-- Lookup `std::unordered_map::find`: the mapped value of `key`, `none` for `end()`. -/
def find (m : List (TKey × LookUpEntry)) (key : TKey) : Option LookUpEntry :=
  match m with
  | [] => none
  | p :: rest => if p.1 = key then some p.2 else find rest key

/-- Insertion `std::unordered_map::emplace`: inserts only when the key is absent. -/
def emplace (m : List (TKey × LookUpEntry)) (key : TKey) (e : LookUpEntry) :
    List (TKey × LookUpEntry) :=
  match find m key with
  | some _ => m
  | none => (key, e) :: m

/-- Removal `std::unordered_map::erase(key)`. -/
def erase (m : List (TKey × LookUpEntry)) (key : TKey) : List (TKey × LookUpEntry) :=
  m.filter (fun p => !decide (p.1 = key))

/-- Iterator `std::list::begin()`: the first node, `none` when it is `end()`. -/
def listBegin (l : List (Node TKey TValue)) : Option Nat :=
  match l with
  | [] => none
  | n :: _ => some n.ref

/-- Dereference `*it` of a list iterator; `none` when `it` designates no node of `l`. -/
def deref (l : List (Node TKey TValue)) (it : Nat) : Option (LRUEntry TKey TValue) :=
  match l with
  | [] => none
  | n :: rest => if n.ref = it then some n.entry else deref rest it

/-- Unlinks the node `it` from `l`: the node and the remaining list, `none` when `it`
designates no node of `l`. -/
def unlink (l : List (Node TKey TValue)) (it : Nat) :
    Option (Node TKey TValue × List (Node TKey TValue)) :=
  match l with
  | [] => none
  | n :: rest =>
    if n.ref = it then some (n, rest)
    else match unlink rest it with
      | some (x, rest') => some (x, n :: rest')
      | none => none

/-- The call `l.splice(l.begin(), l, it, std::next(it))`: relinks the single node `it`
in front of the first node. -/
def spliceFront (l : List (Node TKey TValue)) (it : Nat) : Option (List (Node TKey TValue)) :=
  match unlink l it with
  | some (x, rest) => some (x :: rest)
  | none => none

/-- The assignment `it->Value = value`. -/
def assignValue (l : List (Node TKey TValue)) (it : Nat) (value : TValue) :
    Option (List (Node TKey TValue)) :=
  match l with
  | [] => none
  | n :: rest =>
    if n.ref = it then some ({ n with entry := { n.entry with Value := value } } :: rest)
    else match assignValue rest it value with
      | some rest' => some (n :: rest')
      | none => none

/-- The call `l.emplace_front(e)`, the new node getting the identity `r`. -/
def emplace_front (l : List (Node TKey TValue)) (r : Nat) (e : LRUEntry TKey TValue) :
    List (Node TKey TValue) :=
  { ref := r, entry := e } :: l

/-- The call `std::advance(it, n)` on `it = l.begin()`: the position reached, `none`
when the iterator would leave the range `[begin, end]`. -/
def advance (l : List (Node TKey TValue)) (n : Int) : Option Nat :=
  if 0 ≤ n ∧ n ≤ (l.length : Int) then some n.toNat else none

end Containers

namespace LRUCache

variable {TKey TValue : Type} [DecidableEq TKey]

/-- The constructor `LRUCache(capacity, compactionFactor, threadSafe)`;
`compactionFactor` is the `float` the constructor receives. -/
def new (capacity : Int) (compactionFactor : ℚ) (threadSafe : Bool) : LRUCache TKey TValue :=
  { m_lruList := []
    m_lookUpMap := []
    m_compactFactor := compactionFactor
    m_capacity := capacity
    m_threadSafe := threadSafe
    nextNode := 0 }

/-- Method `Exists(key)`. -/
def Exists (c : LRUCache TKey TValue) (key : TKey) : Bool × LRUCache TKey TValue :=
  ((find c.m_lookUpMap key).isSome, c)

/-- The common part of `Get` and `Put`: "move the item to front". -/
def moveToFront (l : List (Node TKey TValue)) (lruEntry : Nat) :
    Option (List (Node TKey TValue)) :=
  if some lruEntry ≠ listBegin l then spliceFront l lruEntry else some l

/-- Method `TValue Get(const TKey &key)`. -/
def Get (c : LRUCache TKey TValue) (key : TKey) :
    Option (Except Exn TValue × LRUCache TKey TValue) :=
  match find c.m_lookUpMap key with
  | some mapEntry =>
    let lruEntry := mapEntry.LRUEntryRef
    match moveToFront c.m_lruList lruEntry with
    | none => none
    | some l =>
      match deref l lruEntry with
      | none => none
      | some e => some (Except.ok e.Value, { c with m_lruList := l })
  | none => some (Except.error (Exn.invalid_argument "key"), c)

/-- Method `bool Get(const TKey &key, TValue &outValue)`, the non-throwing overload (the
spec's TryGet): the result is the returned flag and the content of `outValue`. -/
def TryGet (c : LRUCache TKey TValue) (key : TKey) (outValue : TValue) :
    Option ((Bool × TValue) × LRUCache TKey TValue) :=
  match find c.m_lookUpMap key with
  | some mapEntry =>
    let lruEntry := mapEntry.LRUEntryRef
    match moveToFront c.m_lruList lruEntry with
    | none => none
    | some l =>
      match deref l lruEntry with
      | none => none
      | some e => some ((true, e.Value), { c with m_lruList := l })
  | none => some ((false, outValue), c)

/-- The initialiser of `int cutPosition = m_capacity * (1 - m_compactFactor)`; `none`
when the conversion to `int` has undefined behaviour. -/
def cutPosition (c : LRUCache TKey TValue) : Option Int :=
  cutOf c.m_capacity c.m_compactFactor

/-- Method `ensureCompaction()`. -/
def ensureCompaction (c : LRUCache TKey TValue) : Option (LRUCache TKey TValue) :=
  let cacheOrigSize : Int := c.m_lruList.length
  if cacheOrigSize < c.m_capacity then some c
  else
    match c.cutPosition with
    | none => none
    | some cutPosition =>
      match advance c.m_lruList cutPosition with
      | none => none
      | some pos =>
        some { c with
          m_lookUpMap :=
            (c.m_lruList.drop pos).foldl (fun m n => erase m n.entry.Key) c.m_lookUpMap
          m_lruList := c.m_lruList.take pos }

/-- The body of `Put` before the call of `ensureCompaction`: update and promotion of an
existing entry, or insertion of a new one at the front. -/
def putEntry (c : LRUCache TKey TValue) (key : TKey) (value : TValue) :
    Option (LRUCache TKey TValue) :=
  match find c.m_lookUpMap key with
  | some mapEntry =>
    let lruEntry := mapEntry.LRUEntryRef
    match moveToFront c.m_lruList lruEntry with
    | none => none
    | some l =>
      match assignValue l lruEntry value with
      | none => none
      | some l' => some { c with m_lruList := l' }
  | none =>
    let l := emplace_front c.m_lruList c.nextNode { Key := key, Value := value }
    match listBegin l with
    | none => none
    | some first =>
      some { c with
        m_lruList := l
        m_lookUpMap := emplace c.m_lookUpMap key { LRUEntryRef := first }
        nextNode := c.nextNode + 1 }

/-- Method `Put(key, value)`. -/
def Put (c : LRUCache TKey TValue) (key : TKey) (value : TValue) :
    Option (LRUCache TKey TValue) :=
  match putEntry c key value with
  | none => none
  | some c' => ensureCompaction c'

/-! ## Runs of the public interface -/

/-- One call of the public interface. -/
inductive Op (TKey TValue : Type) where
  | put (key : TKey) (value : TValue)
  | get (key : TKey)
  | tryGet (key : TKey) (outValue : TValue)
  | exists_ (key : TKey)
deriving DecidableEq, Repr

/-- State of the cache after one public call (`none` when the call has undefined
behaviour).  A `Get` that throws leaves the state it throws in. -/
def step (c : LRUCache TKey TValue) (op : Op TKey TValue) : Option (LRUCache TKey TValue) :=
  match op with
  | Op.put key value => Put c key value
  | Op.get key => (Get c key).map (fun r => r.2)
  | Op.tryGet key outValue => (TryGet c key outValue).map (fun r => r.2)
  | Op.exists_ key => some (Exists c key).2

/-- The key a call touches when it is made in state `c`: the key of a `Put`, the key of a
`Get` or `TryGet` that finds it; `Exists` and a failed lookup touch nothing. -/
def touched (c : LRUCache TKey TValue) (op : Op TKey TValue) : Option TKey :=
  match op with
  | Op.put key _ => some key
  | Op.get key => if (Exists c key).1 then some key else none
  | Op.tryGet key _ => if (Exists c key).1 then some key else none
  | Op.exists_ _ => none

/-- Runs a sequence of calls from the state `s.1`, appending to the log `s.2` the key
touched by each call, in the order of the calls. -/
def exec (s : LRUCache TKey TValue × List (Option TKey)) (ops : List (Op TKey TValue)) :
    Option (LRUCache TKey TValue × List (Option TKey)) :=
  match ops with
  | [] => some s
  | op :: rest =>
    match step s.1 op with
    | none => none
    | some c' => exec (c', s.2 ++ [touched s.1 op]) rest

/-- The states reachable from the freshly constructed cache by a sequence of public calls. -/
def Reachable (capacity : Int) (compactionFactor : ℚ) (threadSafe : Bool)
    (c : LRUCache TKey TValue) : Prop :=
  ∃ ops log, exec (new capacity compactionFactor threadSafe, []) ops = some (c, log)

/-- Time (position in the log, from 0) of the most recent touch of `key`. -/
def lastTouch (log : List (Option TKey)) (key : TKey) : Option Nat :=
  match log with
  | [] => none
  | t :: rest =>
    match lastTouch rest key with
    | some i => some (i + 1)
    | none => if t = some key then some 0 else none

/-! ## Observations -/

/-- The Recency Sequence: the entries of `m_lruList`, front first. -/
def entries (c : LRUCache TKey TValue) : List (LRUEntry TKey TValue) :=
  c.m_lruList.map (fun n => n.entry)

/-- The keys of the Recency Sequence, front first. -/
def keys (c : LRUCache TKey TValue) : List TKey :=
  c.m_lruList.map (fun n => n.entry.Key)

/-- The keys of the Index `m_lookUpMap`. -/
def indexKeys (c : LRUCache TKey TValue) : List TKey :=
  c.m_lookUpMap.map (fun p => p.1)

/-- The value stored for `key` in the Recency Sequence. -/
def valueOf (c : LRUCache TKey TValue) (key : TKey) : Option TValue :=
  (c.m_lruList.find? (fun n => decide (n.entry.Key = key))).map (fun n => n.entry.Value)

/-- The entry count `m_lruList.size()`. -/
def size (c : LRUCache TKey TValue) : Nat := c.m_lruList.length

/-- Consistency of the two containers: node identities and keys of the list are pairwise
distinct, the Index has one pair per key, it maps the key of every list node to the
iterator of that node, it holds no other key, and the allocator is ahead of every node. -/
structure WF (c : LRUCache TKey TValue) : Prop where
  refs_nodup : (c.m_lruList.map (fun n => n.ref)).Nodup
  keys_nodup : c.keys.Nodup
  index_nodup : c.indexKeys.Nodup
  index_of_node : ∀ n ∈ c.m_lruList, find c.m_lookUpMap n.entry.Key = some ⟨n.ref⟩
  node_of_index : ∀ k e, find c.m_lookUpMap k = some e → k ∈ c.keys
  refs_lt : ∀ n ∈ c.m_lruList, n.ref < c.nextNode

/-- Closed form of the state `ensureCompaction` leaves when it trims at position `pos`
(see `ensureCompaction_of_ge`): the first `pos` nodes stay, and the Index loses the keys
of the other nodes. -/
def trimmed (c : LRUCache TKey TValue) (pos : Nat) : LRUCache TKey TValue :=
  { c with
    m_lookUpMap := c.m_lookUpMap.filter
      (fun p => !decide (p.1 ∈ (c.m_lruList.drop pos).map (fun n => n.entry.Key))),
    m_lruList := c.m_lruList.take pos }

/-- The invariant of the reachable states of a cache built with `capacity` and `f`. -/
structure Inv (capacity : Int) (f : ℚ) (c : LRUCache TKey TValue) : Prop where
  wf : WF c
  cap : c.m_capacity = capacity
  factor : c.m_compactFactor = f

/-- The keys `ks` are listed by decreasing time of their most recent touch in `log`,
and each of them has been touched. -/
def RecencyOrdered (log : List (Option TKey)) (ks : List TKey) : Prop :=
  (∀ k ∈ ks, ∃ i, lastTouch log k = some i) ∧
  ks.Pairwise (fun a b => ∃ i j, lastTouch log a = some i ∧ lastTouch log b = some j ∧ j < i)

/-- A small reachable state: capacity 3, compact factor 0.25 (a `float`), after
`Put(1,10); Put(2,20)`. -/
def sample : LRUCache Nat Nat :=
  { m_lruList := [⟨1, ⟨2, 20⟩⟩, ⟨0, ⟨1, 10⟩⟩]
    m_lookUpMap := [(2, ⟨1⟩), (1, ⟨0⟩)]
    m_compactFactor := 1 / 4
    m_capacity := 3
    m_threadSafe := true
    nextNode := 2 }

/-- The constructor seen as a call that may throw.  Its body consists of three
assignments: it has no `throw` and validates nothing, so every call returns the object
built by `new`. -/
def Construct (capacity : Int) (compactionFactor : ℚ) (threadSafe : Bool) :
    Except Exn (LRUCache TKey TValue) :=
  Except.ok (new capacity compactionFactor threadSafe)

/-- The calls `Put(i, i)` for `i = 0, ..., n - 1`, in order. -/
def putRange (n : Nat) : List (Op Nat Nat) :=
  (List.range n).map (fun i => Op.put i i)

end LRUCache

/-! ## The test program (src/LRUCacheTest.cpp) -/

/-- The class `MyData` of the test program. -/
structure MyData where
  X : Int
  Y : String
deriving DecidableEq, Repr

/-- The object `data` built in the loops of `main` for the index `i`:
`data.X = i; data.Y = to_string(i)`. -/
def testData (i : Nat) : MyData := { X := i, Y := toString i }

/-- The first and the third loop of `main`: `cache.Put(to_string(i), data)` for the
indices of `is`, in order. -/
def mainPuts (c : LRUCache String MyData) (is : List Nat) : Option (LRUCache String MyData) :=
  match is with
  | [] => some c
  | i :: rest =>
    match LRUCache.Put c (toString i) (testData i) with
    | none => none
    | some c' => mainPuts c' rest

/-- The second loop of `main`: for every index, `Exists` is called twice (once for the
output, once in the condition) and `Get` is called when the key exists.  The result is
`none` when the loop does not run to its end (undefined behaviour or an uncaught
exception). -/
def mainReads (c : LRUCache String MyData) (is : List Nat) : Option (LRUCache String MyData) :=
  match is with
  | [] => some c
  | i :: rest =>
    let c1 := (LRUCache.Exists c (toString i)).2
    let r := LRUCache.Exists c1 (toString i)
    if r.1 then
      match LRUCache.Get r.2 (toString i) with
      | some (Except.ok _, c2) => mainReads c2 rest
      | _ => none
    else mainReads r.2 rest

/-- The function `main`, stopped in its third loop right before the iteration `i = n`
(`11 ≤ n`); `testMain 30` is the whole program.  The cache is
`LRUCache<string, MyData> cache(20, 0.4)`: the `double` literal `0.4` is converted to the
`float` parameter. -/
def testMain (n : Nat) : Option (LRUCache String MyData) :=
  match mainPuts (LRUCache.new 20 (toFloat (toDouble (2 / 5))) true) (List.range 10) with
  | none => none
  | some c1 =>
    match mainReads c1 (List.range 30) with
    | none => none
    | some c2 => mainPuts c2 (List.range' 11 (n - 11))

end LRUCacheModel

/-! # Lemmas -/

namespace LRUCacheModel

section ContainerLemmas

variable {TKey TValue : Type} [DecidableEq TKey]

theorem find_filter (m : List (TKey × LookUpEntry)) (q : TKey → Bool) (k : TKey) :
    find (m.filter (fun p => q p.1)) k = if q k then find m k else none := by
  induction m with
  | nil => simp [find]
  | cons p rest ih =>
    by_cases hp : q p.1 = true
    · by_cases hk : p.1 = k
      · subst hk; simp [List.filter_cons, find, hp]
      · simp [List.filter_cons, find, hp, hk, ih]
    · by_cases hk : p.1 = k
      · subst hk; simp [List.filter_cons, hp, ih]
      · simp [List.filter_cons, find, hp, hk, ih]

theorem find_isSome_iff (m : List (TKey × LookUpEntry)) (k : TKey) :
    (find m k).isSome = true ↔ k ∈ m.map (fun p => p.1) := by
  induction m with
  | nil => simp [find]
  | cons p rest ih =>
    by_cases hk : p.1 = k
    · simp [find, hk]
    · have hk' : ¬ k = p.1 := fun h => hk h.symm
      simp [find, hk, hk', ih]

theorem find_eq_none_iff (m : List (TKey × LookUpEntry)) (k : TKey) :
    find m k = none ↔ k ∉ m.map (fun p => p.1) := by
  rw [← find_isSome_iff]
  cases find m k <;> simp

theorem eraseAll_eq (nodes : List (Node TKey TValue)) (m : List (TKey × LookUpEntry)) :
    nodes.foldl (fun m n => erase m n.entry.Key) m
      = m.filter (fun p => !decide (p.1 ∈ nodes.map (fun n => n.entry.Key))) := by
  induction nodes generalizing m with
  | nil => simp
  | cons n ns ih =>
    rw [List.foldl_cons, ih, erase, List.filter_filter]
    congr 1
    funext p
    simp [Bool.and_comm]

end ContainerLemmas

section ListLemmas

variable {TKey TValue : Type}

theorem unlink_perm (l : List (Node TKey TValue)) (it : Nat) (x : Node TKey TValue)
    (rest : List (Node TKey TValue)) (h : unlink l it = some (x, rest)) :
    x.ref = it ∧ l.Perm (x :: rest) := by
  induction l generalizing rest with
  | nil => simp [unlink] at h
  | cons n tl ih =>
    unfold unlink at h
    by_cases hn : n.ref = it
    · simp only [hn, if_true, Option.some.injEq, Prod.mk.injEq] at h
      obtain ⟨rfl, rfl⟩ := h
      exact ⟨hn, List.Perm.refl _⟩
    · simp only [hn, if_false] at h
      cases hu : unlink tl it with
      | none => simp [hu] at h
      | some r =>
        obtain ⟨y, rest'⟩ := r
        simp only [hu, Option.some.injEq, Prod.mk.injEq] at h
        obtain ⟨rfl, rfl⟩ := h
        obtain ⟨h1, h2⟩ := ih rest' hu
        exact ⟨h1, (List.Perm.cons n h2).trans (List.Perm.swap _ _ _)⟩

theorem unlink_of_mem (l : List (Node TKey TValue)) (n : Node TKey TValue)
    (hnd : (l.map (fun x => x.ref)).Nodup) (hn : n ∈ l) :
    unlink l n.ref = some (n, l.filter (fun x => !decide (x.ref = n.ref))) := by
  induction l with
  | nil => simp at hn
  | cons a tl ih =>
    rw [List.map_cons, List.nodup_cons] at hnd
    obtain ⟨ha, hnd'⟩ := hnd
    have hfresh : ∀ x ∈ tl, x.ref ≠ a.ref := by
      intro x hx hxa
      exact ha (List.mem_map.2 ⟨x, hx, hxa⟩)
    unfold unlink
    by_cases hr : a.ref = n.ref
    · have hna : n = a := by
        rcases List.mem_cons.1 hn with h | h
        · exact h
        · exact absurd hr.symm (hfresh n h)
      subst hna
      have : tl.filter (fun x => !decide (x.ref = n.ref)) = tl := by
        rw [List.filter_eq_self]
        intro x hx
        simpa using hfresh x hx
      simp [this]
    · have hn' : n ∈ tl := by
        rcases List.mem_cons.1 hn with h | h
        · exact absurd (by rw [h]) hr
        · exact h
      simp [hr, ih hnd' hn']

theorem moveToFront_of_mem (l : List (Node TKey TValue)) (n : Node TKey TValue)
    (hnd : (l.map (fun x => x.ref)).Nodup) (hn : n ∈ l) :
    LRUCache.moveToFront l n.ref = some (n :: l.filter (fun x => !decide (x.ref = n.ref))) := by
  unfold LRUCache.moveToFront
  by_cases hb : some n.ref ≠ listBegin l
  · simp only [hb, if_true, spliceFront, unlink_of_mem l n hnd hn, ne_eq, not_false_eq_true]
  · have hb' : listBegin l = some n.ref := by
      by_contra h
      exact hb (fun h' => h h'.symm)
    have hu := unlink_of_mem l n hnd hn
    cases l with
    | nil => simp at hn
    | cons a tl =>
      simp only [listBegin, Option.some.injEq] at hb'
      simp only [unlink, hb', if_true, Option.some.injEq, Prod.mk.injEq] at hu
      simp only [hb, if_false]
      rw [← hu.2, hu.1]

theorem moveToFront_perm (l : List (Node TKey TValue)) (n : Node TKey TValue)
    (hnd : (l.map (fun x => x.ref)).Nodup) (hn : n ∈ l) :
    l.Perm (n :: l.filter (fun x => !decide (x.ref = n.ref))) := by
  have h := (unlink_perm l n.ref _ _ (unlink_of_mem l n hnd hn)).2
  exact h

end ListLemmas

end LRUCacheModel

namespace LRUCacheModel

/-! ## Binary floating point -/

theorem log2Aux_eq (fuel n : Nat) (h : n ≤ fuel) : log2Aux fuel n = Nat.log 2 n := by
  induction fuel generalizing n with
  | zero =>
    have : n = 0 := by omega
    subst this
    simp [log2Aux]
  | succ fuel ih =>
    show (if n < 2 then 0 else log2Aux fuel (n / 2) + 1) = Nat.log 2 n
    by_cases hn : n < 2
    · simp [hn, Nat.log_of_lt hn]
    · simp only [hn, if_false]
      rw [@Nat.log_of_one_lt_of_le 2 n (by norm_num) (by omega), ih (n / 2) (by omega)]

theorem natLog2_eq (n : Nat) : natLog2 n = Nat.log 2 n := log2Aux_eq n n (le_refl n)

/-- The binary exponent of a positive number below `2^m` is below `m`. -/
theorem ilog2_lt (x : ℚ) (m : Int) (hx0 : 0 < x) (hx : x < (2 : ℚ) ^ m) : ilog2 x < m := by
  have h2 : (1 : ℚ) < 2 := by norm_num
  unfold ilog2
  rw [abs_of_pos hx0, natLog2_eq, natLog2_eq]
  by_cases hc : (2 : ℚ) ^ ((Nat.log 2 x.num.natAbs : Int) - (Nat.log 2 x.den : Int)) ≤ x
  · simp only [hc, if_true]
    exact (zpow_lt_zpow_iff_right₀ h2).1 (lt_of_le_of_lt hc hx)
  · simp only [hc, if_false]
    have hnum : 0 < x.num := Rat.num_pos.2 hx0
    have hN : x.num.natAbs ≠ 0 := by omega
    have hden : (0 : ℚ) < (x.den : ℚ) := by exact_mod_cast x.den_pos
    have hxeq : x = (x.num.natAbs : ℚ) / (x.den : ℚ) := by
      have h1 : ((x.num.natAbs : Int) : ℚ) = (x.num : ℚ) := by
        rw [Int.natAbs_of_nonneg hnum.le]
      have h3 : ((x.num.natAbs : Nat) : ℚ) = ((x.num.natAbs : Int) : ℚ) :=
        (Int.cast_natCast _).symm
      rw [h3, h1]
      exact (Rat.num_div_den x).symm
    have ha : ((2 : ℚ) ^ (Nat.log 2 x.num.natAbs : Int)) ≤ (x.num.natAbs : ℚ) := by
      rw [zpow_natCast]
      exact_mod_cast Nat.pow_log_le_self 2 hN
    have hb : (x.den : ℚ) < (2 : ℚ) ^ ((Nat.log 2 x.den : Int) + 1) := by
      have := Nat.lt_pow_succ_log_self (by norm_num : 1 < 2) x.den
      have h4 : ((Nat.log 2 x.den : Int) + 1) = ((Nat.log 2 x.den + 1 : Nat) : Int) := by
        push_cast; rfl
      rw [h4, zpow_natCast]
      exact_mod_cast this
    have hlow' : (2 : ℚ) ^ ((Nat.log 2 x.num.natAbs : Int) - (Nat.log 2 x.den : Int) - 1)
        < (x.num.natAbs : ℚ) / (x.den : ℚ) := by
      have hpos : (0 : ℚ) < (2 : ℚ) ^ ((Nat.log 2 x.num.natAbs : Int)
          - (Nat.log 2 x.den : Int) - 1) := zpow_pos (by norm_num) _
      rw [lt_div_iff₀ hden]
      calc (2 : ℚ) ^ ((Nat.log 2 x.num.natAbs : Int) - (Nat.log 2 x.den : Int) - 1) * (x.den : ℚ)
          < (2 : ℚ) ^ ((Nat.log 2 x.num.natAbs : Int) - (Nat.log 2 x.den : Int) - 1)
              * (2 : ℚ) ^ ((Nat.log 2 x.den : Int) + 1) := by
            exact mul_lt_mul_of_pos_left hb hpos
        _ = (2 : ℚ) ^ (Nat.log 2 x.num.natAbs : Int) := by
            rw [← zpow_add₀ (by norm_num : (2 : ℚ) ≠ 0)]
            congr 1
            ring
        _ ≤ (x.num.natAbs : ℚ) := ha
    have hlow : (2 : ℚ) ^ ((Nat.log 2 x.num.natAbs : Int) - (Nat.log 2 x.den : Int) - 1) < x :=
      lt_of_lt_of_eq hlow' hxeq.symm
    exact (zpow_lt_zpow_iff_right₀ h2).1 (lt_trans hlow hx)

theorem roundHalfEven_cases (y : ℚ) :
    (roundHalfEven y = ⌊y⌋ ∧ y - (⌊y⌋ : ℚ) ≤ 1 / 2) ∨
    (roundHalfEven y = ⌊y⌋ + 1 ∧ 1 / 2 ≤ y - (⌊y⌋ : ℚ)) := by
  unfold roundHalfEven
  split_ifs with h1 h2 h3
  · exact Or.inl ⟨rfl, h1.le⟩
  · exact Or.inr ⟨rfl, h2.le⟩
  · exact Or.inl ⟨rfl, not_lt.1 h2⟩
  · exact Or.inr ⟨rfl, not_lt.1 h1⟩

theorem abs_roundHalfEven_sub_le (y : ℚ) : |(roundHalfEven y : ℚ) - y| ≤ 1 / 2 := by
  have hfl := Int.floor_le y
  have hlt := Int.lt_floor_add_one y
  rw [abs_le]
  rcases roundHalfEven_cases y with ⟨h, hb⟩ | ⟨h, hb⟩
  · rw [h]; constructor <;> linarith
  · rw [h]; push_cast; constructor <;> linarith

theorem le_roundHalfEven (y : ℚ) (m : Int) (h : (m : ℚ) ≤ y) : m ≤ roundHalfEven y := by
  have hm : m ≤ ⌊y⌋ := Int.le_floor.2 h
  rcases roundHalfEven_cases y with ⟨h', _⟩ | ⟨h', _⟩ <;> omega

theorem roundHalfEven_le (y : ℚ) (m : Int) (h : y ≤ (m : ℚ)) : roundHalfEven y ≤ m := by
  have hfl := Int.floor_le y
  rcases roundHalfEven_cases y with ⟨h', _⟩ | ⟨h', hb⟩
  · rw [h']
    exact_mod_cast (le_trans hfl h)
  · rw [h']
    have : (⌊y⌋ : ℚ) < (m : ℚ) := by linarith
    have : ⌊y⌋ < m := by exact_mod_cast this
    omega

theorem roundNearestEven_nonneg (p : Nat) (emin : Int) (x : ℚ) (hx : 0 ≤ x) :
    0 ≤ roundNearestEven p emin x := by
  unfold roundNearestEven
  split_ifs with h0
  · exact le_refl _
  · have hs : (0 : ℚ) < (2 : ℚ) ^ (max (ilog2 x - ((p : Int) - 1)) emin) :=
      zpow_pos (by norm_num) _
    apply mul_nonneg _ hs.le
    have : (0 : Int) ≤ roundHalfEven (x / (2 : ℚ) ^ (max (ilog2 x - ((p : Int) - 1)) emin)) :=
      le_roundHalfEven _ 0 (by simpa using div_nonneg hx hs.le)
    exact_mod_cast this

/-- Below `2^24` the spacing of the `float`s is at most 1, so rounding a positive number
to `float` does not cross an integer. -/
theorem toFloat_int_bounds (x : ℚ) (hx0 : 0 < x) (hx : x < (2 : ℚ) ^ (24 : Int)) (n : Int) :
    (x ≤ (n : ℚ) → toFloat x ≤ (n : ℚ)) ∧ ((n : ℚ) ≤ x → (n : ℚ) ≤ toFloat x) := by
  have hne : x ≠ 0 := ne_of_gt hx0
  have hlog := ilog2_lt x 24 hx0 hx
  have he : max (ilog2 x - (((24 : Nat) : Int) - 1)) (-149) ≤ 0 := by
    apply max_le <;> omega
  obtain ⟨j, hj⟩ : ∃ j : Nat, max (ilog2 x - (((24 : Nat) : Int) - 1)) (-149) = -(j : Int) :=
    ⟨(-(max (ilog2 x - (((24 : Nat) : Int) - 1)) (-149))).toNat, by
      rw [Int.toNat_of_nonneg (by omega)]; ring⟩
  unfold toFloat roundNearestEven
  simp only [hne, if_false]
  rw [hj]
  have hs : (0 : ℚ) < (2 : ℚ) ^ (-(j : Int)) := zpow_pos (by norm_num) _
  have hinv : (2 : ℚ) ^ (-(j : Int)) * ((2 ^ j : Nat) : ℚ) = 1 := by
    rw [zpow_neg, zpow_natCast]
    push_cast
    exact inv_mul_cancel₀ (pow_ne_zero _ (by norm_num))
  have hdiv : ∀ z : ℚ, z / (2 : ℚ) ^ (-(j : Int)) = z * ((2 ^ j : Nat) : ℚ) := by
    intro z
    rw [div_eq_iff (ne_of_gt hs), mul_assoc, mul_comm ((2 ^ j : Nat) : ℚ), hinv, mul_one]
  rw [hdiv]
  have hjpos : (0 : ℚ) ≤ ((2 ^ j : Nat) : ℚ) := by positivity
  constructor
  · intro hn
    have h1 : x * ((2 ^ j : Nat) : ℚ) ≤ ((n * (2 ^ j : Nat) : Int) : ℚ) := by
      push_cast
      exact mul_le_mul_of_nonneg_right hn (by positivity)
    have h2 := roundHalfEven_le _ _ h1
    have h3 : (roundHalfEven (x * ((2 ^ j : Nat) : ℚ)) : ℚ) ≤ (n : ℚ) * ((2 ^ j : Nat) : ℚ) := by
      exact_mod_cast h2
    calc (roundHalfEven (x * ((2 ^ j : Nat) : ℚ)) : ℚ) * (2 : ℚ) ^ (-(j : Int))
        ≤ (n : ℚ) * ((2 ^ j : Nat) : ℚ) * (2 : ℚ) ^ (-(j : Int)) :=
          mul_le_mul_of_nonneg_right h3 hs.le
      _ = (n : ℚ) := by rw [mul_assoc, mul_comm ((2 ^ j : Nat) : ℚ), hinv, mul_one]
  · intro hn
    have h1 : ((n * (2 ^ j : Nat) : Int) : ℚ) ≤ x * ((2 ^ j : Nat) : ℚ) := by
      push_cast
      exact mul_le_mul_of_nonneg_right hn (by positivity)
    have h2 := le_roundHalfEven _ _ h1
    have h3 : (n : ℚ) * ((2 ^ j : Nat) : ℚ) ≤ (roundHalfEven (x * ((2 ^ j : Nat) : ℚ)) : ℚ) := by
      exact_mod_cast h2
    calc (n : ℚ) = (n : ℚ) * ((2 ^ j : Nat) : ℚ) * (2 : ℚ) ^ (-(j : Int)) := by
          rw [mul_assoc, mul_comm ((2 ^ j : Nat) : ℚ), hinv, mul_one]
      _ ≤ (roundHalfEven (x * ((2 ^ j : Nat) : ℚ)) : ℚ) * (2 : ℚ) ^ (-(j : Int)) :=
          mul_le_mul_of_nonneg_right h3 hs.le

theorem toFloat_two_pow_24 : toFloat ((2 : ℚ) ^ (24 : Int)) = (2 : ℚ) ^ (24 : Int) := by
  decide!

theorem toFloat_zero : toFloat 0 = 0 := by
  simp [toFloat, roundNearestEven]

/-- Rounding to `float` keeps a number of `[0, n]` in `[0, n]`, for an integer
`n ≤ 2^24`. -/
theorem toFloat_le_int (x : ℚ) (n : Int) (hx0 : 0 ≤ x) (hn : x ≤ (n : ℚ))
    (hn24 : n ≤ 16777216) : 0 ≤ toFloat x ∧ toFloat x ≤ (n : ℚ) := by
  refine ⟨roundNearestEven_nonneg 24 (-149) x hx0, ?_⟩
  have h24 : ((2 : ℚ) ^ (24 : Int)) = 16777216 := by norm_num
  have hn' : (n : ℚ) ≤ 16777216 := by exact_mod_cast hn24
  rcases eq_or_lt_of_le hx0 with h0 | h0
  · rw [← h0, toFloat_zero]; linarith
  · by_cases hlt : x < (2 : ℚ) ^ (24 : Int)
    · exact (toFloat_int_bounds x h0 hlt n).1 hn
    · have hx : x = (2 : ℚ) ^ (24 : Int) := by
        rw [h24] at hlt ⊢
        linarith
      rw [hx, toFloat_two_pow_24, ← hx]
      exact hn

/-- An `int` between 0 and `2^24` is converted to `float` exactly. -/
theorem toFloat_int (n : Int) (h0 : 0 ≤ n) (h24 : n ≤ 16777216) : toFloat (n : ℚ) = (n : ℚ) := by
  have h24q : ((2 : ℚ) ^ (24 : Int)) = 16777216 := by norm_num
  rcases eq_or_lt_of_le h0 with hz | hpos
  · rw [← hz]; simp [toFloat_zero]
  · rcases eq_or_lt_of_le h24 with he | hl
    · rw [he]
      have := toFloat_two_pow_24
      rw [h24q] at this
      exact_mod_cast this
    · have hx0 : (0 : ℚ) < (n : ℚ) := by exact_mod_cast hpos
      have hx : (n : ℚ) < (2 : ℚ) ^ (24 : Int) := by
        rw [h24q]; exact_mod_cast hl
      have := toFloat_int_bounds (n : ℚ) hx0 hx n
      exact le_antisymm (this.1 (le_refl _)) (this.2 (le_refl _))

/-- The rounding error of `toFloat` on `[0, 2^m)` is at most `2^(m - 25)`. -/
theorem toFloat_error (x : ℚ) (m : Int) (hx0 : 0 ≤ x) (hx : x < (2 : ℚ) ^ m) (hm : -125 ≤ m) :
    |toFloat x - x| ≤ (2 : ℚ) ^ (m - 25) := by
  rcases eq_or_lt_of_le hx0 with h0 | h0
  · rw [← h0, toFloat_zero]
    simp only [sub_zero, abs_zero]
    exact (zpow_pos (by norm_num) _).le
  · have hne : x ≠ 0 := ne_of_gt h0
    have hlog := ilog2_lt x m h0 hx
    have he : max (ilog2 x - (((24 : Nat) : Int) - 1)) (-149) ≤ m - 24 := by
      apply max_le <;> omega
    unfold toFloat roundNearestEven
    simp only [hne, if_false]
    generalize max (ilog2 x - (((24 : Nat) : Int) - 1)) (-149) = e at he
    have hs : (0 : ℚ) < (2 : ℚ) ^ e := zpow_pos (by norm_num) _
    have herr := abs_roundHalfEven_sub_le (x / (2 : ℚ) ^ e)
    have hfac : (roundHalfEven (x / (2 : ℚ) ^ e) : ℚ) * (2 : ℚ) ^ e - x
        = ((roundHalfEven (x / (2 : ℚ) ^ e) : ℚ) - x / (2 : ℚ) ^ e) * (2 : ℚ) ^ e := by
      field_simp
    rw [hfac, abs_mul, abs_of_pos hs]
    have hle : (2 : ℚ) ^ e ≤ (2 : ℚ) ^ (m - 24) := zpow_le_zpow_right₀ (by norm_num) he
    have hhalf : (2 : ℚ) ^ (m - 25) = (2 : ℚ) ^ (m - 24) / 2 := by
      have : m - 24 = (m - 25) + 1 := by ring
      rw [this, zpow_add_one₀ (by norm_num : (2 : ℚ) ≠ 0)]
      ring
    rw [hhalf]
    calc |(roundHalfEven (x / (2 : ℚ) ^ e) : ℚ) - x / (2 : ℚ) ^ e| * (2 : ℚ) ^ e
        ≤ 1 / 2 * (2 : ℚ) ^ e := mul_le_mul_of_nonneg_right herr hs.le
      _ ≤ 1 / 2 * (2 : ℚ) ^ (m - 24) := by
          apply mul_le_mul_of_nonneg_left hle (by norm_num)
      _ = (2 : ℚ) ^ (m - 24) / 2 := by ring

end LRUCacheModel

namespace LRUCacheModel

theorem toFloat_one : toFloat 1 = 1 := by
  have := toFloat_int 1 (by norm_num) (by norm_num)
  simpa using this

theorem floatToInt_of_nonneg (y : ℚ) (hy : 0 ≤ y) (hmax : ⌊y⌋ ≤ 2147483647) :
    floatToInt y = some ⌊y⌋ := by
  have h : Int.tdiv y.num (y.den : Int) = ⌊y⌋ := by
    rw [Rat.floor_def, Int.tdiv_eq_ediv (Rat.num_nonneg.2 hy) (Int.ofNat_nonneg _)]
  have h0 : (0 : Int) ≤ ⌊y⌋ := Int.floor_nonneg.2 hy
  unfold floatToInt
  rw [h]
  have : -2147483648 ≤ ⌊y⌋ ∧ ⌊y⌋ ≤ 2147483647 := ⟨by omega, hmax⟩
  simp only [this, and_self, if_true]

theorem floatToInt_nonneg (y : ℚ) (hy : 0 ≤ y) (cut : Int) (h : floatToInt y = some cut) :
    0 ≤ cut := by
  unfold floatToInt at h
  split_ifs at h with hr
  rw [← Option.some.inj h]
  exact Int.tdiv_nonneg (Rat.num_nonneg.2 hy) (Int.ofNat_nonneg _)

/-- For a capacity of at least 0 and a compact factor of at most 1 the product is not
negative, so a cut position that is defined is not negative. -/
theorem cutOf_nonneg (capacity : Int) (f : ℚ) (hcap : 0 ≤ capacity) (hf : f ≤ 1)
    (cut : Int) (h : cutOf capacity f = some cut) : 0 ≤ cut := by
  unfold cutOf at h
  refine floatToInt_nonneg _ ?_ cut h
  apply roundNearestEven_nonneg
  apply mul_nonneg
  · exact roundNearestEven_nonneg 24 (-149) _ (by exact_mod_cast hcap)
  · apply roundNearestEven_nonneg
    rw [toFloat_one]
    linarith

/-- For a capacity between 0 and `2^24` and a compact factor in `[0, 1]` the cut
position is defined and lies between 0 and the capacity. -/
theorem cutOf_bounds (capacity : Int) (f : ℚ) (hcap : 0 ≤ capacity) (h24 : capacity ≤ 16777216)
    (h0 : 0 ≤ f) (h1 : f ≤ 1) :
    ∃ cut, cutOf capacity f = some cut ∧ 0 ≤ cut ∧ cut ≤ capacity ∧
      cut = ⌊toFloat ((capacity : ℚ) * toFloat (1 - f))⌋ := by
  have hg := toFloat_le_int (1 - f) 1 (by linarith) (by push_cast; linarith) (by norm_num)
  have hcq : (0 : ℚ) ≤ (capacity : ℚ) := by exact_mod_cast hcap
  have hp0 : 0 ≤ (capacity : ℚ) * toFloat (1 - f) := mul_nonneg hcq hg.1
  have hp1 : (capacity : ℚ) * toFloat (1 - f) ≤ (capacity : ℚ) := by
    have := mul_le_mul_of_nonneg_left hg.2 hcq
    simpa using this
  have hy := toFloat_le_int _ capacity hp0 hp1 h24
  have hfl : ⌊toFloat ((capacity : ℚ) * toFloat (1 - f))⌋ ≤ capacity := by
    have := Int.floor_le (toFloat ((capacity : ℚ) * toFloat (1 - f)))
    exact_mod_cast (le_trans this hy.2)
  refine ⟨⌊toFloat ((capacity : ℚ) * toFloat (1 - f))⌋, ?_, Int.floor_nonneg.2 hy.1, hfl, rfl⟩
  unfold cutOf
  rw [toFloat_int capacity hcap h24, toFloat_one]
  exact floatToInt_of_nonneg _ hy.1 (by omega)

/-- A positive number is below `2^(ilog2 x + 1)`. -/
theorem lt_two_pow_ilog2_succ (x : ℚ) (hx0 : 0 < x) : x < (2 : ℚ) ^ (ilog2 x + 1) := by
  have h2 : (1 : ℚ) < 2 := by norm_num
  unfold ilog2
  rw [abs_of_pos hx0, natLog2_eq, natLog2_eq]
  by_cases hc : (2 : ℚ) ^ ((Nat.log 2 x.num.natAbs : Int) - (Nat.log 2 x.den : Int)) ≤ x
  · simp only [hc, if_true]
    have hnum : 0 < x.num := Rat.num_pos.2 hx0
    have hden : (0 : ℚ) < (x.den : ℚ) := by exact_mod_cast x.den_pos
    have hD : x.den ≠ 0 := x.den_nz
    have hxeq : x = (x.num.natAbs : ℚ) / (x.den : ℚ) := by
      have h1 : ((x.num.natAbs : Int) : ℚ) = (x.num : ℚ) := by
        rw [Int.natAbs_of_nonneg hnum.le]
      have h3 : ((x.num.natAbs : Nat) : ℚ) = ((x.num.natAbs : Int) : ℚ) :=
        (Int.cast_natCast _).symm
      rw [h3, h1]
      exact (Rat.num_div_den x).symm
    have ha : (x.num.natAbs : ℚ) < (2 : ℚ) ^ ((Nat.log 2 x.num.natAbs : Int) + 1) := by
      have := Nat.lt_pow_succ_log_self (by norm_num : 1 < 2) x.num.natAbs
      have h4 : ((Nat.log 2 x.num.natAbs : Int) + 1) = ((Nat.log 2 x.num.natAbs + 1 : Nat) : Int) := by
        push_cast; rfl
      rw [h4, zpow_natCast]
      exact_mod_cast this
    have hb : ((2 : ℚ) ^ (Nat.log 2 x.den : Int)) ≤ (x.den : ℚ) := by
      rw [zpow_natCast]
      exact_mod_cast Nat.pow_log_le_self 2 hD
    have hup : (x.num.natAbs : ℚ) / (x.den : ℚ)
        < (2 : ℚ) ^ ((Nat.log 2 x.num.natAbs : Int) - (Nat.log 2 x.den : Int) + 1) := by
      have hpos : (0 : ℚ) < (2 : ℚ) ^ ((Nat.log 2 x.num.natAbs : Int)
          - (Nat.log 2 x.den : Int) + 1) := zpow_pos (by norm_num) _
      rw [div_lt_iff₀ hden]
      calc (x.num.natAbs : ℚ) < (2 : ℚ) ^ ((Nat.log 2 x.num.natAbs : Int) + 1) := ha
        _ = (2 : ℚ) ^ ((Nat.log 2 x.num.natAbs : Int) - (Nat.log 2 x.den : Int) + 1)
              * (2 : ℚ) ^ (Nat.log 2 x.den : Int) := by
            rw [← zpow_add₀ (by norm_num : (2 : ℚ) ≠ 0)]
            congr 1
            ring
        _ ≤ (2 : ℚ) ^ ((Nat.log 2 x.num.natAbs : Int) - (Nat.log 2 x.den : Int) + 1)
              * (x.den : ℚ) := mul_le_mul_of_nonneg_left hb hpos.le
    exact lt_of_eq_of_lt hxeq hup
  · simp only [hc, if_false]
    have : (Nat.log 2 x.num.natAbs : Int) - (Nat.log 2 x.den : Int) - 1 + 1
        = (Nat.log 2 x.num.natAbs : Int) - (Nat.log 2 x.den : Int) := by ring
    rw [this]
    exact not_le.1 hc

/-- A positive number is at least `2^(ilog2 x)`. -/
theorem two_pow_ilog2_le (x : ℚ) (hx0 : 0 < x) : (2 : ℚ) ^ (ilog2 x) ≤ x := by
  by_contra h
  exact lt_irrefl _ (ilog2_lt x (ilog2 x) hx0 (not_le.1 h))

/-- The binary exponent of a number that is at least `2^m` is at least `m`. -/
theorem le_ilog2 (x : ℚ) (m : Int) (hx : (2 : ℚ) ^ m ≤ x) : m ≤ ilog2 x := by
  have hx0 : 0 < x := lt_of_lt_of_le (zpow_pos (by norm_num) _) hx
  have h := lt_of_le_of_lt hx (lt_two_pow_ilog2_succ x hx0)
  have := (zpow_lt_zpow_iff_right₀ (by norm_num : (1 : ℚ) < 2)).1 h
  omega

/-- A `float` of `[1/2, 1)` is a multiple of `2^-24`: `2^24` times the rounded value is an
integer, which a second rounding leaves as it is. -/
theorem toFloat_scaled (w : ℚ) (hw0 : 1 / 2 ≤ w) (hw1 : w < 1) :
    toFloat (16777216 * toFloat w) = 16777216 * toFloat w := by
  have hpos : 0 < w := by linarith
  have hne : w ≠ 0 := ne_of_gt hpos
  have hl1 : ilog2 w < 0 := ilog2_lt w 0 hpos (by simpa using hw1)
  have hl2 : -1 ≤ ilog2 w := le_ilog2 w (-1) (by
    have : (2 : ℚ) ^ (-1 : Int) = 1 / 2 := by norm_num
    rw [this]; exact hw0)
  have hl : ilog2 w = -1 := by omega
  have hg := toFloat_le_int w 1 hpos.le (by push_cast; exact hw1.le) (by norm_num)
  have he : max (ilog2 w - (((24 : Nat) : Int) - 1)) (-149) = -24 := by
    rw [hl]; decide
  have hgeq : toFloat w = (roundHalfEven (w / (2 : ℚ) ^ (-24 : Int)) : ℚ) * (2 : ℚ) ^ (-24 : Int) := by
    unfold toFloat roundNearestEven
    simp only [hne, if_false]
    rw [he]
  have hv : (2 : ℚ) ^ (-24 : Int) = 1 / 16777216 := by norm_num
  have hy : 16777216 * toFloat w = ((roundHalfEven (w / (2 : ℚ) ^ (-24 : Int)) : Int) : ℚ) := by
    rw [hgeq, hv]; ring
  rw [hy]
  have h0 : (0 : ℚ) ≤ ((roundHalfEven (w / (2 : ℚ) ^ (-24 : Int)) : Int) : ℚ) := by
    rw [← hy]; linarith [hg.1]
  have h1 : ((roundHalfEven (w / (2 : ℚ) ^ (-24 : Int)) : Int) : ℚ) ≤ 16777216 := by
    rw [← hy]
    have h2 : toFloat w ≤ 1 := by simpa using hg.2
    linarith
  exact toFloat_int _ (by exact_mod_cast h0) (by exact_mod_cast h1)

/-- Two numbers less than 1 apart: the floor of the one is at least the floor of the
other minus 1 and at most its ceiling. -/
theorem floor_near (x z : ℚ) (h : |z - x| < 1) : ⌊x⌋ - 1 ≤ ⌊z⌋ ∧ ⌊z⌋ ≤ ⌈x⌉ := by
  rw [abs_lt] at h
  have hfl := Int.floor_le z
  have hfl2 := Int.lt_floor_add_one z
  have hx1 := Int.floor_le x
  have hx2 := Int.le_ceil x
  constructor
  · have : ((⌊x⌋ - 2 : Int) : ℚ) < ((⌊z⌋ : Int) : ℚ) := by
      push_cast
      linarith [h.1]
    have : ⌊x⌋ - 2 < ⌊z⌋ := by exact_mod_cast this
    omega
  · have : ((⌊z⌋ : Int) : ℚ) < ((⌈x⌉ + 1 : Int) : ℚ) := by
      push_cast
      linarith [h.2]
    have : ⌊z⌋ < ⌈x⌉ + 1 := by exact_mod_cast this
    omega

/-- The values of some literals as `float`, and the cut position the code computes for
some configurations (the factor is a `double` literal converted to `float`).  The last
three are configurations outside `capacity ≥ 1`, `compactFactor ∈ (0,1)`; in the very last
the product `2^31` is no `int`. -/
theorem cutOf_examples :
    (toFloat (toDouble (2 / 5)) = 13421773 / 33554432 ∧
      toFloat (toDouble (3 / 5)) = 5033165 / 8388608 ∧
      toFloat (toDouble (1 / 4)) = 1 / 4) ∧
    cutOf 20 (toFloat (toDouble (2 / 5))) = some 12 ∧
    cutOf 3 (toFloat (toDouble (1 / 4))) = some 2 ∧
    cutOf 3 (toFloat (toDouble (1 / 3))) = some 1 ∧
    cutOf 5 (toFloat (toDouble (3 / 5))) = some 1 ∧
    cutOf 3 (toFloat (toDouble (2 / 3))) = some 0 ∧
    cutOf 4 (toFloat (toDouble (1 / 1000000000))) = some 4 ∧
    cutOf 1 (toFloat (toDouble (1 / 1000000000))) = some 1 ∧
    cutOf 16777219 (toFloat (toDouble (1 / 1000000000))) = some 16777220 ∧
    cutOf 16777219 (toFloat (toDouble (1 / 1000))) = some 16760443 ∧
    cutOf (-1) (toFloat (toDouble (1 / 1000000000))) = some (-1) ∧
    cutOf 1 (toFloat (toDouble (5 / 2))) = some (-1) ∧
    cutOf (-2147483648) (toFloat (toDouble 2)) = none := by
  refine ⟨⟨by decide!, by decide!, by decide!⟩, by decide!, by decide!, by decide!, by decide!,
    by decide!, by decide!, by decide!, by decide!, by decide!, by decide!, by decide!,
    by decide!⟩

/-- For a capacity between 0 and `2^24` and a compact factor in `(0, 1]` the cut position
is `capacity * (1 - compactFactor)` up to rounding: at least its floor minus 1 and at
most its ceiling. -/
theorem cutOf_near (capacity : Int) (f : ℚ) (hcap : 0 ≤ capacity) (h24 : capacity ≤ 16777216)
    (h0 : 0 < f) (h1 : f ≤ 1) (cut : Int) (h : cutOf capacity f = some cut) :
    ⌊(capacity : ℚ) * (1 - f)⌋ - 1 ≤ cut ∧ cut ≤ ⌈(capacity : ℚ) * (1 - f)⌉ := by
  obtain ⟨cut', hc', _, _, hcut'⟩ := cutOf_bounds capacity f hcap h24 h0.le h1
  rw [h] at hc'
  have hcc : cut = cut' := Option.some.inj hc'
  rw [hcc, hcut']
  apply floor_near
  have hg := toFloat_le_int (1 - f) 1 (by linarith) (by push_cast; linarith) (by norm_num)
  have hcq : (0 : ℚ) ≤ (capacity : ℚ) := by exact_mod_cast hcap
  have hcq24 : (capacity : ℚ) ≤ 16777216 := by exact_mod_cast h24
  have hp0 : 0 ≤ (capacity : ℚ) * toFloat (1 - f) := mul_nonneg hcq hg.1
  have hp1 : (capacity : ℚ) * toFloat (1 - f) ≤ (capacity : ℚ) := by
    have := mul_le_mul_of_nonneg_left hg.2 hcq
    simpa using this
  have hv1 : (2 : ℚ) ^ ((0 : Int) - 25) = 1 / 33554432 := by norm_num
  have hv2 : (2 : ℚ) ^ ((24 : Int) - 25) = 1 / 2 := by norm_num
  have hv3 : (2 : ℚ) ^ ((-1 : Int) - 25) = 1 / 67108864 := by norm_num
  have hsplit : ∀ a b c : ℚ, |a - b| ≤ 1 / 2 → |b - c| < 1 / 2 → |a - c| < 1 := by
    intro a b c hab hbc
    rw [abs_le] at hab
    rw [abs_lt] at hbc ⊢
    constructor <;> linarith [hab.1, hab.2, hbc.1, hbc.2]
  have hprodeq : ∀ e : ℚ, |toFloat (1 - f) - (1 - f)| ≤ e →
      |(capacity : ℚ) * toFloat (1 - f) - (capacity : ℚ) * (1 - f)| ≤ (capacity : ℚ) * e := by
    intro e he
    rw [← mul_sub, abs_mul, abs_of_nonneg hcq]
    exact mul_le_mul_of_nonneg_left he hcq
  by_cases hlt : capacity < 16777216
  · have hcq' : (capacity : ℚ) ≤ 16777215 := by
      have : capacity ≤ 16777215 := by omega
      exact_mod_cast this
    have he1 := toFloat_error (1 - f) 0 (by linarith) (by simpa using h0) (by norm_num)
    rw [hv1] at he1
    have he2 := toFloat_error ((capacity : ℚ) * toFloat (1 - f)) 24 hp0
      (by norm_num; linarith) (by norm_num)
    rw [hv2] at he2
    apply hsplit _ _ _ he2
    have := hprodeq _ he1
    have h3 : (capacity : ℚ) * (1 / 33554432) < 1 / 2 := by linarith
    exact lt_of_le_of_lt this h3
  · have hceq : capacity = 16777216 := by omega
    have hcqe : (capacity : ℚ) = 16777216 := by exact_mod_cast hceq
    by_cases hw : 1 - f < 1 / 2
    · have he1 := toFloat_error (1 - f) (-1) (by linarith) (by
        have : (2 : ℚ) ^ (-1 : Int) = 1 / 2 := by norm_num
        rw [this]; exact hw) (by norm_num)
      rw [hv3] at he1
      have he1' := abs_le.1 he1
      have he2 := toFloat_error ((capacity : ℚ) * toFloat (1 - f)) 24 hp0
        (by rw [hcqe]; norm_num; linarith [he1'.2]) (by norm_num)
      rw [hv2] at he2
      apply hsplit _ _ _ he2
      have := hprodeq _ he1
      have h3 : (capacity : ℚ) * (1 / 67108864) < 1 / 2 := by rw [hcqe]; norm_num
      exact lt_of_le_of_lt this h3
    · have he1 := toFloat_error (1 - f) 0 (by linarith) (by simpa using h0) (by norm_num)
      rw [hv1] at he1
      have hsc := toFloat_scaled (1 - f) (not_lt.1 hw) (by linarith)
      rw [hcqe, hsc, ← hcqe]
      have := hprodeq _ he1
      have h3 : (capacity : ℚ) * (1 / 33554432) < 1 := by rw [hcqe]; norm_num
      exact lt_of_le_of_lt this h3

/-- Rounding to the nearest integer leaves an integer as it is. -/
theorem roundHalfEven_int (m : Int) : roundHalfEven (m : ℚ) = m :=
  le_antisymm (roundHalfEven_le _ m (le_refl _)) (le_roundHalfEven _ m (le_refl _))

/-- A number of `[1/2, 1)` is rounded to a multiple of `2^-24` that is at least `1/2`. -/
theorem toFloat_half_le (w : ℚ) (hw0 : 1 / 2 ≤ w) (hw1 : w < 1) :
    1 / 2 ≤ toFloat w ∧ ∃ r : Int, toFloat w = (r : ℚ) / 16777216 := by
  have hpos : 0 < w := by linarith
  have hne : w ≠ 0 := ne_of_gt hpos
  have hl1 : ilog2 w < 0 := ilog2_lt w 0 hpos (by simpa using hw1)
  have hl2 : -1 ≤ ilog2 w := le_ilog2 w (-1) (by
    have : (2 : ℚ) ^ (-1 : Int) = 1 / 2 := by norm_num
    rw [this]; exact hw0)
  have hl : ilog2 w = -1 := by omega
  have he : max (ilog2 w - (((24 : Nat) : Int) - 1)) (-149) = -24 := by
    rw [hl]; decide
  have hv : (2 : ℚ) ^ (-24 : Int) = 1 / 16777216 := by norm_num
  have hgeq : toFloat w = (roundHalfEven (w / (1 / 16777216)) : ℚ) * (1 / 16777216) := by
    unfold toFloat roundNearestEven
    simp only [hne, if_false]
    rw [he, hv]
  have hr : (8388608 : Int) ≤ roundHalfEven (w / (1 / 16777216)) := by
    apply le_roundHalfEven
    rw [le_div_iff₀ (by norm_num)]
    push_cast
    linarith
  have hrq : (8388608 : ℚ) ≤ (roundHalfEven (w / (1 / 16777216)) : ℚ) := by exact_mod_cast hr
  refine ⟨?_, roundHalfEven (w / (1 / 16777216)), ?_⟩
  · rw [hgeq]; linarith
  · rw [hgeq]; ring

/-- A multiple of `2^-24` in `[0, 1]` is a `float`. -/
theorem toFloat_fixed (n : Int) (h0 : 0 ≤ n) (h24 : n ≤ 16777216) :
    toFloat ((n : ℚ) / 16777216) = (n : ℚ) / 16777216 := by
  rcases eq_or_lt_of_le h0 with hz | hpos
  · rw [← hz]; simp [toFloat_zero]
  rcases eq_or_lt_of_le h24 with he | hl
  · rw [he]
    have : ((16777216 : Int) : ℚ) / 16777216 = 1 := by norm_num
    rw [this, toFloat_one]
  have hnq : (0 : ℚ) < (n : ℚ) := by exact_mod_cast hpos
  have hnq2 : (n : ℚ) < 16777216 := by exact_mod_cast hl
  have hx0 : (0 : ℚ) < (n : ℚ) / 16777216 := by positivity
  have hx1 : (n : ℚ) / 16777216 < (2 : ℚ) ^ (0 : Int) := by
    rw [zpow_zero, div_lt_one (by norm_num)]
    exact hnq2
  have hlog := ilog2_lt _ 0 hx0 hx1
  have hne : (n : ℚ) / 16777216 ≠ 0 := ne_of_gt hx0
  obtain ⟨j, hj⟩ : ∃ j : Nat,
      max (ilog2 ((n : ℚ) / 16777216) - (((24 : Nat) : Int) - 1)) (-149) = -24 - (j : Int) :=
    ⟨(-24 - max (ilog2 ((n : ℚ) / 16777216) - (((24 : Nat) : Int) - 1)) (-149)).toNat, by
      have : max (ilog2 ((n : ℚ) / 16777216) - (((24 : Nat) : Int) - 1)) (-149) ≤ -24 := by
        apply max_le <;> omega
      rw [Int.toNat_of_nonneg (by omega)]; ring⟩
  unfold toFloat roundNearestEven
  simp only [hne, if_false]
  rw [hj]
  have h2 : (2 : ℚ) ^ (-24 - (j : Int)) = 1 / 16777216 / (2 : ℚ) ^ j := by
    rw [zpow_sub₀ (by norm_num : (2 : ℚ) ≠ 0), zpow_natCast]
    norm_num
  have hjpos : (0 : ℚ) < (2 : ℚ) ^ j := by positivity
  have hdiv : (n : ℚ) / 16777216 / (2 : ℚ) ^ (-24 - (j : Int)) = ((n * 2 ^ j : Int) : ℚ) := by
    rw [h2]
    push_cast
    field_simp
    ring
  rw [hdiv, roundHalfEven_int, h2]
  push_cast
  field_simp
  ring

/-- For a capacity between 1 and `2^24` and a `float` compact factor in `(0, 1)`: when
floor(capacity * (1 - compactFactor)) is at least 1, the cut position the code computes
is at least 1 (and at most the capacity). -/
theorem cutOf_pos_of_floor (capacity : Int) (f : ℚ) (hcap : 1 ≤ capacity)
    (h24 : capacity ≤ 16777216) (h0 : 0 < f) (h1 : f < 1) (hfl : toFloat f = f)
    (hfloor : 1 ≤ ⌊(capacity : ℚ) * (1 - f)⌋) :
    ∃ cut, cutOf capacity f = some cut ∧ 1 ≤ cut ∧ cut ≤ capacity := by
  obtain ⟨cut, hc, _, hc1, hcut⟩ := cutOf_bounds capacity f (by omega) h24 h0.le h1.le
  refine ⟨cut, hc, ?_, hc1⟩
  have hx : (1 : ℚ) ≤ (capacity : ℚ) * (1 - f) := by
    have := Int.le_floor.1 hfloor
    simpa using this
  have hcq : (1 : ℚ) ≤ (capacity : ℚ) := by exact_mod_cast hcap
  have hcq24 : (capacity : ℚ) ≤ 16777216 := by exact_mod_cast h24
  have hg := toFloat_le_int (1 - f) 1 (by linarith) (by push_cast; linarith) (by norm_num)
  have hg1 : toFloat (1 - f) ≤ 1 := by simpa using hg.2
  have hy : (1 : ℚ) ≤ (capacity : ℚ) * toFloat (1 - f) := by
    by_cases hhalf : f < 1 / 2
    · have hge := (toFloat_half_le (1 - f) (by linarith) (by linarith)).1
      have hc2 : (2 : ℚ) ≤ (capacity : ℚ) := by
        have : 2 ≤ capacity := by
          by_contra hlt
          have hc1' : capacity = 1 := by omega
          rw [hc1'] at hx
          push_cast at hx
          linarith
        exact_mod_cast this
      nlinarith
    · obtain ⟨_, r, hr⟩ := toFloat_half_le f (not_lt.1 hhalf) h1
      rw [hfl] at hr
      have hr0 : (0 : ℚ) < (r : ℚ) := by
        have : (0 : ℚ) < (r : ℚ) / 16777216 := by rw [← hr]; exact h0
        have h3 := mul_pos this (by norm_num : (0 : ℚ) < 16777216)
        rwa [div_mul_cancel₀ _ (by norm_num : (16777216 : ℚ) ≠ 0)] at h3
      have hr1 : (r : ℚ) < 16777216 := by
        have : (r : ℚ) / 16777216 < 1 := by rw [← hr]; exact h1
        rwa [div_lt_one (by norm_num)] at this
      have hw : 1 - f = ((16777216 - r : Int) : ℚ) / 16777216 := by
        rw [hr]; push_cast; field_simp
      have hfix := toFloat_fixed (16777216 - r)
        (by have : r < 16777216 := by exact_mod_cast hr1
            omega)
        (by have : 0 < r := by exact_mod_cast hr0
            omega)
      rw [← hw] at hfix
      rw [hfix]
      exact hx
  have hy24 : (capacity : ℚ) * toFloat (1 - f) ≤ 16777216 := by nlinarith [hg.1]
  have hz : (1 : ℚ) ≤ toFloat ((capacity : ℚ) * toFloat (1 - f)) := by
    rcases eq_or_lt_of_le hy24 with he | hl
    · rw [he]
      have := toFloat_int 16777216 (by norm_num) (by norm_num)
      push_cast at this
      rw [this]; norm_num
    · have hpos : (0 : ℚ) < (capacity : ℚ) * toFloat (1 - f) := lt_of_lt_of_le one_pos hy
      have := (toFloat_int_bounds _ hpos (by norm_num; exact hl) 1).2
        (by push_cast; exact hy)
      simpa using this
  rw [hcut]
  exact Int.le_floor.2 (by simpa using hz)

/-- Rounding to `float` does not cross a multiple of `2^-24` of `[0, 1]` from below. -/
theorem toFloat_le_fixed (w : ℚ) (n : Int) (hw0 : 0 ≤ w) (hn : w ≤ (n : ℚ) / 16777216)
    (hn24 : n ≤ 16777216) : toFloat w ≤ (n : ℚ) / 16777216 := by
  rcases eq_or_lt_of_le hw0 with hz | hpos
  · rw [← hz, toFloat_zero]; rw [← hz] at hn; exact hn
  have hnq : (n : ℚ) ≤ 16777216 := by exact_mod_cast hn24
  by_cases hw1 : w < 1
  · have hx1 : w < (2 : ℚ) ^ (0 : Int) := by simpa using hw1
    have hlog := ilog2_lt _ 0 hpos hx1
    have hne : w ≠ 0 := ne_of_gt hpos
    obtain ⟨j, hj⟩ : ∃ j : Nat,
        max (ilog2 w - (((24 : Nat) : Int) - 1)) (-149) = -24 - (j : Int) :=
      ⟨(-24 - max (ilog2 w - (((24 : Nat) : Int) - 1)) (-149)).toNat, by
        have : max (ilog2 w - (((24 : Nat) : Int) - 1)) (-149) ≤ -24 := by
          apply max_le <;> omega
        rw [Int.toNat_of_nonneg (by omega)]; ring⟩
    unfold toFloat roundNearestEven
    simp only [hne, if_false]
    rw [hj]
    have h2 : (2 : ℚ) ^ (-24 - (j : Int)) = 1 / 16777216 / (2 : ℚ) ^ j := by
      rw [zpow_sub₀ (by norm_num : (2 : ℚ) ≠ 0), zpow_natCast]
      norm_num
    have hjpos : (0 : ℚ) < (2 : ℚ) ^ j := by positivity
    rw [h2]
    have hle : w / (1 / 16777216 / (2 : ℚ) ^ j) ≤ ((n * 2 ^ j : Int) : ℚ) := by
      rw [div_le_iff₀ (by positivity)]
      push_cast
      have : (n : ℚ) * 2 ^ j * (1 / 16777216 / 2 ^ j) = (n : ℚ) / 16777216 := by
        field_simp
        ring
      rw [this]
      exact hn
    have hr := roundHalfEven_le _ _ hle
    have hrq : (roundHalfEven (w / (1 / 16777216 / (2 : ℚ) ^ j)) : ℚ)
        ≤ ((n * 2 ^ j : Int) : ℚ) := by exact_mod_cast hr
    calc (roundHalfEven (w / (1 / 16777216 / (2 : ℚ) ^ j)) : ℚ) * (1 / 16777216 / (2 : ℚ) ^ j)
        ≤ ((n * 2 ^ j : Int) : ℚ) * (1 / 16777216 / (2 : ℚ) ^ j) :=
          mul_le_mul_of_nonneg_right hrq (by positivity)
      _ = (n : ℚ) / 16777216 := by push_cast; field_simp; ring
  · have hn1 : (n : ℚ) / 16777216 ≤ 1 := by
      rw [div_le_one (by norm_num)]; exact hnq
    have hw : w = 1 := le_antisymm (le_trans hn hn1) (not_lt.1 hw1)
    rw [hw, toFloat_one]
    rw [hw] at hn
    exact hn

/-- For a capacity between 0 and `2^24` and a `float` compact factor in `(0, 1)`, except
for the capacity 1 with a compact factor below `2^-24`: when
floor(capacity * (1 - compactFactor)) is 0, the cut position the code computes is 0. -/
theorem cutOf_zero_of_floor (capacity : Int) (f : ℚ) (hcap : 0 ≤ capacity)
    (h24 : capacity ≤ 16777216) (h0 : 0 < f) (h1 : f < 1) (hfl : toFloat f = f)
    (hfloor : ⌊(capacity : ℚ) * (1 - f)⌋ = 0)
    (hne : capacity ≠ 1 ∨ 1 / 16777216 ≤ f) : cutOf capacity f = some 0 := by
  obtain ⟨cut, hc, hc0, _, hcut⟩ := cutOf_bounds capacity f hcap h24 h0.le h1.le
  have hx0 : (0 : ℚ) ≤ (capacity : ℚ) * (1 - f) := Int.floor_nonneg.1 (by rw [hfloor])
  have hx1 : (capacity : ℚ) * (1 - f) < 1 := by
    have := Int.lt_floor_add_one ((capacity : ℚ) * (1 - f))
    rw [hfloor] at this
    simpa using this
  have hg := toFloat_le_int (1 - f) 1 (by linarith) (by push_cast; linarith) (by norm_num)
  have hcq : (0 : ℚ) ≤ (capacity : ℚ) := by exact_mod_cast hcap
  have hy0 : 0 ≤ (capacity : ℚ) * toFloat (1 - f) := mul_nonneg hcq hg.1
  have hz : toFloat ((capacity : ℚ) * toFloat (1 - f)) ≤ (16777215 : Int) / 16777216 := by
    apply toFloat_le_fixed _ _ hy0 _ (by norm_num)
    by_cases hone : capacity = 1
    · have hf : 1 / 16777216 ≤ f := by
        rcases hne with h | h
        · exact absurd hone h
        · exact h
      rw [hone]
      simp only [Int.cast_one, one_mul]
      exact toFloat_le_fixed _ _ (by linarith) (by push_cast; linarith) (by norm_num)
    · by_cases hzero : capacity = 0
      · rw [hzero]; norm_num
      · have hc2 : 2 ≤ capacity := by omega
        have hc2q : (2 : ℚ) ≤ (capacity : ℚ) := by exact_mod_cast hc2
        have hhalf : 1 / 2 ≤ f := by nlinarith
        obtain ⟨_, r, hr⟩ := toFloat_half_le f hhalf h1
        rw [hfl] at hr
        have hr0 : (0 : ℚ) < (r : ℚ) := by
          have : (0 : ℚ) < (r : ℚ) / 16777216 := by rw [← hr]; exact h0
          have h3 := mul_pos this (by norm_num : (0 : ℚ) < 16777216)
          rwa [div_mul_cancel₀ _ (by norm_num : (16777216 : ℚ) ≠ 0)] at h3
        have hr1 : (r : ℚ) < 16777216 := by
          have : (r : ℚ) / 16777216 < 1 := by rw [← hr]; exact h1
          rwa [div_lt_one (by norm_num)] at this
        have hw : 1 - f = ((16777216 - r : Int) : ℚ) / 16777216 := by
          rw [hr]; push_cast; field_simp
        have hfix := toFloat_fixed (16777216 - r)
          (by have : r < 16777216 := by exact_mod_cast hr1
              omega)
          (by have : 0 < r := by exact_mod_cast hr0
              omega)
        rw [← hw] at hfix
        rw [hfix]
        rw [hw] at hx1 ⊢
        have hprod : (capacity : ℚ) * (((16777216 - r : Int) : ℚ) / 16777216)
            = ((capacity * (16777216 - r) : Int) : ℚ) / 16777216 := by
          push_cast; ring
        rw [hprod] at hx1 ⊢
        rw [div_lt_one (by norm_num)] at hx1
        have hlt : capacity * (16777216 - r) < 16777216 := by exact_mod_cast hx1
        have hle : capacity * (16777216 - r) ≤ 16777215 := by omega
        have hleq : ((capacity * (16777216 - r) : Int) : ℚ) ≤ ((16777215 : Int) : ℚ) := by
          exact_mod_cast hle
        exact div_le_div_of_nonneg_right hleq (by norm_num)
  have hfz : ⌊toFloat ((capacity : ℚ) * toFloat (1 - f))⌋ < 1 := by
    rw [Int.floor_lt]
    have : ((16777215 : Int) : ℚ) / 16777216 < 1 := by norm_num
    push_cast
    linarith
  have hcz : cut = 0 := by omega
  rw [hc, hcz]

end LRUCacheModel

namespace LRUCacheModel

namespace LRUCache

variable {TKey TValue : Type} [DecidableEq TKey]

theorem WF.lookup {c : LRUCache TKey TValue} (h : WF c) {k : TKey} {e : LookUpEntry}
    (hf : find c.m_lookUpMap k = some e) :
    ∃ n ∈ c.m_lruList, n.entry.Key = k ∧ e = ⟨n.ref⟩ := by
  have hk := h.node_of_index k e hf
  obtain ⟨n, hn, hnk⟩ := List.mem_map.1 hk
  refine ⟨n, hn, hnk, ?_⟩
  have := h.index_of_node n hn
  rw [hnk, hf] at this
  exact Option.some.inj this

theorem WF.node_unique {c : LRUCache TKey TValue} (h : WF c) {n n' : Node TKey TValue}
    (hn : n ∈ c.m_lruList) (hn' : n' ∈ c.m_lruList) (hk : n.entry.Key = n'.entry.Key) :
    n = n' := by
  have h1 := h.index_of_node n hn
  have h2 := h.index_of_node n' hn'
  rw [hk, h2] at h1
  have hr : n'.ref = n.ref := by simpa using h1
  exact (List.inj_on_of_nodup_map h.refs_nodup hn hn' hr.symm)

theorem WF.absent_iff {c : LRUCache TKey TValue} (h : WF c) (k : TKey) :
    find c.m_lookUpMap k = none ↔ k ∉ c.keys := by
  constructor
  · intro hf hk
    obtain ⟨n, hn, hnk⟩ := List.mem_map.1 hk
    have := h.index_of_node n hn
    rw [hnk, hf] at this
    exact Option.noConfusion this
  · intro hk
    cases hf : find c.m_lookUpMap k with
    | none => rfl
    | some e => exact absurd (h.node_of_index k e hf) hk

/-- Well-formedness only depends on the identities and keys of the list nodes, up to
their order. -/
theorem WF.of_skeleton_perm {c : LRUCache TKey TValue} (h : WF c)
    (l' : List (Node TKey TValue))
    (hp : (c.m_lruList.map (fun n => (n.ref, n.entry.Key))).Perm
      (l'.map (fun n => (n.ref, n.entry.Key)))) :
    WF { c with m_lruList := l' } := by
  have hrefs : (c.m_lruList.map (fun n => n.ref)).Perm (l'.map (fun n => n.ref)) := by
    have := hp.map Prod.fst
    simpa [List.map_map, Function.comp] using this
  have hkeys : (c.m_lruList.map (fun n => n.entry.Key)).Perm (l'.map (fun n => n.entry.Key)) := by
    have := hp.map Prod.snd
    simpa [List.map_map, Function.comp] using this
  have hmem : ∀ n' ∈ l', ∃ n ∈ c.m_lruList, n.ref = n'.ref ∧ n.entry.Key = n'.entry.Key := by
    intro n' hn'
    have : (n'.ref, n'.entry.Key) ∈ c.m_lruList.map (fun n => (n.ref, n.entry.Key)) :=
      hp.symm.subset (List.mem_map.2 ⟨n', hn', rfl⟩)
    obtain ⟨n, hn, he⟩ := List.mem_map.1 this
    simp only [Prod.mk.injEq] at he
    exact ⟨n, hn, he.1, he.2⟩
  refine ⟨hrefs.nodup_iff.1 h.refs_nodup, hkeys.nodup_iff.1 h.keys_nodup, h.index_nodup, ?_, ?_, ?_⟩
  · intro n' hn'
    obtain ⟨n, hn, hr, hk⟩ := hmem n' hn'
    have := h.index_of_node n hn
    simpa [hr, hk] using this
  · intro k e hf
    exact hkeys.subset (h.node_of_index k e hf)
  · intro n' hn'
    obtain ⟨n, hn, hr, _⟩ := hmem n' hn'
    have := h.refs_lt n hn
    simpa [hr] using this

end LRUCache

end LRUCacheModel

namespace LRUCacheModel

namespace LRUCache

variable {TKey TValue : Type} [DecidableEq TKey]

omit [DecidableEq TKey] in
/-- The list after the node `n` has been moved to the front. -/
theorem promoted_skeleton_perm (l : List (Node TKey TValue)) (n n' : Node TKey TValue)
    (hnd : (l.map (fun x => x.ref)).Nodup) (hn : n ∈ l)
    (hr : n'.ref = n.ref) (hk : n'.entry.Key = n.entry.Key) :
    (l.map (fun x => (x.ref, x.entry.Key))).Perm
      ((n' :: l.filter (fun x => !decide (x.ref = n.ref))).map (fun x => (x.ref, x.entry.Key))) := by
  have h := (moveToFront_perm l n hnd hn).map (fun x => (x.ref, x.entry.Key))
  simpa [hr, hk] using h

/-- A `Get` of a key of the Index, in a well-formed state: the node of the key moves to
the front, the other nodes keep their order, and the value of the node is returned. -/
theorem Get_of_find {c : LRUCache TKey TValue} (h : WF c) {k : TKey} {e : LookUpEntry}
    (hf : find c.m_lookUpMap k = some e) :
    ∃ n ∈ c.m_lruList, n.entry.Key = k ∧ e = ⟨n.ref⟩ ∧
      Get c k = some (Except.ok n.entry.Value,
        { c with m_lruList := n :: c.m_lruList.filter (fun x => !decide (x.ref = n.ref)) }) := by
  obtain ⟨n, hn, hnk, he⟩ := h.lookup hf
  refine ⟨n, hn, hnk, he, ?_⟩
  unfold Get
  simp only [hf, he, moveToFront_of_mem c.m_lruList n h.refs_nodup hn, deref, if_true]

/-- A `Get` of a key that is not in the Index throws and leaves the state as it is. -/
theorem Get_of_find_none {c : LRUCache TKey TValue} {k : TKey}
    (hf : find c.m_lookUpMap k = none) :
    Get c k = some (Except.error (Exn.invalid_argument "key"), c) := by
  unfold Get
  simp only [hf]

theorem TryGet_of_find {c : LRUCache TKey TValue} (h : WF c) {k : TKey} {e : LookUpEntry}
    (out : TValue) (hf : find c.m_lookUpMap k = some e) :
    ∃ n ∈ c.m_lruList, n.entry.Key = k ∧ e = ⟨n.ref⟩ ∧
      TryGet c k out = some ((true, n.entry.Value),
        { c with m_lruList := n :: c.m_lruList.filter (fun x => !decide (x.ref = n.ref)) }) := by
  obtain ⟨n, hn, hnk, he⟩ := h.lookup hf
  refine ⟨n, hn, hnk, he, ?_⟩
  unfold TryGet
  simp only [hf, he, moveToFront_of_mem c.m_lruList n h.refs_nodup hn, deref, if_true]

theorem putEntry_of_find {c : LRUCache TKey TValue} (h : WF c) {k : TKey} {e : LookUpEntry}
    (v : TValue) (hf : find c.m_lookUpMap k = some e) :
    ∃ n ∈ c.m_lruList, n.entry.Key = k ∧ e = ⟨n.ref⟩ ∧
      putEntry c k v = some { c with m_lruList :=
        (⟨n.ref, ⟨k, v⟩⟩ :: c.m_lruList.filter (fun x => !decide (x.ref = n.ref))) } := by
  obtain ⟨n, hn, hnk, he⟩ := h.lookup hf
  refine ⟨n, hn, hnk, he, ?_⟩
  unfold putEntry
  simp only [hf, he, moveToFront_of_mem c.m_lruList n h.refs_nodup hn, assignValue, if_true, hnk]

theorem putEntry_of_find_none {c : LRUCache TKey TValue} {k : TKey} (v : TValue)
    (hf : find c.m_lookUpMap k = none) :
    putEntry c k v = some { c with
      m_lruList := { ref := c.nextNode, entry := { Key := k, Value := v } } :: c.m_lruList,
      m_lookUpMap := (k, ⟨c.nextNode⟩) :: c.m_lookUpMap,
      nextNode := c.nextNode + 1 } := by
  unfold putEntry
  simp only [hf, emplace_front, listBegin, emplace]

theorem WF_promote {c : LRUCache TKey TValue} (h : WF c) (n n' : Node TKey TValue)
    (hn : n ∈ c.m_lruList) (hr : n'.ref = n.ref) (hk : n'.entry.Key = n.entry.Key) :
    WF { c with m_lruList := n' :: c.m_lruList.filter (fun x => !decide (x.ref = n.ref)) } :=
  h.of_skeleton_perm _ (promoted_skeleton_perm c.m_lruList n n' h.refs_nodup hn hr hk)

theorem WF_insert {c : LRUCache TKey TValue} (h : WF c) {k : TKey} (v : TValue)
    (hf : find c.m_lookUpMap k = none) :
    WF { c with
      m_lruList := { ref := c.nextNode, entry := { Key := k, Value := v } } :: c.m_lruList,
      m_lookUpMap := (k, ⟨c.nextNode⟩) :: c.m_lookUpMap,
      nextNode := c.nextNode + 1 } := by
  have hk : k ∉ c.keys := (h.absent_iff k).1 hf
  have hk' : k ∉ c.indexKeys := (find_eq_none_iff _ _).1 hf
  refine ⟨?_, ?_, ?_, ?_, ?_, ?_⟩
  · simp only [List.map_cons, List.nodup_cons]
    refine ⟨?_, h.refs_nodup⟩
    intro hm
    obtain ⟨x, hx, hxr⟩ := List.mem_map.1 hm
    have := h.refs_lt x hx
    omega
  · simp only [keys, List.map_cons, List.nodup_cons]
    exact ⟨hk, h.keys_nodup⟩
  · simp only [indexKeys, List.map_cons, List.nodup_cons]
    exact ⟨hk', h.index_nodup⟩
  · intro x hx
    rcases List.mem_cons.1 hx with rfl | hx
    · simp [find]
    · have hne : ¬ k = x.entry.Key := by
        intro heq
        exact hk (List.mem_map.2 ⟨x, hx, heq.symm⟩)
      simp only [find, hne, if_false]
      exact h.index_of_node x hx
  · intro k' e hfe
    simp only [keys, List.map_cons, List.mem_cons]
    by_cases hkk : k = k'
    · exact Or.inl hkk.symm
    · simp only [find, hkk, if_false] at hfe
      exact Or.inr (h.node_of_index k' e hfe)
  · intro x hx
    rcases List.mem_cons.1 hx with rfl | hx
    · simp
    · have := h.refs_lt x hx
      simp only
      omega

theorem WF_putEntry {c c' : LRUCache TKey TValue} (h : WF c) {k : TKey} {v : TValue}
    (hp : putEntry c k v = some c') : WF c' := by
  cases hf : find c.m_lookUpMap k with
  | none =>
    rw [putEntry_of_find_none v hf] at hp
    rw [← Option.some.inj hp]
    exact WF_insert h v hf
  | some e =>
    obtain ⟨n, hn, hnk, _, hpe⟩ := putEntry_of_find h v hf
    rw [hpe] at hp
    rw [← Option.some.inj hp]
    exact WF_promote h n ⟨n.ref, ⟨k, v⟩⟩ hn rfl hnk.symm

end LRUCache

end LRUCacheModel

namespace LRUCacheModel

namespace LRUCache

variable {TKey TValue : Type} [DecidableEq TKey]

theorem ensureCompaction_of_lt {c : LRUCache TKey TValue}
    (h : (c.m_lruList.length : Int) < c.m_capacity) : ensureCompaction c = some c := by
  unfold ensureCompaction
  simp only [h, if_true]

theorem ensureCompaction_of_ge {c : LRUCache TKey TValue} {cut : Int}
    (h : ¬ (c.m_lruList.length : Int) < c.m_capacity) (hc : c.cutPosition = some cut)
    (h0 : 0 ≤ cut) (h1 : cut ≤ (c.m_lruList.length : Int)) :
    ensureCompaction c = some (trimmed c cut.toNat) := by
  unfold ensureCompaction
  simp only [h, if_false, hc, advance, h0, h1, and_self, if_true, eraseAll_eq, trimmed]

/-- The compaction has undefined behaviour when the cut position lies outside the list. -/
theorem ensureCompaction_of_out {c : LRUCache TKey TValue} {cut : Int}
    (h : ¬ (c.m_lruList.length : Int) < c.m_capacity) (hc : c.cutPosition = some cut)
    (h1 : ¬ (0 ≤ cut ∧ cut ≤ (c.m_lruList.length : Int))) :
    ensureCompaction c = none := by
  unfold ensureCompaction
  simp only [h, if_false, hc, advance, h1]

theorem ensureCompaction_cases {c c' : LRUCache TKey TValue} (h : ensureCompaction c = some c') :
    c' = c ∨ ∃ pos, c' = trimmed c pos := by
  unfold ensureCompaction at h
  by_cases hlt : (c.m_lruList.length : Int) < c.m_capacity
  · simp only [hlt, if_true, Option.some.injEq] at h
    exact Or.inl h.symm
  · simp only [hlt, if_false] at h
    cases hc : c.cutPosition with
    | none => simp [hc] at h
    | some cut =>
      simp only [hc] at h
      cases ha : advance c.m_lruList cut with
      | none => simp [ha] at h
      | some pos =>
        simp only [ha, Option.some.injEq, eraseAll_eq] at h
        exact Or.inr ⟨pos, h.symm⟩

theorem WF_trimmed {c : LRUCache TKey TValue} (h : WF c) (pos : Nat) : WF (trimmed c pos) := by
  have hsplit : c.m_lruList.take pos ++ c.m_lruList.drop pos = c.m_lruList :=
    List.take_append_drop pos c.m_lruList
  have hkeys : (c.m_lruList.take pos).map (fun n => n.entry.Key)
      ++ (c.m_lruList.drop pos).map (fun n => n.entry.Key) = c.keys := by
    rw [← List.map_append, hsplit]; rfl
  have hnd := h.keys_nodup
  rw [← hkeys, List.nodup_append] at hnd
  obtain ⟨hnd1, _, hdisj⟩ := hnd
  refine ⟨?_, hnd1, ?_, ?_, ?_, ?_⟩
  · exact (h.refs_nodup).sublist ((List.take_sublist pos _).map _)
  · exact (h.index_nodup).sublist ((List.filter_sublist _).map _)
  · intro n hn
    have hn' : n ∈ c.m_lruList := List.mem_of_mem_take hn
    have hk : n.entry.Key ∉ (c.m_lruList.drop pos).map (fun n => n.entry.Key) := by
      intro hm
      exact hdisj (List.mem_map.2 ⟨n, hn, rfl⟩) hm
    have := find_filter c.m_lookUpMap
      (fun k => !decide (k ∈ (c.m_lruList.drop pos).map (fun n => n.entry.Key))) n.entry.Key
    simp only [trimmed]
    rw [this]
    simp only [hk, decide_False, Bool.not_false, if_true]
    exact h.index_of_node n hn'
  · intro k e hf
    have := find_filter c.m_lookUpMap
      (fun k => !decide (k ∈ (c.m_lruList.drop pos).map (fun n => n.entry.Key))) k
    simp only [trimmed] at hf
    rw [this] at hf
    by_cases hk : k ∈ (c.m_lruList.drop pos).map (fun n => n.entry.Key)
    · rw [if_neg (by simp only [hk, decide_True, Bool.not_true, Bool.false_eq_true,
        not_false_eq_true])] at hf
      exact Option.noConfusion hf
    · simp only [hk, decide_False, Bool.not_false, if_true] at hf
      have hmem := h.node_of_index k e hf
      rw [← hkeys, List.mem_append] at hmem
      rcases hmem with hm | hm
      · exact hm
      · exact absurd hm hk
  · intro n hn
    exact h.refs_lt n (List.mem_of_mem_take hn)

theorem WF_ensureCompaction {c c' : LRUCache TKey TValue} (h : WF c)
    (hc : ensureCompaction c = some c') : WF c' := by
  rcases ensureCompaction_cases hc with rfl | ⟨pos, rfl⟩
  · exact h
  · exact WF_trimmed h pos

theorem WF_Put {c c' : LRUCache TKey TValue} (h : WF c) {k : TKey} {v : TValue}
    (hp : Put c k v = some c') : WF c' := by
  unfold Put at hp
  cases hpe : putEntry c k v with
  | none => simp [hpe] at hp
  | some c1 =>
    simp only [hpe] at hp
    exact WF_ensureCompaction (WF_putEntry h hpe) hp

theorem WF_Get {c c' : LRUCache TKey TValue} (h : WF c) {k : TKey} {r : Except Exn TValue}
    (hg : Get c k = some (r, c')) : WF c' := by
  cases hf : find c.m_lookUpMap k with
  | none =>
    rw [Get_of_find_none hf] at hg
    simp only [Option.some.injEq, Prod.mk.injEq] at hg
    rw [← hg.2]; exact h
  | some e =>
    obtain ⟨n, hn, _, _, hge⟩ := Get_of_find h hf
    rw [hge] at hg
    simp only [Option.some.injEq, Prod.mk.injEq] at hg
    rw [← hg.2]
    exact WF_promote h n n hn rfl rfl

theorem WF_TryGet {c c' : LRUCache TKey TValue} (h : WF c) {k : TKey} {out : TValue}
    {r : Bool × TValue} (hg : TryGet c k out = some (r, c')) : WF c' := by
  cases hf : find c.m_lookUpMap k with
  | none =>
    unfold TryGet at hg
    simp only [hf, Option.some.injEq, Prod.mk.injEq] at hg
    rw [← hg.2]; exact h
  | some e =>
    obtain ⟨n, hn, _, _, hge⟩ := TryGet_of_find h out hf
    rw [hge] at hg
    simp only [Option.some.injEq, Prod.mk.injEq] at hg
    rw [← hg.2]
    exact WF_promote h n n hn rfl rfl

theorem WF_step {c c' : LRUCache TKey TValue} (h : WF c) {op : Op TKey TValue}
    (hs : step c op = some c') : WF c' := by
  cases op with
  | put k v => exact WF_Put h hs
  | get k =>
    simp only [step, Option.map_eq_some'] at hs
    obtain ⟨⟨r, c1⟩, hg, rfl⟩ := hs
    exact WF_Get h hg
  | tryGet k out =>
    simp only [step, Option.map_eq_some'] at hs
    obtain ⟨⟨r, c1⟩, hg, rfl⟩ := hs
    exact WF_TryGet h hg
  | exists_ k =>
    simp only [step, Exists, Option.some.injEq] at hs
    rw [← hs]; exact h

theorem WF_new (capacity : Int) (f : ℚ) (ts : Bool) :
    WF (new capacity f ts : LRUCache TKey TValue) := by
  refine ⟨?_, ?_, ?_, ?_, ?_, ?_⟩ <;> simp [new, keys, indexKeys, find]

end LRUCache

end LRUCacheModel

namespace LRUCacheModel

namespace LRUCache

variable {TKey TValue : Type} [DecidableEq TKey]

theorem config_putEntry {c c' : LRUCache TKey TValue} (h : WF c) {k : TKey} {v : TValue}
    (hp : putEntry c k v = some c') :
    c'.m_capacity = c.m_capacity ∧ c'.m_compactFactor = c.m_compactFactor := by
  cases hf : find c.m_lookUpMap k with
  | none =>
    rw [putEntry_of_find_none v hf] at hp
    rw [← Option.some.inj hp]; exact ⟨rfl, rfl⟩
  | some e =>
    obtain ⟨n, _, _, _, hpe⟩ := putEntry_of_find h v hf
    rw [hpe] at hp
    rw [← Option.some.inj hp]; exact ⟨rfl, rfl⟩

theorem putEntry_total {c : LRUCache TKey TValue} (h : WF c) (k : TKey) (v : TValue) :
    ∃ post, putEntry c k v = some post := by
  cases hf : find c.m_lookUpMap k with
  | none => exact ⟨_, putEntry_of_find_none v hf⟩
  | some e =>
    obtain ⟨n, _, _, _, hpe⟩ := putEntry_of_find h v hf
    exact ⟨_, hpe⟩

theorem config_ensureCompaction {c c' : LRUCache TKey TValue} (hc : ensureCompaction c = some c') :
    c'.m_capacity = c.m_capacity ∧ c'.m_compactFactor = c.m_compactFactor := by
  rcases ensureCompaction_cases hc with rfl | ⟨pos, rfl⟩
  · exact ⟨rfl, rfl⟩
  · exact ⟨rfl, rfl⟩

/-- A `Get` or `TryGet` in a well-formed state changes neither the configuration nor the
entry count. -/
theorem promote_facts {c : LRUCache TKey TValue} (h : WF c) {n : Node TKey TValue}
    (hn : n ∈ c.m_lruList) :
    (n :: c.m_lruList.filter (fun x => !decide (x.ref = n.ref))).length = c.m_lruList.length :=
  (moveToFront_perm c.m_lruList n h.refs_nodup hn).length_eq.symm

theorem Put_decompose {c c' : LRUCache TKey TValue} {k : TKey} {v : TValue}
    (hp : Put c k v = some c') :
    ∃ post, putEntry c k v = some post ∧ ensureCompaction post = some c' := by
  unfold Put at hp
  cases hpe : putEntry c k v with
  | none => simp [hpe] at hp
  | some post =>
    simp only [hpe] at hp
    exact ⟨post, rfl, hp⟩

theorem Inv_Put {capacity : Int} {f : ℚ} {c c' : LRUCache TKey TValue} (h : Inv capacity f c)
    {k : TKey} {v : TValue} (hp : Put c k v = some c') : Inv capacity f c' := by
  obtain ⟨post, hpe, hc⟩ := Put_decompose hp
  have h1 := config_putEntry h.wf hpe
  have h2 := config_ensureCompaction hc
  exact ⟨WF_Put h.wf hp, by rw [h2.1, h1.1, h.cap], by rw [h2.2, h1.2, h.factor]⟩

/-- What a `Get` does in a well-formed state: it throws and changes nothing, or it
returns the value of a node and moves that node to the front. -/
theorem Get_cases {c c' : LRUCache TKey TValue} (h : WF c) {k : TKey} {r : Except Exn TValue}
    (hg : Get c k = some (r, c')) :
    (find c.m_lookUpMap k = none ∧ r = Except.error (Exn.invalid_argument "key") ∧ c' = c) ∨
    (∃ n ∈ c.m_lruList, n.entry.Key = k ∧ find c.m_lookUpMap k = some ⟨n.ref⟩ ∧
      r = Except.ok n.entry.Value ∧
      c' = { c with m_lruList := n :: c.m_lruList.filter (fun x => !decide (x.ref = n.ref)) }) := by
  cases hf : find c.m_lookUpMap k with
  | none =>
    rw [Get_of_find_none hf] at hg
    simp only [Option.some.injEq, Prod.mk.injEq] at hg
    exact Or.inl ⟨rfl, hg.1.symm, hg.2.symm⟩
  | some e =>
    obtain ⟨n, hn, hnk, he, hge⟩ := Get_of_find h hf
    rw [hge] at hg
    simp only [Option.some.injEq, Prod.mk.injEq] at hg
    exact Or.inr ⟨n, hn, hnk, by rw [he], hg.1.symm, hg.2.symm⟩

theorem TryGet_cases {c c' : LRUCache TKey TValue} (h : WF c) {k : TKey} {out : TValue}
    {r : Bool × TValue} (hg : TryGet c k out = some (r, c')) :
    (find c.m_lookUpMap k = none ∧ r = (false, out) ∧ c' = c) ∨
    (∃ n ∈ c.m_lruList, n.entry.Key = k ∧ find c.m_lookUpMap k = some ⟨n.ref⟩ ∧
      r = (true, n.entry.Value) ∧
      c' = { c with m_lruList := n :: c.m_lruList.filter (fun x => !decide (x.ref = n.ref)) }) := by
  cases hf : find c.m_lookUpMap k with
  | none =>
    unfold TryGet at hg
    simp only [hf, Option.some.injEq, Prod.mk.injEq] at hg
    exact Or.inl ⟨rfl, hg.1.symm, hg.2.symm⟩
  | some e =>
    obtain ⟨n, hn, hnk, he, hge⟩ := TryGet_of_find h out hf
    rw [hge] at hg
    simp only [Option.some.injEq, Prod.mk.injEq] at hg
    exact Or.inr ⟨n, hn, hnk, by rw [he], hg.1.symm, hg.2.symm⟩

/-- A step other than `Put`, in a well-formed state: the state is unchanged, or one node
has moved to the front. -/
theorem lookup_step_cases {c c' : LRUCache TKey TValue} (h : WF c) {op : Op TKey TValue}
    (hop : ∀ k v, op ≠ Op.put k v) (hs : step c op = some c') :
    (c' = c ∧ touched c op = none) ∨
    (∃ n ∈ c.m_lruList, touched c op = some n.entry.Key ∧
      c' = { c with m_lruList := n :: c.m_lruList.filter (fun x => !decide (x.ref = n.ref)) }) := by
  cases op with
  | put k v => exact absurd rfl (hop k v)
  | get k =>
    simp only [step, Option.map_eq_some'] at hs
    obtain ⟨⟨r, c1⟩, hg, rfl⟩ := hs
    rcases Get_cases h hg with ⟨hf, _, hc⟩ | ⟨n, hn, hnk, hf, _, hc⟩
    · exact Or.inl ⟨hc, by simp [touched, Exists, hf]⟩
    · exact Or.inr ⟨n, hn, by simp [touched, Exists, hf, hnk], hc⟩
  | tryGet k out =>
    simp only [step, Option.map_eq_some'] at hs
    obtain ⟨⟨r, c1⟩, hg, rfl⟩ := hs
    rcases TryGet_cases h hg with ⟨hf, _, hc⟩ | ⟨n, hn, hnk, hf, _, hc⟩
    · exact Or.inl ⟨hc, by simp [touched, Exists, hf]⟩
    · exact Or.inr ⟨n, hn, by simp [touched, Exists, hf, hnk], hc⟩
  | exists_ k =>
    simp only [step, Exists, Option.some.injEq] at hs
    exact Or.inl ⟨hs.symm, rfl⟩

theorem Inv_step {capacity : Int} {f : ℚ} {c c' : LRUCache TKey TValue} (h : Inv capacity f c)
    {op : Op TKey TValue} (hs : step c op = some c') : Inv capacity f c' := by
  by_cases hop : ∃ k v, op = Op.put k v
  · obtain ⟨k, v, rfl⟩ := hop
    exact Inv_Put h hs
  · have hop' : ∀ k v, op ≠ Op.put k v := fun k v he => hop ⟨k, v, he⟩
    refine ⟨WF_step h.wf hs, ?_, ?_⟩
    · rcases lookup_step_cases h.wf hop' hs with ⟨rfl, _⟩ | ⟨n, _, _, rfl⟩
      · exact h.cap
      · exact h.cap
    · rcases lookup_step_cases h.wf hop' hs with ⟨rfl, _⟩ | ⟨n, _, _, rfl⟩
      · exact h.factor
      · exact h.factor

theorem Inv_new (capacity : Int) (f : ℚ) (ts : Bool) :
    Inv capacity f (new capacity f ts : LRUCache TKey TValue) :=
  ⟨WF_new capacity f ts, rfl, rfl⟩

theorem Inv_exec {capacity : Int} {f : ℚ} {s s' : LRUCache TKey TValue × List (Option TKey)}
    (h : Inv capacity f s.1) {ops : List (Op TKey TValue)} (he : exec s ops = some s') :
    Inv capacity f s'.1 := by
  induction ops generalizing s with
  | nil =>
    simp only [exec, Option.some.injEq] at he
    rw [← he]; exact h
  | cons op rest ih =>
    unfold exec at he
    cases hs : step s.1 op with
    | none => simp [hs] at he
    | some c1 =>
      simp only [hs] at he
      exact ih (Inv_step h hs) he

theorem Reachable.inv {capacity : Int} {f : ℚ} {ts : Bool} {c : LRUCache TKey TValue}
    (h : Reachable capacity f ts c) : Inv capacity f c := by
  obtain ⟨ops, log, he⟩ := h
  exact Inv_exec (Inv_new capacity f ts) he

end LRUCache

end LRUCacheModel

namespace LRUCacheModel

namespace LRUCache

variable {TKey TValue : Type} [DecidableEq TKey]

theorem size_trimmed (c : LRUCache TKey TValue) (pos : Nat) :
    (trimmed c pos).size = min pos c.size := by
  simp [trimmed, size, List.length_take]

theorem sample_reachable : Reachable 3 (1 / 4) true sample :=
  ⟨[Op.put 1 10, Op.put 2 20], [some 1, some 2], by decide!⟩

/-- The state before the compaction check of `Put(k, v)` has the entry `(k, v)` at the
front. -/
theorem putEntry_front {c : LRUCache TKey TValue} (h : WF c) (k : TKey) (v : TValue) :
    ∃ post r rest, putEntry c k v = some post ∧ post.m_lruList = ⟨r, ⟨k, v⟩⟩ :: rest := by
  cases hf : find c.m_lookUpMap k with
  | none => exact ⟨_, _, _, putEntry_of_find_none v hf, rfl⟩
  | some e =>
    obtain ⟨n, _, _, _, hpe⟩ := putEntry_of_find h v hf
    exact ⟨_, _, _, hpe, rfl⟩

/-- In a well-formed state whose first node holds `(k, v)`, `Exists(k)` is true and
`Get(k)` returns `v`. -/
theorem front_found {c : LRUCache TKey TValue} (h : WF c) {r : Nat} {k : TKey} {v : TValue}
    {rest : List (Node TKey TValue)} (hl : c.m_lruList = ⟨r, ⟨k, v⟩⟩ :: rest) :
    (Exists c k).1 = true ∧ ∃ c', Get c k = some (Except.ok v, c') := by
  have hmem : (⟨r, ⟨k, v⟩⟩ : Node TKey TValue) ∈ c.m_lruList := by rw [hl]; exact List.mem_cons_self _ _
  have hf := h.index_of_node _ hmem
  refine ⟨by simp [Exists, hf], ?_⟩
  obtain ⟨n, hn, hnk, _, hg⟩ := Get_of_find h hf
  have : n = ⟨r, ⟨k, v⟩⟩ := h.node_unique hn hmem hnk
  rw [this] at hg
  exact ⟨_, hg⟩

theorem find?_key (l : List (Node TKey TValue)) (n : Node TKey TValue)
    (hnd : (l.map (fun x => x.entry.Key)).Nodup) (hn : n ∈ l) :
    l.find? (fun x => decide (x.entry.Key = n.entry.Key)) = some n := by
  induction l with
  | nil => simp at hn
  | cons a tl ih =>
    rw [List.map_cons, List.nodup_cons] at hnd
    by_cases ha : a.entry.Key = n.entry.Key
    · have : n = a := by
        rcases List.mem_cons.1 hn with h | h
        · exact h
        · exact absurd (List.mem_map.2 ⟨n, h, ha.symm⟩) hnd.1
      subst this
      simp
    · have hn' : n ∈ tl := by
        rcases List.mem_cons.1 hn with h | h
        · exact absurd (by rw [h]) ha
        · exact h
      simp [List.find?_cons, ha, ih hnd.2 hn']

theorem WF.valueOf_eq {c : LRUCache TKey TValue} (h : WF c) {n : Node TKey TValue}
    (hn : n ∈ c.m_lruList) : valueOf c n.entry.Key = some n.entry.Value := by
  unfold valueOf
  rw [find?_key c.m_lruList n h.keys_nodup hn]
  rfl

/-- In a well-formed state the nodes other than `n` are the nodes with another key. -/
theorem WF.filter_ref_eq {c : LRUCache TKey TValue} (h : WF c) {n : Node TKey TValue}
    (hn : n ∈ c.m_lruList) :
    c.m_lruList.filter (fun x => !decide (x.ref = n.ref))
      = c.m_lruList.filter (fun x => !decide (x.entry.Key = n.entry.Key)) := by
  apply List.filter_congr
  intro x hx
  have hiff : x.ref = n.ref ↔ x.entry.Key = n.entry.Key := by
    constructor
    · intro hr
      rw [List.inj_on_of_nodup_map h.refs_nodup hx hn hr]
    · intro hk
      rw [h.node_unique hx hn hk]
  simp [hiff]

theorem entries_promoted {c : LRUCache TKey TValue} (h : WF c) {n : Node TKey TValue}
    (hn : n ∈ c.m_lruList) :
    (n :: c.m_lruList.filter (fun x => !decide (x.ref = n.ref))).map (fun x => x.entry)
      = n.entry :: (entries c).filter (fun e => !decide (e.Key = n.entry.Key)) := by
  rw [h.filter_ref_eq hn, entries, List.filter_map]
  rfl

theorem WF.mem_keys_iff {c : LRUCache TKey TValue} (h : WF c) (k : TKey) :
    k ∈ c.indexKeys ↔ k ∈ c.keys := by
  unfold indexKeys
  rw [← find_isSome_iff]
  constructor
  · intro hs
    cases hf : find c.m_lookUpMap k with
    | none => rw [hf] at hs; exact absurd hs (by simp)
    | some e => exact h.node_of_index k e hf
  · intro hk
    by_contra hn
    have : find c.m_lookUpMap k = none := by
      cases hf : find c.m_lookUpMap k with
      | none => rfl
      | some e => rw [hf] at hn; exact absurd rfl hn
    exact (h.absent_iff k).1 this hk

theorem Get_of_mem_keys {c : LRUCache TKey TValue} (h : WF c) {k : TKey} (hk : k ∈ keys c) :
    ∃ n ∈ c.m_lruList, n.entry.Key = k ∧
      Get c k = some (Except.ok n.entry.Value,
        { c with m_lruList := n :: c.m_lruList.filter (fun x => !decide (x.ref = n.ref)) }) := by
  obtain ⟨m, hm, hmk⟩ := List.mem_map.1 hk
  have hf := h.index_of_node m hm
  rw [hmk] at hf
  obtain ⟨n, hn, hnk, _, hg⟩ := Get_of_find h hf
  exact ⟨n, hn, hnk, hg⟩

/-- Two well-formed states with the same nodes for a key store the same value for it. -/
theorem valueOf_congr {c c' : LRUCache TKey TValue} (h : WF c) (h' : WF c') {k : TKey}
    (hiff : ∀ m : Node TKey TValue, m.entry.Key = k → (m ∈ c.m_lruList ↔ m ∈ c'.m_lruList)) :
    valueOf c' k = valueOf c k := by
  by_cases hk : ∃ m ∈ c.m_lruList, m.entry.Key = k
  · obtain ⟨m, hm, hmk⟩ := hk
    have hm' := (hiff m hmk).1 hm
    subst hmk
    rw [h.valueOf_eq hm, h'.valueOf_eq hm']
  · have hnone : ∀ (l : List (Node TKey TValue)), (∀ m ∈ l, m.entry.Key ≠ k) →
        l.find? (fun x => decide (x.entry.Key = k)) = none := by
      intro l hl
      rw [List.find?_eq_none]
      intro x hx
      simp only [decide_eq_true_eq]
      exact hl x hx
    unfold valueOf
    rw [hnone c.m_lruList (fun m hm hmk => hk ⟨m, hm, hmk⟩),
      hnone c'.m_lruList (fun m hm hmk => hk ⟨m, (hiff m hmk).2 hm, hmk⟩)]

theorem lastTouch_snoc (log : List (Option TKey)) (t : Option TKey) (k : TKey) :
    lastTouch (log ++ [t]) k = if t = some k then some log.length else lastTouch log k := by
  induction log with
  | nil => simp [lastTouch]
  | cons a rest ih =>
    have hstep : lastTouch (a :: rest ++ [t]) k =
        (match lastTouch (rest ++ [t]) k with
         | some i => some (i + 1)
         | none => if a = some k then some 0 else none) := rfl
    rw [hstep, ih]
    by_cases ht : t = some k
    · simp [ht]
    · simp [ht, lastTouch]

theorem lastTouch_lt (log : List (Option TKey)) (k : TKey) (i : Nat)
    (h : lastTouch log k = some i) : i < log.length := by
  induction log generalizing i with
  | nil => simp [lastTouch] at h
  | cons a rest ih =>
    simp only [lastTouch] at h
    cases hr : lastTouch rest k with
    | some j =>
      simp only [hr, Option.some.injEq] at h
      have := ih j hr
      simp only [List.length_cons]
      omega
    | none =>
      simp only [hr] at h
      split at h
      · simp only [Option.some.injEq] at h
        simp only [List.length_cons]
        omega
      · exact Option.noConfusion h

theorem RecencyOrdered.no_touch {log : List (Option TKey)} {ks : List TKey}
    (h : RecencyOrdered log ks) : RecencyOrdered (log ++ [none]) ks := by
  have he : ∀ k, lastTouch (log ++ [none]) k = lastTouch log k := by
    intro k; rw [lastTouch_snoc]; simp
  unfold RecencyOrdered
  simp only [he]
  exact h

theorem RecencyOrdered.sublist {log : List (Option TKey)} {ks ks' : List TKey}
    (h : RecencyOrdered log ks) (hs : ks'.Sublist ks) : RecencyOrdered log ks' :=
  ⟨fun k hk => h.1 k (hs.subset hk), h.2.sublist hs⟩

theorem RecencyOrdered.touch {log : List (Option TKey)} {ks : List TKey}
    (h : RecencyOrdered log ks) (k : TKey) :
    RecencyOrdered (log ++ [some k]) (k :: ks.filter (fun x => !decide (x = k))) := by
  have hk : lastTouch (log ++ [some k]) k = some log.length := by
    rw [lastTouch_snoc]; simp
  have hne : ∀ x, x ≠ k → lastTouch (log ++ [some k]) x = lastTouch log x := by
    intro x hx
    rw [lastTouch_snoc]
    have : ¬ (some k = some x) := fun he => hx (Option.some.inj he).symm
    simp [this]
  have hmem : ∀ x ∈ ks.filter (fun x => !decide (x = k)), x ∈ ks ∧ x ≠ k := by
    intro x hx
    have := List.mem_filter.1 hx
    exact ⟨this.1, by simpa using this.2⟩
  constructor
  · intro x hx
    rcases List.mem_cons.1 hx with rfl | hx
    · exact ⟨_, hk⟩
    · obtain ⟨hx1, hx2⟩ := hmem x hx
      rw [hne x hx2]
      exact h.1 x hx1
  · rw [List.pairwise_cons]
    constructor
    · intro b hb
      obtain ⟨hb1, hb2⟩ := hmem b hb
      obtain ⟨j, hj⟩ := h.1 b hb1
      exact ⟨log.length, j, hk, by rw [hne b hb2]; exact hj, lastTouch_lt log b j hj⟩
    · have hsub : (ks.filter (fun x => !decide (x = k))).Pairwise
          (fun a b => ∃ i j, lastTouch log a = some i ∧ lastTouch log b = some j ∧ j < i) :=
        h.2.sublist (List.filter_sublist _)
      refine hsub.imp_of_mem ?_
      intro a b ha hb hab
      rw [hne a (hmem a ha).2, hne b (hmem b hb).2]
      exact hab

theorem keys_promoted {c : LRUCache TKey TValue} (h : WF c) {n : Node TKey TValue}
    (hn : n ∈ c.m_lruList) (e : LRUEntry TKey TValue) (he : e.Key = n.entry.Key) :
    ((⟨n.ref, e⟩ : Node TKey TValue) :: c.m_lruList.filter (fun x => !decide (x.ref = n.ref))).map
        (fun x => x.entry.Key)
      = n.entry.Key :: (keys c).filter (fun x => !decide (x = n.entry.Key)) := by
  rw [h.filter_ref_eq hn, keys, List.filter_map]
  simp only [List.map_cons, he]
  rfl

/-- The keys of the sequence after the insert or update of `Put(k, v)`. -/
theorem keys_putEntry {c post : LRUCache TKey TValue} (h : WF c) {k : TKey} {v : TValue}
    (hp : putEntry c k v = some post) :
    keys post = k :: (keys c).filter (fun x => !decide (x = k)) := by
  cases hf : find c.m_lookUpMap k with
  | none =>
    rw [putEntry_of_find_none v hf] at hp
    rw [← Option.some.inj hp]
    have hk : k ∉ c.keys := (h.absent_iff k).1 hf
    have : (keys c).filter (fun x => !decide (x = k)) = keys c := by
      rw [List.filter_eq_self]
      intro x hx
      have : x ≠ k := fun he => hk (he ▸ hx)
      simpa using this
    rw [this]
    rfl
  | some e =>
    obtain ⟨n, hn, hnk, _, hpe⟩ := putEntry_of_find h v hf
    rw [hpe] at hp
    rw [← Option.some.inj hp]
    have := keys_promoted h hn ⟨k, v⟩ hnk.symm
    rw [hnk] at this
    exact this

theorem keys_Put_sublist {c c' : LRUCache TKey TValue} (h : WF c) {k : TKey} {v : TValue}
    (hp : Put c k v = some c') :
    (keys c').Sublist (k :: (keys c).filter (fun x => !decide (x = k))) := by
  obtain ⟨post, hpe, hc⟩ := Put_decompose hp
  rw [← keys_putEntry h hpe]
  rcases ensureCompaction_cases hc with rfl | ⟨pos, rfl⟩
  · exact List.Sublist.refl _
  · exact (List.take_sublist pos _).map _

theorem RecencyOrdered_step {c c' : LRUCache TKey TValue} {log : List (Option TKey)}
    (h : WF c) (ho : RecencyOrdered log (keys c)) {op : Op TKey TValue}
    (hs : step c op = some c') : RecencyOrdered (log ++ [touched c op]) (keys c') := by
  by_cases hop : ∃ k v, op = Op.put k v
  · obtain ⟨k, v, rfl⟩ := hop
    exact (ho.touch k).sublist (keys_Put_sublist h hs)
  · have hop' : ∀ k v, op ≠ Op.put k v := fun k v he => hop ⟨k, v, he⟩
    rcases lookup_step_cases h hop' hs with ⟨rfl, ht⟩ | ⟨n, hn, ht, rfl⟩
    · rw [ht]; exact ho.no_touch
    · rw [ht]
      have := keys_promoted h hn n.entry rfl
      simp only [keys] at this ⊢
      rw [this]
      exact ho.touch n.entry.Key

theorem RecencyOrdered_exec {s s' : LRUCache TKey TValue × List (Option TKey)}
    (h : WF s.1) (ho : RecencyOrdered s.2 (keys s.1)) {ops : List (Op TKey TValue)}
    (he : exec s ops = some s') :
    RecencyOrdered s'.2 (keys s'.1) ∧ s'.2.length = s.2.length + ops.length := by
  induction ops generalizing s with
  | nil =>
    simp only [exec, Option.some.injEq] at he
    rw [← he]; exact ⟨ho, rfl⟩
  | cons op rest ih =>
    unfold exec at he
    cases hs : step s.1 op with
    | none => simp [hs] at he
    | some c1 =>
      simp only [hs] at he
      have := @ih (c1, s.2 ++ [touched s.1 op]) (WF_step h hs) (RecencyOrdered_step h ho hs) he
      refine ⟨this.1, ?_⟩
      rw [this.2]
      simp only [List.length_append, List.length_cons, List.length_nil]
      omega

/-- A `Put` of a new key that leaves the entry count below the capacity inserts the
entry at the front and does nothing else. -/
theorem Put_fresh_below {c : LRUCache TKey TValue} (h : WF c) {k : TKey} (v : TValue)
    (hk : k ∉ keys c) (hsz : ((c.size : Int) + 1) < c.m_capacity) :
    ∃ c', Put c k v = some c' ∧ WF c' ∧ entries c' = ⟨k, v⟩ :: entries c ∧
      c'.m_capacity = c.m_capacity ∧ c'.m_compactFactor = c.m_compactFactor := by
  have hf := (h.absent_iff k).2 hk
  have hpe := putEntry_of_find_none v hf
  refine ⟨_, ?_, WF_insert h v hf, rfl, rfl, rfl⟩
  unfold Put
  simp only [hpe]
  apply ensureCompaction_of_lt
  simp only [List.length_cons, size] at hsz ⊢
  push_cast
  exact hsz

theorem exec_puts_fresh {capacity : Int} {f : ℚ} (kvs : List (TKey × TValue)) :
    ∀ (s : LRUCache TKey TValue × List (Option TKey)), Inv capacity f s.1 →
      (kvs.map Prod.fst).Nodup → (∀ p ∈ kvs, p.1 ∉ keys s.1) →
      ((s.1.size : Int) + kvs.length) < capacity →
      ∃ s', exec s (kvs.map (fun p => Op.put p.1 p.2)) = some s' ∧ Inv capacity f s'.1 ∧
        entries s'.1 = (kvs.map (fun p => (⟨p.1, p.2⟩ : LRUEntry TKey TValue))).reverse
          ++ entries s.1 := by
  induction kvs with
  | nil =>
    intro s hinv _ _ _
    exact ⟨s, rfl, hinv, by simp⟩
  | cons p rest ih =>
    intro s hinv hnd hfresh hsz
    rw [List.map_cons, List.nodup_cons] at hnd
    simp only [List.length_cons, Nat.cast_add, Nat.cast_one] at hsz
    have hp : p.1 ∉ keys s.1 := hfresh p (List.mem_cons_self _ _)
    obtain ⟨c1, hput, hwf1, hent, hcap1, hfac1⟩ :=
      Put_fresh_below hinv.wf p.2 hp (by rw [hinv.cap]; omega)
    have hinv1 : Inv capacity f c1 := ⟨hwf1, by rw [hcap1, hinv.cap], by rw [hfac1, hinv.factor]⟩
    have hkeys1 : keys c1 = p.1 :: keys s.1 := by
      have := congrArg (List.map (fun e : LRUEntry TKey TValue => e.Key)) hent
      simpa [entries, keys, List.map_map, Function.comp_def] using this
    have hsize1 : c1.size = s.1.size + 1 := by
      have := congrArg List.length hent
      simpa [entries, size] using this
    obtain ⟨s', he, hinv', hent'⟩ := ih (c1, s.2 ++ [touched s.1 (Op.put p.1 p.2)]) hinv1 hnd.2
      (by
        intro q hq hmem
        rw [hkeys1, List.mem_cons] at hmem
        rcases hmem with h | h
        · exact hnd.1 (List.mem_map.2 ⟨q, hq, h⟩)
        · exact hfresh q (List.mem_cons_of_mem _ hq) h)
      (by rw [hsize1]; push_cast; omega)
    refine ⟨s', ?_, hinv', ?_⟩
    · simp only [List.map_cons]
      unfold exec
      simp only [step, hput]
      exact he
    · rw [hent', hent]
      simp

theorem size_putEntry_le {c post : LRUCache TKey TValue} (h : WF c) {k : TKey} {v : TValue}
    (hp : putEntry c k v = some post) : post.size ≤ c.size + 1 := by
  have hk := congrArg List.length (keys_putEntry h hp)
  simp only [keys, List.length_map, List.length_cons] at hk
  have := List.length_filter_le (fun x => !decide (x = k))
    (c.m_lruList.map (fun n => n.entry.Key))
  simp only [List.length_map] at this
  simp only [size]
  omega

/-- Trimming a well-formed state at position 0 empties the list and the Index. -/
theorem trimmed_zero {c : LRUCache TKey TValue} (h : WF c) :
    (trimmed c 0).m_lruList = [] ∧ (trimmed c 0).m_lookUpMap = [] := by
  refine ⟨by simp [trimmed], ?_⟩
  simp only [trimmed, List.drop_zero]
  rw [List.filter_eq_nil_iff]
  intro p hp
  have hk : p.1 ∈ c.indexKeys := List.mem_map.2 ⟨p, hp, rfl⟩
  have hk' : p.1 ∈ c.keys := (h.mem_keys_iff p.1).1 hk
  simpa [keys] using hk'

end LRUCache

end LRUCacheModel

namespace LRUCacheModel

theorem deref_of_mem {TKey TValue : Type} (l : List (Node TKey TValue)) (n : Node TKey TValue)
    (hnd : (l.map (fun x => x.ref)).Nodup) (hn : n ∈ l) : deref l n.ref = some n.entry := by
  induction l with
  | nil => simp at hn
  | cons a tl ih =>
    rw [List.map_cons, List.nodup_cons] at hnd
    unfold deref
    by_cases hr : a.ref = n.ref
    · have hna : n = a := by
        rcases List.mem_cons.1 hn with h | h
        · exact h
        · exact absurd (List.mem_map.2 ⟨n, h, hr.symm⟩) hnd.1
      simp [hna]
    · have hn' : n ∈ tl := by
        rcases List.mem_cons.1 hn with h | h
        · exact absurd (by rw [h]) hr
        · exact h
      simp only [hr, if_false]
      exact ih hnd.2 hn'

end LRUCacheModel

namespace LRUCacheModel

namespace LRUCache

variable {TKey TValue : Type} [DecidableEq TKey]

/-- In a well-formed state the keys of the list are pairwise distinct, every locator of
the Index designates the list entry of its key, and erasing the keys of a suffix of the
list from the Index keeps the locator of every node of the prefix. -/
theorem WF.locators {c : LRUCache TKey TValue} (h : WF c) :
    (keys c).Nodup ∧
    (∀ k e, find c.m_lookUpMap k = some e →
      ∃ entry, deref c.m_lruList e.LRUEntryRef = some entry ∧ entry.Key = k) ∧
    (∀ pos, ∀ n ∈ c.m_lruList.take pos,
      find ((c.m_lruList.drop pos).foldl (fun m x => erase m x.entry.Key) c.m_lookUpMap)
        n.entry.Key = some ⟨n.ref⟩) := by
  refine ⟨h.keys_nodup, ?_, ?_⟩
  · intro k e hf
    obtain ⟨n, hn, hnk, he⟩ := h.lookup hf
    refine ⟨n.entry, ?_, hnk⟩
    rw [he]
    exact deref_of_mem c.m_lruList n h.refs_nodup hn
  · intro pos n hn
    rw [eraseAll_eq]
    exact (WF_trimmed h pos).index_of_node n hn

end LRUCache

end LRUCacheModel

namespace LRUCacheModel

namespace LRUCache

variable {TKey TValue : Type} [DecidableEq TKey]

theorem Inv.cutPosition_eq {capacity : Int} {f : ℚ} {c : LRUCache TKey TValue}
    (h : Inv capacity f c) : c.cutPosition = cutOf capacity f := by
  unfold cutPosition
  rw [h.cap, h.factor]

theorem Inv_putEntry {capacity : Int} {f : ℚ} {c post : LRUCache TKey TValue}
    (h : Inv capacity f c) {k : TKey} {v : TValue} (hpe : putEntry c k v = some post) :
    Inv capacity f post := by
  have hcfg := config_putEntry h.wf hpe
  exact ⟨WF_putEntry h.wf hpe, by rw [hcfg.1, h.cap], by rw [hcfg.2, h.factor]⟩

/-- Trimming at or beyond the end of the list changes nothing. -/
theorem trimmed_full (c : LRUCache TKey TValue) (pos : Nat) (h : c.m_lruList.length ≤ pos) :
    trimmed c pos = c := by
  cases c with
  | mk l m f cap ts nx =>
    simp only [trimmed, List.drop_eq_nil_of_le h, List.take_of_length_le h, List.map_nil,
      List.not_mem_nil, decide_False, Bool.not_false, List.filter_true]

/-- When the cut position the code computes lies between 0 and the capacity, `Put` is
defined in every state of the invariant: it is `putEntry`, followed by a trim at the cut
position exactly when the entry count has reached the capacity. -/
theorem Put_spec {capacity : Int} {f : ℚ} {c : LRUCache TKey TValue} (h : Inv capacity f c)
    {cut : Int} (hc : cutOf capacity f = some cut) (h0 : 0 ≤ cut) (h1 : cut ≤ capacity)
    (k : TKey) (v : TValue) :
    ∃ post, putEntry c k v = some post ∧ Inv capacity f post ∧
      (((post.size : Int) < capacity) → Put c k v = some post) ∧
      ((capacity ≤ (post.size : Int)) → Put c k v = some (trimmed post cut.toNat)) := by
  obtain ⟨post, hpe⟩ := putEntry_total h.wf k v
  have hpinv := Inv_putEntry h hpe
  refine ⟨post, hpe, hpinv, ?_, ?_⟩
  · intro hlt
    unfold Put
    simp only [hpe]
    apply ensureCompaction_of_lt
    rw [hpinv.cap]; exact hlt
  · intro hge
    unfold Put
    simp only [hpe]
    apply ensureCompaction_of_ge
    · rw [hpinv.cap]; unfold size at hge; omega
    · rw [hpinv.cutPosition_eq]; exact hc
    · exact h0
    · unfold size at hge; omega

theorem step_total {capacity : Int} {f : ℚ} {c : LRUCache TKey TValue} (h : Inv capacity f c)
    {cut : Int} (hc : cutOf capacity f = some cut) (h0 : 0 ≤ cut) (h1 : cut ≤ capacity)
    (op : Op TKey TValue) : ∃ c', step c op = some c' := by
  cases op with
  | put k v =>
    obtain ⟨post, _, _, hlt, hge⟩ := Put_spec h hc h0 h1 k v
    by_cases hs : (post.size : Int) < capacity
    · exact ⟨_, hlt hs⟩
    · exact ⟨_, hge (by omega)⟩
  | get k =>
    cases hf : find c.m_lookUpMap k with
    | none => exact ⟨c, by simp [step, Get_of_find_none hf]⟩
    | some e =>
      obtain ⟨n, _, _, _, hg⟩ := Get_of_find h.wf hf
      exact ⟨_, by simp only [step, hg, Option.map_some']; rfl⟩
  | tryGet k out =>
    cases hf : find c.m_lookUpMap k with
    | none => exact ⟨c, by simp [step, TryGet, hf]⟩
    | some e =>
      obtain ⟨n, _, _, _, hg⟩ := TryGet_of_find h.wf out hf
      exact ⟨_, by simp only [step, hg, Option.map_some']; rfl⟩
  | exists_ k => exact ⟨c, rfl⟩

theorem exec_total {capacity : Int} {f : ℚ} {cut : Int} (hc : cutOf capacity f = some cut)
    (h0 : 0 ≤ cut) (h1 : cut ≤ capacity)
    (s : LRUCache TKey TValue × List (Option TKey)) (h : Inv capacity f s.1)
    (ops : List (Op TKey TValue)) : ∃ s', exec s ops = some s' := by
  induction ops generalizing s with
  | nil => exact ⟨s, rfl⟩
  | cons op rest ih =>
    obtain ⟨c1, hs⟩ := step_total h hc h0 h1 op
    obtain ⟨s', he⟩ := ih (c1, s.2 ++ [touched s.1 op]) (Inv_step h hs)
    exact ⟨s', by unfold exec; simp only [hs]; exact he⟩

/-- The entry count of a state reached by a step is below the capacity or at most the
cut position. -/
theorem size_step {capacity : Int} {f : ℚ} {c c' : LRUCache TKey TValue}
    (h : Inv capacity f c) {cut : Int} (hc : cutOf capacity f = some cut) (h0 : 0 ≤ cut)
    (h1 : cut ≤ capacity)
    (hsz : (c.size : Int) < capacity ∨ (c.size : Int) ≤ cut) {op : Op TKey TValue}
    (hs : step c op = some c') :
    (c'.size : Int) < capacity ∨ (c'.size : Int) ≤ cut := by
  by_cases hop : ∃ k v, op = Op.put k v
  · obtain ⟨k, v, rfl⟩ := hop
    obtain ⟨post, _, _, hlt, hge⟩ := Put_spec h hc h0 h1 k v
    simp only [step] at hs
    by_cases hp : (post.size : Int) < capacity
    · rw [hlt hp] at hs
      rw [← Option.some.inj hs]; exact Or.inl hp
    · rw [hge (by omega)] at hs
      rw [← Option.some.inj hs, size_trimmed]
      right
      have : ((min cut.toNat post.size : Nat) : Int) ≤ (cut.toNat : Int) := by
        exact_mod_cast Nat.min_le_left _ _
      have h2 := Int.toNat_of_nonneg h0
      omega
  · have hop' : ∀ k v, op ≠ Op.put k v := fun k v he => hop ⟨k, v, he⟩
    rcases lookup_step_cases h.wf hop' hs with ⟨rfl, _⟩ | ⟨n, hn, _, rfl⟩
    · exact hsz
    · have := promote_facts h.wf hn
      unfold size at hsz ⊢
      simp only [this]
      exact hsz

theorem size_exec {capacity : Int} {f : ℚ} {s s' : LRUCache TKey TValue × List (Option TKey)}
    (h : Inv capacity f s.1) {cut : Int} (hc : cutOf capacity f = some cut) (h0 : 0 ≤ cut)
    (h1 : cut ≤ capacity)
    (hsz : (s.1.size : Int) < capacity ∨ (s.1.size : Int) ≤ cut) {ops : List (Op TKey TValue)}
    (he : exec s ops = some s') :
    (s'.1.size : Int) < capacity ∨ (s'.1.size : Int) ≤ cut := by
  induction ops generalizing s with
  | nil =>
    simp only [exec, Option.some.injEq] at he
    rw [← he]; exact hsz
  | cons op rest ih =>
    unfold exec at he
    cases hs : step s.1 op with
    | none => simp [hs] at he
    | some c1 =>
      simp only [hs] at he
      exact @ih (c1, s.2 ++ [touched s.1 op]) (Inv_step h hs) (size_step h hc h0 h1 hsz hs) he

theorem Reachable.size_bound {capacity : Int} {f : ℚ} {ts : Bool} {c : LRUCache TKey TValue}
    (h : Reachable capacity f ts c) {cut : Int} (hc : cutOf capacity f = some cut)
    (h0 : 0 ≤ cut) (h1 : cut ≤ capacity) :
    (c.size : Int) < capacity ∨ (c.size : Int) ≤ cut := by
  obtain ⟨ops, log, he⟩ := h
  exact size_exec (Inv_new capacity f ts) hc h0 h1
    (Or.inr (by simp only [new, size, List.length_nil]; exact_mod_cast h0)) he

/-- What `ensureCompaction` does when it is defined: it returns early, below the
capacity, or it trims at the cut position, which lies within the list. -/
theorem ensureCompaction_spec {c c' : LRUCache TKey TValue} (h : ensureCompaction c = some c') :
    ((c.m_lruList.length : Int) < c.m_capacity ∧ c' = c) ∨
    (¬ (c.m_lruList.length : Int) < c.m_capacity ∧
      ∃ cut, c.cutPosition = some cut ∧ 0 ≤ cut ∧ cut ≤ (c.m_lruList.length : Int) ∧
        c' = trimmed c cut.toNat) := by
  by_cases hlt : (c.m_lruList.length : Int) < c.m_capacity
  · rw [ensureCompaction_of_lt hlt] at h
    exact Or.inl ⟨hlt, (Option.some.inj h).symm⟩
  · right
    refine ⟨hlt, ?_⟩
    cases hc : c.cutPosition with
    | none =>
      unfold ensureCompaction at h
      simp [hlt, hc] at h
    | some cut =>
      by_cases hin : 0 ≤ cut ∧ cut ≤ (c.m_lruList.length : Int)
      · rw [ensureCompaction_of_ge hlt hc hin.1 hin.2] at h
        exact ⟨cut, rfl, hin.1, hin.2, (Option.some.inj h).symm⟩
      · rw [ensureCompaction_of_out hlt hc hin] at h
        exact absurd h (by simp)

/-- One step keeps the entry count below the capacity, or at the capacity when the cut
position is the capacity; whatever the configuration. -/
theorem size_le_step {capacity : Int} {f : ℚ} {c c' : LRUCache TKey TValue}
    (h : Inv capacity f c)
    (hsz : (c.size : Int) < capacity ∨
      ((c.size : Int) = capacity ∧ cutOf capacity f = some capacity))
    {op : Op TKey TValue} (hs : step c op = some c') :
    (c'.size : Int) < capacity ∨
      ((c'.size : Int) = capacity ∧ cutOf capacity f = some capacity) := by
  by_cases hop : ∃ k v, op = Op.put k v
  · obtain ⟨k, v, rfl⟩ := hop
    simp only [step] at hs
    obtain ⟨post, hpe, hens⟩ := Put_decompose hs
    have hle := size_putEntry_le h.wf hpe
    have hpinv := Inv_putEntry h hpe
    rcases ensureCompaction_spec hens with ⟨hlt, rfl⟩ | ⟨hge, cut, hc, hc0, hc1, rfl⟩
    · left
      rw [hpinv.cap] at hlt
      exact hlt
    · rw [hpinv.cap] at hge
      rw [hpinv.cutPosition_eq] at hc
      have hsize : ((trimmed post cut.toNat).size : Int) = cut := by
        rw [size_trimmed]
        have h2 := Int.toNat_of_nonneg hc0
        have : cut.toNat ≤ post.size := by unfold size; omega
        rw [Nat.min_eq_left this]
        exact h2
      rw [hsize]
      unfold size at hle hsz
      rcases hsz with hlt | ⟨heq, hcc⟩
      · by_cases hcut : cut < capacity
        · exact Or.inl hcut
        · right
          have : cut = capacity := by omega
          rw [this] at hc
          exact ⟨this, hc⟩
      · rw [hcc] at hc
        have : cut = capacity := (Option.some.inj hc).symm
        exact Or.inr ⟨this, hcc⟩
  · have hop' : ∀ k v, op ≠ Op.put k v := fun k v he => hop ⟨k, v, he⟩
    rcases lookup_step_cases h.wf hop' hs with ⟨rfl, _⟩ | ⟨n, hn, _, rfl⟩
    · exact hsz
    · have := promote_facts h.wf hn
      unfold size at hsz ⊢
      simp only [this]
      exact hsz

theorem size_le_exec {capacity : Int} {f : ℚ} {s s' : LRUCache TKey TValue × List (Option TKey)}
    (h : Inv capacity f s.1)
    (hsz : (s.1.size : Int) < capacity ∨
      ((s.1.size : Int) = capacity ∧ cutOf capacity f = some capacity))
    {ops : List (Op TKey TValue)} (he : exec s ops = some s') :
    (s'.1.size : Int) < capacity ∨
      ((s'.1.size : Int) = capacity ∧ cutOf capacity f = some capacity) := by
  induction ops generalizing s with
  | nil =>
    simp only [exec, Option.some.injEq] at he
    rw [← he]; exact hsz
  | cons op rest ih =>
    unfold exec at he
    cases hs : step s.1 op with
    | none => simp [hs] at he
    | some c1 =>
      simp only [hs] at he
      exact @ih (c1, s.2 ++ [touched s.1 op]) (Inv_step h hs) (size_le_step h hsz hs) he

/-- With a capacity of at least 1, whatever the compact factor, a reachable state has
fewer entries than the capacity, or exactly as many and then the cut position the code
computes is the capacity. -/
theorem Reachable.size_le {capacity : Int} {f : ℚ} {ts : Bool} {c : LRUCache TKey TValue}
    (h : Reachable capacity f ts c) (hcap : 1 ≤ capacity) :
    (c.size : Int) < capacity ∨
      ((c.size : Int) = capacity ∧ cutOf capacity f = some capacity) := by
  obtain ⟨ops, log, he⟩ := h
  exact size_le_exec (Inv_new capacity f ts)
    (Or.inl (by simp only [new, size, List.length_nil]; exact_mod_cast hcap)) he

/-- A `Put` whose insert reaches the capacity, in a reachable state and with a cut
position between 0 and the capacity: the entry count is then the capacity or one more,
the cut position lies within the list, and the trim leaves exactly `cut` entries. -/
theorem Put_trim {capacity : Int} {f : ℚ} {ts : Bool} {c post : LRUCache TKey TValue}
    (hr : Reachable capacity f ts c) {cut : Int} (hc : cutOf capacity f = some cut)
    (h0 : 0 ≤ cut) (h1 : cut ≤ capacity)
    {k : TKey} {v : TValue} (hpe : putEntry c k v = some post)
    (hge : capacity ≤ (post.size : Int)) :
    post.cutPosition = some cut ∧ cut ≤ (post.size : Int) ∧
    ((post.size : Int) ≤ capacity + 1) ∧ (cut < capacity → (post.size : Int) = capacity) ∧
    Put c k v = some (trimmed post cut.toNat) ∧
    ((trimmed post cut.toNat).size : Int) = cut := by
  have hinv := hr.inv
  have hsz := hr.size_bound hc h0 h1
  have hle := size_putEntry_le hinv.wf hpe
  have hpinv := Inv_putEntry hinv hpe
  obtain ⟨post', hpe', _, _, hput⟩ := Put_spec hinv hc h0 h1 k v
  rw [hpe] at hpe'
  rw [← Option.some.inj hpe'] at hput
  refine ⟨by rw [hpinv.cutPosition_eq]; exact hc, by omega, by omega, fun hlt => by omega,
    hput hge, ?_⟩
  rw [size_trimmed]
  have h2 := Int.toNat_of_nonneg h0
  have : cut.toNat ≤ post.size := by omega
  rw [Nat.min_eq_left this]
  exact h2

end LRUCache

end LRUCacheModel

namespace LRUCacheModel

namespace LRUCache

variable {TKey TValue : Type} [DecidableEq TKey]

/-- The insert of a key that is not present adds one entry. -/
theorem putEntry_fresh_size {c : LRUCache TKey TValue} {k : TKey} (v : TValue)
    (h : WF c) (hk : k ∉ keys c) :
    ∃ post, putEntry c k v = some post ∧ post.size = c.size + 1 := by
  have hf := (h.absent_iff k).2 hk
  exact ⟨_, putEntry_of_find_none v hf, by simp [size]⟩

/-- A `Put` whose insert reaches the capacity has undefined behaviour when the cut
position lies outside the list. -/
theorem Put_out_of_range {capacity : Int} {f : ℚ} {c post : LRUCache TKey TValue}
    (h : Inv capacity f c) {k : TKey} {v : TValue} (hpe : putEntry c k v = some post)
    (hge : capacity ≤ (post.size : Int)) {cut : Int} (hc : cutOf capacity f = some cut)
    (hout : ¬ (0 ≤ cut ∧ cut ≤ (post.size : Int))) : Put c k v = none := by
  have hpinv := Inv_putEntry h hpe
  unfold Put
  simp only [hpe]
  apply ensureCompaction_of_out
  · rw [hpinv.cap]; unfold size at hge; omega
  · rw [hpinv.cutPosition_eq]; exact hc
  · exact hout

end LRUCache

/-- In a cache of capacity above `n`, the `n` calls `Put(0,0)`, ..., `Put(n-1,n-1)` lead to a
state with the `n` keys below `n`. -/
theorem puts_reach (capacity : Int) (f : ℚ) (ts : Bool) (n : Nat) (hn : (n : Int) < capacity) :
    ∃ c : LRUCache Nat Nat, LRUCache.Reachable capacity f ts c ∧ LRUCache.size c = n ∧
      ∀ k, k ∈ LRUCache.keys c ↔ k < n := by
  have hnd : (((List.range n).map (fun i => (i, i))).map Prod.fst).Nodup := by
    rw [List.map_map]
    have : (Prod.fst ∘ fun i : Nat => (i, i)) = id := by funext i; rfl
    rw [this, List.map_id]
    exact List.nodup_range n
  obtain ⟨⟨c, log⟩, he, hinv, hent⟩ := LRUCache.exec_puts_fresh
    ((List.range n).map (fun i => (i, i)))
    ((LRUCache.new capacity f ts : LRUCache Nat Nat), []) (LRUCache.Inv_new capacity f ts) hnd
    (by intro p _ hm; simp [LRUCache.keys, LRUCache.new] at hm)
    (by simpa [LRUCache.size, LRUCache.new] using hn)
  have hent' : LRUCache.entries c
      = (((List.range n).map (fun i => (i, i))).map
          (fun p => (⟨p.1, p.2⟩ : LRUEntry Nat Nat))).reverse := by
    simpa [LRUCache.entries, LRUCache.new] using hent
  refine ⟨c, ⟨_, log, he⟩, ?_, ?_⟩
  · have := congrArg List.length hent'
    simpa [LRUCache.entries, LRUCache.size] using this
  · intro k
    have hk : LRUCache.keys c = (LRUCache.entries c).map (fun e => e.Key) := by
      simp [LRUCache.keys, LRUCache.entries, List.map_map, Function.comp_def]
    rw [hk, hent']
    simp [List.map_map, Function.comp_def]

/-- Capacity 16777219 with compact factor 2^-30: the capacity becomes the `float`
16777220 and the cut position is 16777220.  After 16777218 `Put`s of distinct keys the
`Put` of one more new key brings the entry count to the capacity and advances the
iterator beyond the end of the list. -/
theorem large_capacity_out_of_range :
    ∃ (c post : LRUCache Nat Nat), LRUCache.Reachable 16777219 (1 / 1073741824) true c ∧
      LRUCache.putEntry c 16777218 0 = some post ∧ LRUCache.size post = 16777219 ∧
      post.cutPosition = some 16777220 ∧ LRUCache.Put c 16777218 0 = none := by
  obtain ⟨c, hr, hsize, hkeys⟩ := puts_reach 16777219 (1 / 1073741824) true 16777218
    (by norm_num)
  obtain ⟨post, hpe, hps⟩ := LRUCache.putEntry_fresh_size (0 : Nat) hr.inv.wf
    (fun hk => absurd ((hkeys 16777218).1 hk) (lt_irrefl _))
  have hps' : LRUCache.size post = 16777219 := by rw [hps, hsize]
  have hc : cutOf 16777219 (1 / 1073741824) = some 16777220 := by decide!
  have hpinv := LRUCache.Inv_putEntry hr.inv hpe
  refine ⟨c, post, hr, hpe, hps', by rw [hpinv.cutPosition_eq, hc], ?_⟩
  apply LRUCache.Put_out_of_range hr.inv hpe _ hc
  · rw [hps']; norm_num
  · rw [hps']; norm_num

end LRUCacheModel

/-! # The claims -/

namespace LRUCacheModel

namespace LRUCache

variable {TKey TValue : Type} [DecidableEq TKey]

/-- C1 (as the claim states it, refuted). Capacity 3 with compact factor 2/3, which the
`float` parameter holds as the nearest `float`: floor(3 * (1 - 2/3)) = 1 is at least 1,
but the code computes `1 - f` and the product in `float` and gets the cut position 0, so
the `Put(3, 30)` that reaches the capacity after `Put(1, 10); Put(2, 20)` evicts every
entry, the one just put included.  Capacity 16777219 with compact factor 2^-30 (a
`float`): floor(capacity * (1 - f)) = 16777218, but `int` 16777219 becomes the `float`
16777220, the cut position is 16777220, and the `Put` that brings the entry count to the
capacity advances the iterator beyond the end of the list. -/
theorem C1_floor_premise_is_not_enough :
    (1 ≤ ⌊((3 : Int) : ℚ) * (1 - 2 / 3)⌋ ∧
      0 < toFloat (2 / 3) ∧ toFloat (2 / 3) < 1 ∧
      cutOf 3 (toFloat (2 / 3)) = some 0 ∧
      (exec ((new 3 (toFloat (2 / 3)) true : LRUCache Nat Nat), [])
          [Op.put 1 10, Op.put 2 20]).bind
        (fun s => (Put s.1 3 30).map (fun c' => ((Exists c' 3).1, entries c')))
        = some (false, [])) ∧
    (1 ≤ ⌊((16777219 : Int) : ℚ) * (1 - 1 / 1073741824)⌋ ∧
      toFloat (1 / 1073741824) = 1 / 1073741824 ∧
      cutOf 16777219 (1 / 1073741824) = some 16777220 ∧
      ∃ c : LRUCache Nat Nat, Reachable 16777219 (1 / 1073741824) true c ∧
        size c = 16777218 ∧ Put c 16777218 0 = none) := by
  refine ⟨by decide!, ?_, by decide!, by decide!, ?_⟩
  · rw [Int.le_floor]; norm_num
  · obtain ⟨c, hr, hsize, hkeys⟩ := puts_reach 16777219 (1 / 1073741824) true 16777218
      (by norm_num)
    refine ⟨c, hr, hsize, ?_⟩
    obtain ⟨post, hpe, hps⟩ := putEntry_fresh_size (0 : Nat) hr.inv.wf
      (fun hk => absurd ((hkeys 16777218).1 hk) (lt_irrefl _))
    have hc : cutOf 16777219 (1 / 1073741824) = some 16777220 := by decide!
    apply Put_out_of_range hr.inv hpe _ hc
    · rw [hps, hsize]; norm_num
    · rw [hps, hsize]; norm_num

/-- C1 (amended). For every cache with capacity between 1 and 2^24 and a `float`
compact factor in (0,1) for which floor(capacity * (1 - compactFactor)) is at least 1,
and more generally for every cache whose cut position, as the code computes it in
`float` arithmetic, is at least 1 and at most the capacity: in every reachable state and
for every key and value, `Put(k, v)` returns, and right after it the entry `(k, v)` is at
the front of the Recency Sequence, `Exists(k)` is true and `Get(k)` returns `v` (whether
the key was new or present, and whether or not the `Put` compacted). -/
theorem C1_put_then_front (capacity : Int) (f : ℚ) (ts : Bool)
    (hcut : (1 ≤ capacity ∧ capacity ≤ 16777216 ∧ 0 < f ∧ f < 1 ∧ toFloat f = f ∧
        1 ≤ ⌊(capacity : ℚ) * (1 - f)⌋) ∨
      ∃ cut, cutOf capacity f = some cut ∧ 1 ≤ cut ∧ cut ≤ capacity)
    (c : LRUCache TKey TValue) (hr : Reachable capacity f ts c) (k : TKey) (v : TValue) :
    ∃ c', Put c k v = some c' ∧ (entries c').head? = some ⟨k, v⟩ ∧
      (Exists c' k).1 = true ∧ ∃ c'', Get c' k = some (Except.ok v, c'') := by
  obtain ⟨cut, hc, hcut1, hcut2⟩ :
      ∃ cut, cutOf capacity f = some cut ∧ 1 ≤ cut ∧ cut ≤ capacity := by
    rcases hcut with ⟨hcap, h24, h0, h1, hfl, hfloor⟩ | h
    · exact cutOf_pos_of_floor capacity f hcap h24 h0 h1 hfl hfloor
    · exact h
  have hinv := hr.inv
  obtain ⟨post, hpe, hpinv, hlt, hge⟩ := Put_spec hinv hc (by omega) hcut2 k v
  obtain ⟨post', r, rest, hpe', hl⟩ := putEntry_front hinv.wf k v
  rw [hpe] at hpe'
  have hpp : post' = post := (Option.some.inj hpe').symm
  rw [hpp] at hl
  by_cases hs : (post.size : Int) < capacity
  · refine ⟨post, hlt hs, ?_, front_found hpinv.wf hl⟩
    simp [entries, hl]
  · obtain ⟨p, hp⟩ : ∃ p, cut.toNat = p + 1 := by
      refine ⟨cut.toNat - 1, ?_⟩
      have := Int.toNat_of_nonneg (by omega : 0 ≤ cut)
      omega
    have hl' : (trimmed post cut.toNat).m_lruList = ⟨r, ⟨k, v⟩⟩ :: rest.take p := by
      simp [trimmed, hl, hp]
    refine ⟨_, hge (by omega), ?_, front_found (WF_trimmed hpinv.wf _) hl'⟩
    simp [entries, hl']

theorem C1_put_then_front_witness :
    ∃ c', Put sample 3 30 = some c' ∧
      (entries c').head? = some ⟨3, 30⟩ ∧
      (Exists c' 3).1 = true ∧ ∃ c'', Get c' 3 = some (Except.ok 30, c'') :=
  C1_put_then_front 3 (1 / 4) true
    (Or.inl ⟨by decide, by decide, by norm_num, by norm_num, by decide!,
      Int.le_floor.2 (by norm_num)⟩)
    sample sample_reachable 3 30

/-- C2. In every reachable state and for every present key `k`, `Get(k)` returns the
value stored for `k`; afterwards the entry of `k` is first in the Recency Sequence, the
other entries follow in their previous relative order, and the Index, the set of
present keys and all stored values are the previous ones. -/
theorem C2_get_present (capacity : Int) (f : ℚ) (ts : Bool) (c : LRUCache TKey TValue)
    (hr : Reachable capacity f ts c) (k : TKey) (hk : k ∈ keys c) :
    ∃ v c', valueOf c k = some v ∧ Get c k = some (Except.ok v, c') ∧
      entries c' = ⟨k, v⟩ :: (entries c).filter (fun e => !decide (e.Key = k)) ∧
      (entries c').Perm (entries c) ∧
      c'.m_lookUpMap = c.m_lookUpMap ∧
      (∀ k', k' ∈ keys c' ↔ k' ∈ keys c) ∧
      (∀ k', valueOf c' k' = valueOf c k') := by
  have hwf := hr.inv.wf
  obtain ⟨n, hn, hnk, hg⟩ := Get_of_mem_keys hwf hk
  subst hnk
  have hperm := moveToFront_perm c.m_lruList n hwf.refs_nodup hn
  have hwf' := WF_promote hwf n n hn rfl rfl
  refine ⟨n.entry.Value, _, hwf.valueOf_eq hn, hg, ?_, ?_, rfl, ?_, ?_⟩
  · exact entries_promoted hwf hn
  · exact (hperm.map (fun x => x.entry)).symm
  · intro k'
    exact (hperm.map (fun x => x.entry.Key)).symm.mem_iff
  · intro k'
    apply valueOf_congr hwf hwf'
    intro m _
    exact hperm.mem_iff

theorem C2_get_present_witness :
    ∃ v c', valueOf sample 1 = some v ∧ Get sample 1 = some (Except.ok v, c') ∧
      entries c' = ⟨1, v⟩ :: (entries sample).filter (fun e => !decide (e.Key = 1)) ∧
      (entries c').Perm (entries sample) ∧
      c'.m_lookUpMap = sample.m_lookUpMap ∧
      (∀ k', k' ∈ keys c' ↔ k' ∈ keys sample) ∧
      (∀ k', valueOf c' k' = valueOf sample k') :=
  C2_get_present 3 (1 / 4) true sample sample_reachable 1 (by decide)

/-- C3. In every reachable state and for every key `k`, `Get(k)` throws
`std::invalid_argument` if and only if `k` is not present (and returns a value
otherwise); a `Get` that throws leaves the whole state, Recency Sequence and Index, as
it was. -/
theorem C3_get_absent (capacity : Int) (f : ℚ) (ts : Bool) (c : LRUCache TKey TValue)
    (hr : Reachable capacity f ts c) (k : TKey) :
    ((∃ c', Get c k = some (Except.error (Exn.invalid_argument "key"), c')) ↔ k ∉ keys c) ∧
    (k ∈ keys c → ∃ v c', Get c k = some (Except.ok v, c')) ∧
    (∀ e c', Get c k = some (Except.error e, c') → c' = c) := by
  have hwf := hr.inv.wf
  refine ⟨⟨?_, ?_⟩, ?_, ?_⟩
  · rintro ⟨c', hg⟩ hk
    rcases Get_cases hwf hg with ⟨hf, _, _⟩ | ⟨n, _, _, _, hr', _⟩
    · exact (hwf.absent_iff k).1 hf hk
    · exact Except.noConfusion hr'
  · intro hk
    exact ⟨c, Get_of_find_none ((hwf.absent_iff k).2 hk)⟩
  · intro hk
    obtain ⟨n, _, _, hg⟩ := Get_of_mem_keys hwf hk
    exact ⟨_, _, hg⟩
  · intro e c' hg
    rcases Get_cases hwf hg with ⟨_, _, hc⟩ | ⟨n, _, _, _, hr', _⟩
    · exact hc
    · exact Except.noConfusion hr'

theorem C3_get_absent_witness :
    ((∃ c', Get sample 5 = some (Except.error (Exn.invalid_argument "key"), c'))
      ↔ 5 ∉ keys sample) ∧
    (5 ∈ keys sample → ∃ v c', Get sample 5 = some (Except.ok v, c')) ∧
    (∀ e c', Get sample 5 = some (Except.error e, c') → c' = sample) :=
  C3_get_absent 3 (1 / 4) true sample sample_reachable 5

/-- C4 (as the claim states it, refuted). The position of the trim is not
floor(capacity * (1 - compactFactor)).  Capacity 5 with compact factor 0.6:
floor(5 * (1 - 0.6)) = 2, but the fifth `Put` of a new key leaves 1 entry.  Capacity 20
with compact factor 0.4, read as the `float` the cache stores: floor(20 * (1 - f)) = 11,
but the twentieth `Put` of a new key leaves 12 entries.  Capacity 2 with compact factor
2^-30, which is a `float`: floor(2 * (1 - f)) = 1, but the second `Put` of a new key
leaves 2 entries.  Capacity 16777219 with compact factor 2^-30: the cut position is
16777220, and the `Put` that brings the entry count to the capacity advances the
iterator beyond the end of the list. -/
theorem C4_cut_is_not_the_exact_floor :
    (⌊((5 : Int) : ℚ) * (1 - 3 / 5)⌋ = 2 ∧
      (exec ((new 5 (toFloat (toDouble (3 / 5))) true : LRUCache Nat Nat), [])
        (putRange 4)).map (fun s => size s.1) = some 4 ∧
      (exec ((new 5 (toFloat (toDouble (3 / 5))) true : LRUCache Nat Nat), [])
        (putRange 5)).map (fun s => size s.1) = some 1) ∧
    (⌊((20 : Int) : ℚ) * (1 - toFloat (toDouble (2 / 5)))⌋ = 11 ∧
      (exec ((new 20 (toFloat (toDouble (2 / 5))) true : LRUCache Nat Nat), [])
        (putRange 19)).map (fun s => size s.1) = some 19 ∧
      (exec ((new 20 (toFloat (toDouble (2 / 5))) true : LRUCache Nat Nat), [])
        (putRange 20)).map (fun s => size s.1) = some 12) ∧
    (⌊((2 : Int) : ℚ) * (1 - 1 / 1073741824)⌋ = 1 ∧
      toFloat (1 / 1073741824) = 1 / 1073741824 ∧
      (exec ((new 2 (1 / 1073741824) true : LRUCache Nat Nat), [])
        (putRange 1)).map (fun s => size s.1) = some 1 ∧
      (exec ((new 2 (1 / 1073741824) true : LRUCache Nat Nat), [])
        (putRange 2)).map (fun s => size s.1) = some 2) ∧
    (∃ (c post : LRUCache Nat Nat), Reachable 16777219 (1 / 1073741824) true c ∧
      putEntry c 16777218 0 = some post ∧ size post = 16777219 ∧
      post.cutPosition = some 16777220 ∧ Put c 16777218 0 = none) := by
  have hf : toFloat (toDouble (2 / 5)) = 13421773 / 33554432 := by decide!
  refine ⟨⟨?_, by decide!, by decide!⟩, ⟨?_, by decide!, by decide!⟩,
    ⟨?_, by decide!, by decide!, by decide!⟩, large_capacity_out_of_range⟩
  · rw [Int.floor_eq_iff]; norm_num
  · rw [hf, Int.floor_eq_iff]; norm_num
  · rw [Int.floor_eq_iff]; norm_num

/-- C4 (amended). With capacity between 1 and 2^24 and compact factor in (0,1), the cut
position the code computes in `float` arithmetic lies between 0 and the capacity, is at
least floor(capacity * (1 - compactFactor)) - 1 and at most the ceiling of that product,
and in every reachable state a `Put` runs the trim if and
only if the entry count after its insert or update is at least the capacity.  When it
trims, the Recency Sequence becomes the first `cutPosition` entries of the sequence
after the insert, in the same order, a lookup of the key of a removed entry in the Index
finds nothing and every other lookup is unchanged; when it does not trim, the state
after the insert is the final state. -/
theorem C4_trim_iff_at_capacity (capacity : Int) (f : ℚ) (ts : Bool)
    (hcap : 1 ≤ capacity) (h24 : capacity ≤ 16777216) (h0 : 0 < f) (h1 : f < 1)
    (c : LRUCache TKey TValue) (hr : Reachable capacity f ts c) (k : TKey) (v : TValue) :
    ∃ cut post c', cutOf capacity f = some cut ∧ 0 ≤ cut ∧ cut ≤ capacity ∧
      ⌊(capacity : ℚ) * (1 - f)⌋ - 1 ≤ cut ∧ cut ≤ ⌈(capacity : ℚ) * (1 - f)⌉ ∧
      putEntry c k v = some post ∧ Put c k v = some c' ∧
      ((size post : Int) < capacity → c' = post) ∧
      (capacity ≤ (size post : Int) →
        entries c' = (entries post).take cut.toNat ∧
        (∀ k', find c'.m_lookUpMap k' =
          if k' ∈ ((entries post).drop cut.toNat).map (fun e => e.Key)
          then none else find post.m_lookUpMap k') ∧
        (∀ k', k' ∈ indexKeys c' ↔ k' ∈ indexKeys post ∧
          k' ∉ ((entries post).drop cut.toNat).map (fun e => e.Key))) := by
  have hinv := hr.inv
  obtain ⟨cut, hc, hc0, hc1, _⟩ := cutOf_bounds capacity f (by omega) h24 h0.le h1.le
  obtain ⟨post, hpe, hpinv, hlt, hge⟩ := Put_spec hinv hc hc0 hc1 k v
  obtain ⟨hn1, hn2⟩ := cutOf_near capacity f (by omega) h24 h0 h1.le cut hc
  by_cases hs : (post.size : Int) < capacity
  · exact ⟨cut, post, post, hc, hc0, hc1, hn1, hn2, hpe, hlt hs, fun _ => rfl,
      fun h => absurd hs (by omega)⟩
  · have hs' : capacity ≤ (post.size : Int) := by omega
    refine ⟨cut, post, _, hc, hc0, hc1, hn1, hn2, hpe, hge hs', fun h => absurd h hs,
      fun _ => ⟨?_, ?_, ?_⟩⟩
    · simp only [entries, trimmed, List.map_take]
    · intro k'
      have := find_filter post.m_lookUpMap
        (fun k => !decide (k ∈ (post.m_lruList.drop cut.toNat).map
          (fun n => n.entry.Key))) k'
      simp only [trimmed]
      rw [this]
      simp only [entries, List.map_drop, List.map_map, Function.comp_def, Bool.not_eq_true',
        decide_eq_false_iff_not, ite_not]
    · intro k'
      simp only [indexKeys, trimmed, entries, List.mem_map, List.mem_filter, Bool.not_eq_true',
        decide_eq_false_iff_not, List.map_drop, List.map_map, Function.comp_def]
      constructor
      · rintro ⟨p, ⟨hp, hnot⟩, rfl⟩
        exact ⟨⟨p, hp, rfl⟩, hnot⟩
      · rintro ⟨⟨p, hp, rfl⟩, hnot⟩
        exact ⟨p, ⟨hp, hnot⟩, rfl⟩

theorem C4_trim_iff_at_capacity_witness :
    ∃ cut post c', cutOf 3 (1 / 4) = some cut ∧ cut = 2 ∧
      putEntry sample 3 30 = some post ∧ Put sample 3 30 = some c' ∧
      (3 : Int) ≤ (size post : Int) ∧
      entries c' = (entries post).take cut.toNat ∧
      (∀ k', find c'.m_lookUpMap k' =
        if k' ∈ ((entries post).drop cut.toNat).map (fun e => e.Key)
        then none else find post.m_lookUpMap k') ∧
      (∀ k', k' ∈ indexKeys c' ↔ k' ∈ indexKeys post ∧
        k' ∉ ((entries post).drop cut.toNat).map (fun e => e.Key)) := by
  obtain ⟨cut, post, c', hc, _, _, _, _, hpe, hput, _, hge⟩ :=
    C4_trim_iff_at_capacity 3 (1 / 4) true (by decide) (by decide) (by norm_num) (by norm_num)
      sample sample_reachable 3 30
  have hs : (3 : Int) ≤ (size post : Int) := by
    have h := congrArg (Option.map size) hpe
    have h3 : (putEntry sample 3 30).map size = some 3 := by decide!
    rw [h3] at h
    have h4 : size post = 3 := (Option.some.inj h).symm
    omega
  have hc' := hc
  have hcut : cut = 2 := by
    have h2 : cutOf 3 (1 / 4) = some 2 := by decide!
    rw [h2] at hc
    exact (Option.some.inj hc).symm
  obtain ⟨h1, h2, h3⟩ := hge hs
  exact ⟨cut, post, c', hc', hcut, hpe, hput, hs, h1, h2, h3⟩

/-- C5. In every state reachable from the empty cache by `Put`, `Get`, `TryGet` and
`Exists` calls, the set of keys of the Index `m_lookUpMap` equals the set of keys of the
entries of the Recency Sequence `m_lruList` (for every configuration, in particular for
capacity at least 1 and compact factor in (0,1)). -/
theorem C5_index_keys_eq_sequence_keys (capacity : Int) (f : ℚ) (ts : Bool)
    (c : LRUCache TKey TValue) (hr : Reachable capacity f ts c) (k : TKey) :
    k ∈ indexKeys c ↔ k ∈ keys c :=
  hr.inv.wf.mem_keys_iff k

theorem C5_index_keys_eq_sequence_keys_witness :
    Reachable 3 (1 / 4) true sample ∧ (1 ∈ indexKeys sample ↔ 1 ∈ keys sample) :=
  ⟨sample_reachable, C5_index_keys_eq_sequence_keys 3 (1 / 4) true sample sample_reachable 1⟩

/-- C6. For every sequence of calls that runs from the empty cache (no call with
undefined behaviour), whatever the configuration, the keys of the Recency Sequence of
the final state, read front to back, are pairwise distinct, are exactly the present
keys, have each been touched, and are ordered by strictly decreasing time of their most
recent touch; the log holds, per call, the key of a `Put` or of a `Get`/`TryGet` that
found its key, and nothing for `Exists` and failed lookups.  With capacity between 1 and
2^24 and compact factor in (0,1) every sequence of calls runs. -/
theorem C6_recency_order (capacity : Int) (f : ℚ) (ts : Bool) (ops : List (Op TKey TValue))
    (c : LRUCache TKey TValue) (log : List (Option TKey))
    (he : exec (new capacity f ts, []) ops = some (c, log)) :
    (log.length = ops.length ∧
      (keys c).Nodup ∧
      (∀ k, k ∈ keys c ↔ (Exists c k).1 = true) ∧
      (∀ k ∈ keys c, ∃ i, lastTouch log k = some i) ∧
      (keys c).Pairwise (fun a b =>
        ∃ i j, lastTouch log a = some i ∧ lastTouch log b = some j ∧ j < i)) ∧
    (1 ≤ capacity → capacity ≤ 16777216 → 0 < f → f < 1 →
      ∀ ops' : List (Op TKey TValue),
        ∃ c' log', exec (new capacity f ts, []) ops' = some (c', log')) := by
  constructor
  · have hwf : WF c := (Inv_exec (Inv_new capacity f ts) he).wf
    have hinit : RecencyOrdered ([] : List (Option TKey))
        (keys (new capacity f ts : LRUCache TKey TValue)) := by
      constructor
      · intro k hk; simp [keys, new] at hk
      · simp [keys, new]
    obtain ⟨ho, hlen⟩ := RecencyOrdered_exec (WF_new capacity f ts) hinit he
    refine ⟨by simpa using hlen, hwf.keys_nodup, ?_, ho.1, ho.2⟩
    intro k
    rw [← hwf.mem_keys_iff k]
    exact (find_isSome_iff _ _).symm
  · intro hcap h24 h0 h1 ops'
    obtain ⟨cut, hc, hc0, hc1, _⟩ := cutOf_bounds capacity f (by omega) h24 h0.le h1.le
    obtain ⟨⟨c', log'⟩, he'⟩ := exec_total hc hc0 hc1
      ((new capacity f ts : LRUCache TKey TValue), []) (Inv_new capacity f ts) ops'
    exact ⟨c', log', he'⟩

theorem C6_recency_order_witness :
    (([some 1, some 2, some 1, none, none, some 3] : List (Option Nat)).length
        = [Op.put 1 10, Op.put 2 20, Op.get 1, Op.exists_ 2, Op.get 7,
          Op.put (3 : Nat) (30 : Nat)].length ∧
      (keys (⟨[⟨2, ⟨3, 30⟩⟩, ⟨0, ⟨1, 10⟩⟩], [(3, ⟨2⟩), (1, ⟨0⟩)], 1 / 4, 3, true, 3⟩ :
        LRUCache Nat Nat)).Nodup ∧
      (∀ k, k ∈ keys (⟨[⟨2, ⟨3, 30⟩⟩, ⟨0, ⟨1, 10⟩⟩], [(3, ⟨2⟩), (1, ⟨0⟩)], 1 / 4, 3, true, 3⟩ :
          LRUCache Nat Nat)
        ↔ (Exists (⟨[⟨2, ⟨3, 30⟩⟩, ⟨0, ⟨1, 10⟩⟩], [(3, ⟨2⟩), (1, ⟨0⟩)], 1 / 4, 3, true, 3⟩ :
          LRUCache Nat Nat) k).1 = true) ∧
      (∀ k ∈ keys (⟨[⟨2, ⟨3, 30⟩⟩, ⟨0, ⟨1, 10⟩⟩], [(3, ⟨2⟩), (1, ⟨0⟩)], 1 / 4, 3, true, 3⟩ :
          LRUCache Nat Nat),
        ∃ i, lastTouch [some 1, some 2, some 1, none, none, some 3] k = some i) ∧
      (keys (⟨[⟨2, ⟨3, 30⟩⟩, ⟨0, ⟨1, 10⟩⟩], [(3, ⟨2⟩), (1, ⟨0⟩)], 1 / 4, 3, true, 3⟩ :
          LRUCache Nat Nat)).Pairwise
        (fun a b => ∃ i j, lastTouch [some 1, some 2, some 1, none, none, some 3] a = some i ∧
          lastTouch [some 1, some 2, some 1, none, none, some 3] b = some j ∧ j < i)) ∧
    (∀ ops' : List (Op Nat Nat),
      ∃ c' log', exec (new 3 (1 / 4) true, []) ops' = some (c', log')) :=
  ⟨(C6_recency_order 3 (1 / 4) true
      [Op.put 1 10, Op.put 2 20, Op.get 1, Op.exists_ 2, Op.get 7, Op.put 3 30]
      ⟨[⟨2, ⟨3, 30⟩⟩, ⟨0, ⟨1, 10⟩⟩], [(3, ⟨2⟩), (1, ⟨0⟩)], 1 / 4, 3, true, 3⟩
      [some 1, some 2, some 1, none, none, some 3] (by decide!)).1,
    (C6_recency_order 3 (1 / 4) true
      [Op.put 1 10, Op.put 2 20, Op.get 1, Op.exists_ 2, Op.get 7, Op.put 3 30]
      ⟨[⟨2, ⟨3, 30⟩⟩, ⟨0, ⟨1, 10⟩⟩], [(3, ⟨2⟩), (1, ⟨0⟩)], 1 / 4, 3, true, 3⟩
      [some 1, some 2, some 1, none, none, some 3] (by decide!)).2
      (by decide) (by decide) (by norm_num) (by norm_num)⟩

/-- C7 (as the claim states it, refuted). Capacity 16777219 with compact factor 0.001
(the `float` nearest to it): ceil(capacity * (1 - compactFactor)) is 16760442, for the
decimal 0.001 as for the stored `float`, but `int` 16777219 becomes the `float` 16777220
and the code computes the cut position 16760443.  After 16777218 `Put`s of distinct keys
the next `Put` of a new key brings the entry count to the capacity, and after it has
returned the cache holds 16760443 entries. -/
theorem C7_large_capacity_exceeds_ceiling :
    (0 < toFloat (toDouble (1 / 1000)) ∧ toFloat (toDouble (1 / 1000)) < 1) ∧
    ⌈((16777219 : Int) : ℚ) * (1 - 1 / 1000)⌉ = 16760442 ∧
    ⌈((16777219 : Int) : ℚ) * (1 - toFloat (toDouble (1 / 1000)))⌉ = 16760442 ∧
    cutOf 16777219 (toFloat (toDouble (1 / 1000))) = some 16760443 ∧
    ∃ (c post c' : LRUCache Nat Nat),
      Reachable 16777219 (toFloat (toDouble (1 / 1000))) true c ∧
      putEntry c 16777218 0 = some post ∧ size post = 16777219 ∧
      Put c 16777218 0 = some c' ∧ size c' = 16760443 := by
  have hf : toFloat (toDouble (1 / 1000)) = 8589935 / 8589934592 := by decide!
  have hc : cutOf 16777219 (toFloat (toDouble (1 / 1000))) = some 16760443 := by decide!
  refine ⟨by rw [hf]; norm_num, ?_, ?_, hc, ?_⟩
  · rw [Int.ceil_eq_iff]; norm_num
  · rw [hf, Int.ceil_eq_iff]; norm_num
  · obtain ⟨c, hr, hsize, hkeys⟩ :=
      puts_reach 16777219 (toFloat (toDouble (1 / 1000))) true 16777218 (by norm_num)
    obtain ⟨post, hpe, hps⟩ := putEntry_fresh_size (0 : Nat) hr.inv.wf
      (fun hk => absurd ((hkeys 16777218).1 hk) (lt_irrefl _))
    have hps' : size post = 16777219 := by rw [hps, hsize]
    obtain ⟨_, _, _, _, hput, hsz⟩ := Put_trim hr hc (by norm_num) (by norm_num) hpe
      (by rw [hps']; norm_num)
    refine ⟨c, post, _, hr, hpe, hps', hput, ?_⟩
    have : ((trimmed post (16760443 : Int).toNat).size : Int) = ((16760443 : Nat) : Int) := by
      rw [hsz]; norm_num
    exact_mod_cast this

/-- C7 (amended). With capacity at least 1, whatever the compact factor, every reachable
state (the state after any public call has returned) has at most `capacity` entries.
With capacity between 1 and 2^24 (the range in which the conversion of the capacity to
`float` is exact) and compact factor in (0,1), every `Put` returns, and right after a
`Put` whose insert brought the entry count to the capacity, the entry count is at most
ceil(capacity * (1 - compactFactor)). -/
theorem C7_bounded_size (capacity : Int) (f : ℚ) (ts : Bool) (hcap : 1 ≤ capacity)
    (c : LRUCache TKey TValue) (hr : Reachable capacity f ts c) :
    (size c : Int) ≤ capacity ∧
    (capacity ≤ 16777216 → 0 < f → f < 1 →
      ∀ (k : TKey) (v : TValue), ∃ post c', putEntry c k v = some post ∧
        Put c k v = some c' ∧ (size c' : Int) ≤ capacity ∧
        (capacity ≤ (size post : Int) → (size c' : Int) ≤ ⌈(capacity : ℚ) * (1 - f)⌉)) := by
  have hinv := hr.inv
  refine ⟨by rcases hr.size_le hcap with h | ⟨h, _⟩ <;> omega, fun h24 h0 h1 k v => ?_⟩
  obtain ⟨cut, hc, hc0, hc1, _⟩ := cutOf_bounds capacity f (by omega) h24 h0.le h1.le
  obtain ⟨_, hn2⟩ := cutOf_near capacity f (by omega) h24 h0 h1.le cut hc
  obtain ⟨post, hpe, _, hlt, _⟩ := Put_spec hinv hc hc0 hc1 k v
  by_cases hs : (post.size : Int) < capacity
  · exact ⟨post, post, hpe, hlt hs, hs.le, fun h => absurd hs (by omega)⟩
  · have hs' : capacity ≤ (post.size : Int) := by omega
    obtain ⟨_, _, _, _, hput, hsize⟩ := Put_trim hr hc hc0 hc1 hpe hs'
    exact ⟨post, _, hpe, hput, by omega, fun _ => by omega⟩

theorem C7_bounded_size_witness :
    (size sample : Int) ≤ 3 ∧
    ∃ post c', putEntry sample 3 30 = some post ∧ Put sample 3 30 = some c' ∧
      (size c' : Int) ≤ 3 ∧ (3 : Int) ≤ (size post : Int) ∧
      (size c' : Int) ≤ ⌈((3 : Int) : ℚ) * (1 - 1 / 4)⌉ := by
  obtain ⟨hsz, hall⟩ := C7_bounded_size 3 (1 / 4) true (by decide) sample sample_reachable
  obtain ⟨post, c', hpe, hput, hle, hge⟩ := hall (by decide) (by norm_num) (by norm_num) 3 30
  have hs : (3 : Int) ≤ (size post : Int) := by
    have h := congrArg (Option.map size) hpe
    have h3 : (putEntry sample 3 30).map size = some 3 := by decide!
    rw [h3] at h
    have h4 : size post = 3 := (Option.some.inj h).symm
    omega
  exact ⟨hsz, post, c', hpe, hput, hle, hs, hge hs⟩

/-- C8 (as the claim states it, refuted). Capacity 2 with compact factor 2^-30 (a
`float`): `1 - f` rounds to 1 and the cut position is 2, so after `Put(0,0); Put(1,1)`
the cache stays full.  `Put(0,5)` of the present key 0 then leaves 2 entries after its
update, `cacheOrigSize < m_capacity` is false and `ensureCompaction` runs the trim, with
cut position 2; the trim removes nothing. -/
theorem C8_put_existing_runs_the_trim :
    (0 < (1 / 1073741824 : ℚ) ∧ (1 / 1073741824 : ℚ) < 1 ∧
      toFloat (1 / 1073741824) = 1 / 1073741824) ∧
    (exec ((new 2 (1 / 1073741824) true : LRUCache Nat Nat), [])
        [Op.put 0 0, Op.put 1 1]).map (fun s => (keys s.1, size s.1)) = some ([1, 0], 2) ∧
    (exec ((new 2 (1 / 1073741824) true : LRUCache Nat Nat), [])
        [Op.put 0 0, Op.put 1 1]).bind
      (fun s => (putEntry s.1 0 5).map (fun post =>
        (size post, decide ((post.m_lruList.length : Int) < post.m_capacity))))
      = some (2, false) ∧
    (exec ((new 2 (1 / 1073741824) true : LRUCache Nat Nat), [])
        [Op.put 0 0, Op.put 1 1]).bind
      (fun s => (putEntry s.1 0 5).map (fun post => post.cutPosition)) = some (some 2) ∧
    (exec ((new 2 (1 / 1073741824) true : LRUCache Nat Nat), [])
        [Op.put 0 0, Op.put 1 1]).bind
      (fun s => (Put s.1 0 5).map size) = some 2 := by
  refine ⟨⟨by norm_num, by norm_num, by decide!⟩, by decide!, by decide!, by decide!,
    by decide!⟩

/-- C8 (amended). With capacity at least 1, whatever the compact factor (in particular
one in (0,1)), in every reachable state a `Put(k, v)` of a key that is already present
returns and removes nothing: it leaves the entry count and the set of present keys (of
the sequence and of the Index) as they were, a following `Get(k)` returns `v`, and the
value stored under every other key is unchanged.  It does not run the trim, unless the
cache is full, which happens only when the cut position the code computes equals the
capacity: then the trim runs, at the cut position, and removes nothing. -/
theorem C8_put_existing (capacity : Int) (f : ℚ) (ts : Bool) (hcap : 1 ≤ capacity)
    (c : LRUCache TKey TValue) (hr : Reachable capacity f ts c) (k : TKey) (v : TValue)
    (hk : k ∈ keys c) :
    ∃ c', Put c k v = some c' ∧ putEntry c k v = some c' ∧
      size c' = size c ∧
      (∀ k', k' ∈ keys c' ↔ k' ∈ keys c) ∧
      c'.m_lookUpMap = c.m_lookUpMap ∧
      (∃ c'', Get c' k = some (Except.ok v, c'')) ∧
      (∀ k', k' ≠ k → valueOf c' k' = valueOf c k') ∧
      ((c'.m_lruList.length : Int) < c'.m_capacity ∨
        (c'.cutPosition = some capacity ∧ (size c' : Int) = capacity)) := by
  have hinv := hr.inv
  have hwf := hinv.wf
  obtain ⟨m, hm, hmk⟩ := List.mem_map.1 hk
  have hf := hwf.index_of_node m hm
  rw [hmk] at hf
  obtain ⟨n, hn, hnk, _, hpe⟩ := putEntry_of_find hwf v hf
  have hwf' := WF_promote hwf n ⟨n.ref, ⟨k, v⟩⟩ hn rfl hnk.symm
  have hperm := moveToFront_perm c.m_lruList n hwf.refs_nodup hn
  have hsize : (n :: c.m_lruList.filter (fun x => !decide (x.ref = n.ref))).length
      = c.m_lruList.length := hperm.length_eq.symm
  have hsz := hr.size_le hcap
  obtain ⟨post, hpost⟩ : ∃ post, putEntry c k v = some post := ⟨_, hpe⟩
  rw [hpost] at hpe
  have hpp := (Option.some.inj hpe).symm
  have hpinv := Inv_putEntry hinv hpost
  have hps : post.size = c.size := by
    rw [← hpp]
    simp only [size, List.length_cons] at hsize ⊢
    exact hsize
  have hunf : Put c k v = ensureCompaction post := by
    unfold Put; simp only [hpost]
  have hcases : (post.m_lruList.length : Int) < post.m_capacity ∨
      (post.cutPosition = some capacity ∧ (size post : Int) = capacity) := by
    rw [hpinv.cap, hpinv.cutPosition_eq]
    rcases hsz with h | ⟨h, hc⟩
    · left; unfold size at hps h; omega
    · right; exact ⟨hc, by rw [hps]; exact h⟩
  refine ⟨post, ?_, hpost, hps, ?_, ?_, ?_, ?_, hcases⟩
  · rw [hunf]
    rcases hcases with h | ⟨hc, h⟩
    · exact ensureCompaction_of_lt h
    · have hlen : (post.m_lruList.length : Int) = capacity := h
      rw [ensureCompaction_of_ge (by rw [hpinv.cap]; omega) hc (by omega) (by omega)]
      congr 1
      apply trimmed_full
      have h2 := Int.toNat_of_nonneg (by omega : 0 ≤ capacity)
      omega
  · intro k'
    rw [← hpp]
    have := @List.Perm.mem_iff _ k' _ _ (hperm.map (fun x => x.entry.Key))
    simp only [keys, List.map_cons, List.mem_cons] at this ⊢
    rw [this, hnk]
  · rw [← hpp]
  · rw [← hpp]
    exact (front_found hwf' rfl).2
  · intro k' hk'
    rw [← hpp]
    apply valueOf_congr hwf hwf'
    intro x hx
    have hxn : x ≠ n := by
      intro h; rw [h, hnk] at hx; exact hk' hx.symm
    have hx' : x ≠ (⟨n.ref, ⟨k, v⟩⟩ : Node TKey TValue) := by
      intro h; rw [h] at hx; exact hk' hx.symm
    rw [hperm.mem_iff]
    simp only [List.mem_cons, hxn, hx', false_or]

theorem C8_put_existing_witness :
    ∃ c', Put sample 1 11 = some c' ∧ putEntry sample 1 11 = some c' ∧
      size c' = size sample ∧
      (∀ k', k' ∈ keys c' ↔ k' ∈ keys sample) ∧
      c'.m_lookUpMap = sample.m_lookUpMap ∧
      (∃ c'', Get c' 1 = some (Except.ok 11, c'')) ∧
      (∀ k', k' ≠ 1 → valueOf c' k' = valueOf sample k') ∧
      ((c'.m_lruList.length : Int) < c'.m_capacity ∨
        (c'.cutPosition = some 3 ∧ (size c' : Int) = 3)) :=
  C8_put_existing 3 (1 / 4) true (by decide) sample sample_reachable 1 11 (by decide)

/-- C9. In every reachable state, `Exists(k)` returns true if and only if the Recency
Sequence has an entry with key `k`, and the call leaves the state (sequence, values,
Index) as it was, so any number of repetitions changes nothing. -/
theorem C9_exists_read_only (capacity : Int) (f : ℚ) (ts : Bool)
    (c : LRUCache TKey TValue) (hr : Reachable capacity f ts c) (k : TKey) :
    ((Exists c k).1 = true ↔ k ∈ keys c) ∧ (Exists c k).2 = c ∧
    ∀ n : Nat, (fun s => (Exists s k).2)^[n] c = c := by
  refine ⟨?_, rfl, ?_⟩
  · rw [← hr.inv.wf.mem_keys_iff k]
    exact find_isSome_iff _ _
  · intro n
    exact Function.iterate_fixed rfl n

theorem C9_exists_read_only_witness :
    ((Exists sample 2).1 = true ↔ 2 ∈ keys sample) ∧ (Exists sample 2).2 = sample ∧
    ∀ n : Nat, (fun s => (Exists s 2).2)^[n] sample = sample :=
  C9_exists_read_only 3 (1 / 4) true sample sample_reachable 2

/-- C10. For every state, every key and every initial content of the out-parameter, the
non-throwing overload `Get(key, outValue)` agrees with `Get(key)`: it returns true with
the value of `Get` in `outValue` and the state `Get` produces when `Get` returns, it
returns false and leaves state and `outValue` as they were when `Get` throws, and it
has undefined behaviour exactly when `Get` has. -/
theorem C10_tryGet_agrees_with_get (c : LRUCache TKey TValue) (k : TKey) (out : TValue) :
    TryGet c k out =
      (match Get c k with
       | none => none
       | some (Except.ok v, c') => some ((true, v), c')
       | some (Except.error _, _) => some ((false, out), c)) ∧
    (∀ e c', Get c k = some (Except.error e, c') → c' = c) := by
  unfold TryGet Get
  cases find c.m_lookUpMap k with
  | none => exact ⟨rfl, fun e c' h => by simp only [Option.some.injEq, Prod.mk.injEq] at h; exact h.2.symm⟩
  | some e =>
    simp only
    cases moveToFront c.m_lruList e.LRUEntryRef with
    | none => exact ⟨rfl, fun e c' h => Option.noConfusion h⟩
    | some l =>
      simp only
      cases deref l e.LRUEntryRef with
      | none => exact ⟨rfl, fun e c' h => Option.noConfusion h⟩
      | some x =>
        refine ⟨rfl, fun e c' h => ?_⟩
        simp only [Option.some.injEq, Prod.mk.injEq] at h
        exact Except.noConfusion h.1

end LRUCache

end LRUCacheModel

namespace LRUCacheModel

namespace LRUCache

/-- C11 (as the claim states it, refuted). Construction with capacity 0, and construction
with compact factor 3/2, do not fail: the constructor returns a cache. -/
theorem C11_construct_invalid_succeeds :
    ((0 : Int) ≤ 0 ∧
      (Construct 0 (2 / 5) true : Except Exn (LRUCache Nat Nat))
        = Except.ok (new 0 (2 / 5) true)) ∧
    (¬ ((0 : ℚ) < 3 / 2 ∧ (3 / 2 : ℚ) < 1) ∧
      (Construct 20 (3 / 2) true : Except Exn (LRUCache Nat Nat))
        = Except.ok (new 20 (3 / 2) true)) := by
  refine ⟨⟨le_refl _, rfl⟩, ?_, rfl⟩
  norm_num

/-- C11 (amended). Construction never fails, whatever the capacity and the compact factor
are: it yields a cache with an empty Recency Sequence and an empty Index that holds the
given capacity, compact factor and thread-safety flag. -/
theorem C11_construct_always_succeeds {TKey TValue : Type} (capacity : Int) (f : ℚ)
    (ts : Bool) :
    ∃ c : LRUCache TKey TValue, Construct capacity f ts = Except.ok c ∧
      c.m_lruList = [] ∧ c.m_lookUpMap = [] ∧
      c.m_capacity = capacity ∧ c.m_compactFactor = f ∧ c.m_threadSafe = ts :=
  ⟨new capacity f ts, rfl, rfl, rfl, rfl, rfl, rfl⟩

end LRUCache

end LRUCacheModel

namespace LRUCacheModel

namespace LRUCache

variable {TKey TValue : Type} [DecidableEq TKey]

/-- C12. In every reachable state and for two distinct present keys `k` and `k'`,
`Get(k)` followed by `Get(k')` returns the two stored values and leaves a Recency
Sequence that starts with the entry of `k'`, followed directly by the entry of `k`, and
then the other entries in their previous order. -/
theorem C12_promotion_law (capacity : Int) (f : ℚ) (ts : Bool) (c : LRUCache TKey TValue)
    (hr : Reachable capacity f ts c) (k k' : TKey) (hne : k ≠ k')
    (hk : k ∈ keys c) (hk' : k' ∈ keys c) :
    ∃ v v' c1 c2, valueOf c k = some v ∧ valueOf c k' = some v' ∧
      Get c k = some (Except.ok v, c1) ∧ Get c1 k' = some (Except.ok v', c2) ∧
      entries c2 = ⟨k', v'⟩ :: ⟨k, v⟩ ::
        (entries c).filter (fun e => !decide (e.Key = k) && !decide (e.Key = k')) := by
  have hwf := hr.inv.wf
  obtain ⟨n, hn, hnk, hg⟩ := Get_of_mem_keys hwf hk
  have hwf1 := WF_promote hwf n n hn rfl rfl
  have hperm := moveToFront_perm c.m_lruList n hwf.refs_nodup hn
  have hk1 : k' ∈ keys { c with m_lruList :=
      (n :: c.m_lruList.filter (fun x => !decide (x.ref = n.ref))) } :=
    (hperm.map (fun x => x.entry.Key)).subset hk'
  obtain ⟨n', hn', hnk', hg'⟩ := Get_of_mem_keys hwf1 hk1
  have hn'c : n' ∈ c.m_lruList := hperm.symm.subset hn'
  subst hnk
  subst hnk'
  refine ⟨n.entry.Value, n'.entry.Value, _, _, hwf.valueOf_eq hn, hwf.valueOf_eq hn'c,
    hg, hg', ?_⟩
  have h1 := entries_promoted hwf1 hn'
  have h0 := entries_promoted hwf hn
  simp only [entries] at h1 h0 ⊢
  rw [h1, h0]
  have hne' : ¬ n.entry.Key = n'.entry.Key := hne
  simp only [List.filter_cons, hne', decide_False, Bool.not_false, if_true, List.filter_filter]
  congr 2
  apply List.filter_congr
  intro x _
  exact Bool.and_comm _ _

theorem C12_promotion_law_witness :
    ∃ v v' c1 c2, valueOf sample 2 = some v ∧ valueOf sample 1 = some v' ∧
      Get sample 2 = some (Except.ok v, c1) ∧ Get c1 1 = some (Except.ok v', c2) ∧
      entries c2 = ⟨1, v'⟩ :: ⟨2, v⟩ ::
        (entries sample).filter (fun e => !decide (e.Key = 2) && !decide (e.Key = 1)) :=
  C12_promotion_law 3 (1 / 4) true sample sample_reachable 2 1 (by decide)
    (by decide) (by decide)

/-- C13. With capacity at least 1 and any compact factor (in particular one in (0,1)),
putting `n < capacity` pairwise distinct keys into the empty cache runs without
eviction: all `n` entries are in the Recency Sequence (last put first), `Exists` is true
exactly for the keys that were put, and `Get` of each key returns the value put for it. -/
theorem C13_puts_below_capacity (capacity : Int) (f : ℚ) (ts : Bool)
    (kvs : List (TKey × TValue)) (hnd : (kvs.map Prod.fst).Nodup)
    (hn : (kvs.length : Int) < capacity) :
    ∃ c log, exec (new capacity f ts, []) (kvs.map (fun p => Op.put p.1 p.2)) = some (c, log) ∧
      entries c = (kvs.map (fun p => (⟨p.1, p.2⟩ : LRUEntry TKey TValue))).reverse ∧
      size c = kvs.length ∧
      (∀ k, (Exists c k).1 = true ↔ k ∈ kvs.map Prod.fst) ∧
      (∀ p ∈ kvs, ∃ c', Get c p.1 = some (Except.ok p.2, c')) := by
  obtain ⟨⟨c, log⟩, he, hinv, hent⟩ := exec_puts_fresh kvs
    ((new capacity f ts : LRUCache TKey TValue), []) (Inv_new capacity f ts) hnd
    (by intro p _ hm; simp [keys, new] at hm)
    (by simpa [size, new] using hn)
  have hent' : entries c
      = (kvs.map (fun p => (⟨p.1, p.2⟩ : LRUEntry TKey TValue))).reverse := by
    simpa [entries, new] using hent
  have hkeys : ∀ k, k ∈ keys c ↔ k ∈ kvs.map Prod.fst := by
    intro k
    have : keys c = (entries c).map (fun e => e.Key) := by
      simp [keys, entries, List.map_map, Function.comp_def]
    rw [this, hent']
    simp [List.map_map, Function.comp_def]
  refine ⟨c, log, he, hent', ?_, ?_, ?_⟩
  · have := congrArg List.length hent'
    simpa [entries, size] using this
  · intro k
    rw [← hkeys k, ← hinv.wf.mem_keys_iff k]
    exact find_isSome_iff _ _
  · intro p hp
    have hmem : (⟨p.1, p.2⟩ : LRUEntry TKey TValue) ∈ entries c := by
      rw [hent']
      exact List.mem_reverse.2 (List.mem_map.2 ⟨p, hp, rfl⟩)
    obtain ⟨m, hm, hme⟩ := List.mem_map.1 hmem
    have hk : p.1 ∈ keys c := (hkeys p.1).2 (List.mem_map.2 ⟨p, hp, rfl⟩)
    obtain ⟨n, hnmem, hnk, hg⟩ := Get_of_mem_keys hinv.wf hk
    have hmk : m.entry.Key = p.1 := by rw [hme]
    have hnm : n = m := hinv.wf.node_unique hnmem hm (by rw [hnk, hmk])
    rw [hnm, hme] at hg
    exact ⟨_, hg⟩

end LRUCache

end LRUCacheModel

namespace LRUCacheModel

theorem C13_puts_below_capacity_witness :
    ∃ c log, LRUCache.exec (LRUCache.new 20 (toFloat (toDouble (2 / 5))) true, [])
        (((List.range 10).map (fun i => (toString i, testData i))).map
          (fun p => LRUCache.Op.put p.1 p.2)) = some (c, log) ∧
      LRUCache.entries c = (((List.range 10).map (fun i => (toString i, testData i))).map
        (fun p => (⟨p.1, p.2⟩ : LRUEntry String MyData))).reverse ∧
      LRUCache.size c = ((List.range 10).map (fun i => (toString i, testData i))).length ∧
      (∀ k, (LRUCache.Exists c k).1 = true
        ↔ k ∈ ((List.range 10).map (fun i => (toString i, testData i))).map Prod.fst) ∧
      (∀ p ∈ (List.range 10).map (fun i => (toString i, testData i)),
        ∃ c', LRUCache.Get c p.1 = some (Except.ok p.2, c')) :=
  LRUCache.C13_puts_below_capacity 20 (toFloat (toDouble (2 / 5))) true
    ((List.range 10).map (fun i => (toString i, testData i))) (by decide!) (by decide)

/-- C14. The test program (capacity 20, factor 0.4, which the cache holds as the `float`
nearest to it; `Put` of "0".."9", the reads of the second loop, which `Get` each of
"0".."9" in order, then `Put` of "11".."29") runs to its end.  The entry count after the
insert of a `Put` of the third loop reaches 20 exactly at "20" and at "28"; each of these
two calls leaves exactly 12 entries, the first 12 of the sequence after the insert, which
are the 12 most recently touched keys ("20".."11" and the last read keys "9", "8"; then
"28".."17").  At the end none of "0".."9" is present, and the present keys are the
consecutively inserted "17".."29". -/
theorem C14_test_program :
    (List.range' 11 19).map (fun n => (testMain n).bind (fun c =>
        (LRUCache.putEntry c (toString n) (testData n)).map LRUCache.size))
      = [some 11, some 12, some 13, some 14, some 15, some 16, some 17, some 18, some 19, some 20,
          some 13, some 14, some 15, some 16, some 17, some 18, some 19, some 20, some 13] ∧
    (List.range' 11 19).map (fun n => (testMain (n + 1)).map LRUCache.size)
      = [some 11, some 12, some 13, some 14, some 15, some 16, some 17, some 18, some 19, some 12,
          some 13, some 14, some 15, some 16, some 17, some 18, some 19, some 12, some 13] ∧
    (testMain 20).bind (fun c => (LRUCache.putEntry c "20" (testData 20)).map
        (fun post => (LRUCache.keys post).take 12))
      = some ["20", "19", "18", "17", "16", "15", "14", "13", "12", "11", "9", "8"] ∧
    (testMain 21).map LRUCache.keys
      = some ["20", "19", "18", "17", "16", "15", "14", "13", "12", "11", "9", "8"] ∧
    (testMain 28).bind (fun c => (LRUCache.putEntry c "28" (testData 28)).map
        (fun post => (LRUCache.keys post).take 12))
      = some ["28", "27", "26", "25", "24", "23", "22", "21", "20", "19", "18", "17"] ∧
    (testMain 29).map LRUCache.keys
      = some ["28", "27", "26", "25", "24", "23", "22", "21", "20", "19", "18", "17"] ∧
    (testMain 30).map LRUCache.keys
      = some ["29", "28", "27", "26", "25", "24", "23", "22", "21", "20", "19", "18", "17"] ∧
    (List.range 10).map (fun i => (testMain 30).map (fun c => (LRUCache.Exists c (toString i)).1))
      = List.replicate 10 (some false) ∧
    (testMain 30).map (fun c => (c.m_compactFactor, c.cutPosition))
      = some (13421773 / 33554432, some 12) := by
  decide!

end LRUCacheModel

namespace LRUCacheModel

namespace LRUCache

variable {TKey TValue : Type} [DecidableEq TKey]

/-- C15 (as the claim states it, refuted). Capacity 20, compact factor 0.4 (held as the
nearest `float`): after 19 `Put`s of distinct keys the cache holds 19 entries, and the
20th `Put` triggers the compaction, which keeps 12 entries and removes 8, whereas
capacity * compactFactor is 8 (between 8 and 9 for the stored `float`) and
capacity * (1 - compactFactor) is 12 (between 11 and 12 for the stored `float`).
Capacity 16777219 with compact factor 2^-30: the cut position is 16777220, and the `Put`
that triggers the compaction advances the iterator beyond the end of the list. -/
theorem C15_kept_is_not_capacity_times_factor :
    (exec ((new 20 (toFloat (toDouble (2 / 5))) true : LRUCache Nat Nat), [])
      (putRange 19)).map (fun s => size s.1) = some 19 ∧
    ((exec ((new 20 (toFloat (toDouble (2 / 5))) true : LRUCache Nat Nat), [])
      (putRange 19)).bind (fun s => putEntry s.1 19 19)).map size = some 20 ∧
    (exec ((new 20 (toFloat (toDouble (2 / 5))) true : LRUCache Nat Nat), [])
      (putRange 20)).map (fun s => size s.1) = some 12 ∧
    (⌊((20 : Int) : ℚ) * (2 / 5)⌋ = 8 ∧ ⌈((20 : Int) : ℚ) * (2 / 5)⌉ = 8 ∧
      ⌊((20 : Int) : ℚ) * (1 - 2 / 5)⌋ = 12 ∧ ⌈((20 : Int) : ℚ) * (1 - 2 / 5)⌉ = 12) ∧
    (⌊((20 : Int) : ℚ) * toFloat (toDouble (2 / 5))⌋ = 8 ∧
      ⌈((20 : Int) : ℚ) * toFloat (toDouble (2 / 5))⌉ = 9 ∧
      ⌊((20 : Int) : ℚ) * (1 - toFloat (toDouble (2 / 5)))⌋ = 11 ∧
      ⌈((20 : Int) : ℚ) * (1 - toFloat (toDouble (2 / 5)))⌉ = 12) ∧
    (∃ (c post : LRUCache Nat Nat), Reachable 16777219 (1 / 1073741824) true c ∧
      putEntry c 16777218 0 = some post ∧ size post = 16777219 ∧
      post.cutPosition = some 16777220 ∧ Put c 16777218 0 = none) := by
  have hf : toFloat (toDouble (2 / 5)) = 13421773 / 33554432 := by decide!
  refine ⟨by decide!, by decide!, by decide!, ⟨?_, ?_, ?_, ?_⟩, ⟨?_, ?_, ?_, ?_⟩,
    large_capacity_out_of_range⟩
  · rw [Int.floor_eq_iff]; norm_num
  · rw [Int.ceil_eq_iff]; norm_num
  · rw [Int.floor_eq_iff]; norm_num
  · rw [Int.ceil_eq_iff]; norm_num
  · rw [hf, Int.floor_eq_iff]; norm_num
  · rw [hf, Int.ceil_eq_iff]; norm_num
  · rw [hf, Int.floor_eq_iff]; norm_num
  · rw [hf, Int.ceil_eq_iff]; norm_num

/-- C15 (amended). The compact factor is the fraction of the capacity removed by a
compaction, up to integer rounding: with capacity between 1 and 2^24 and compact factor
in (0,1), a `Put` that triggers the compaction keeps between
floor(capacity * (1 - compactFactor)) - 1 and ceil(capacity * (1 - compactFactor))
entries, and removes between floor(capacity * compactFactor) and
ceil(capacity * compactFactor) + 1 entries. -/
theorem C15_kept_and_removed (capacity : Int) (f : ℚ) (ts : Bool)
    (hcap : 1 ≤ capacity) (h24 : capacity ≤ 16777216) (h0 : 0 < f) (h1 : f < 1)
    (c : LRUCache TKey TValue) (hr : Reachable capacity f ts c) (k : TKey) (v : TValue) :
    ∃ post c', putEntry c k v = some post ∧ Put c k v = some c' ∧
      (capacity ≤ (size post : Int) →
        (⌊(capacity : ℚ) * (1 - f)⌋ - 1 ≤ (size c' : Int) ∧
          (size c' : Int) ≤ ⌈(capacity : ℚ) * (1 - f)⌉) ∧
        (⌊(capacity : ℚ) * f⌋ ≤ (size post : Int) - (size c' : Int) ∧
          (size post : Int) - (size c' : Int) ≤ ⌈(capacity : ℚ) * f⌉ + 1)) := by
  have hinv := hr.inv
  obtain ⟨cut, hc, hc0, hc1, _⟩ := cutOf_bounds capacity f (by omega) h24 h0.le h1.le
  obtain ⟨hn1, hn2⟩ := cutOf_near capacity f (by omega) h24 h0 h1.le cut hc
  obtain ⟨post, hpe, _, hlt, _⟩ := Put_spec hinv hc hc0 hc1 k v
  by_cases hs : (post.size : Int) < capacity
  · exact ⟨post, post, hpe, hlt hs, fun h => absurd hs (by omega)⟩
  · have hge : capacity ≤ (post.size : Int) := by omega
    obtain ⟨_, hcs, hp1, hpc, hput, hsize⟩ := Put_trim hr hc hc0 hc1 hpe hge
    refine ⟨post, _, hpe, hput, fun _ => ⟨⟨by omega, by omega⟩, ?_⟩⟩
    have hx : (capacity : ℚ) * (1 - f) = (capacity : ℚ) + -((capacity : ℚ) * f) := by ring
    have hfl : ⌊(capacity : ℚ) * (1 - f)⌋ = capacity - ⌈(capacity : ℚ) * f⌉ := by
      rw [hx, Int.floor_int_add, Int.floor_neg]; ring
    have hx2 : (capacity : ℚ) * (1 - f) = -((capacity : ℚ) * f) + (capacity : ℚ) := by ring
    have hce : ⌈(capacity : ℚ) * (1 - f)⌉ = capacity - ⌊(capacity : ℚ) * f⌋ := by
      rw [hx2, Int.ceil_add_int, Int.ceil_neg]; ring
    have hpos : 0 < ⌈(capacity : ℚ) * f⌉ := by
      rw [Int.ceil_pos]
      exact mul_pos (by exact_mod_cast hcap) h0
    rw [hsize]
    by_cases hcc : cut < capacity
    · have := hpc hcc
      constructor <;> omega
    · constructor <;> omega

theorem C15_kept_and_removed_witness :
    ∃ post c', putEntry sample 3 30 = some post ∧ Put sample 3 30 = some c' ∧
      (3 : Int) ≤ (size post : Int) ∧
      (⌊((3 : Int) : ℚ) * (1 - 1 / 4)⌋ - 1 ≤ (size c' : Int) ∧
        (size c' : Int) ≤ ⌈((3 : Int) : ℚ) * (1 - 1 / 4)⌉) ∧
      (⌊((3 : Int) : ℚ) * (1 / 4)⌋ ≤ (size post : Int) - (size c' : Int) ∧
        (size post : Int) - (size c' : Int) ≤ ⌈((3 : Int) : ℚ) * (1 / 4)⌉ + 1) := by
  obtain ⟨post, c', hpe, hput, hge⟩ := C15_kept_and_removed 3 (1 / 4) true (by decide)
    (by decide) (by norm_num) (by norm_num) sample sample_reachable 3 30
  have hs : (3 : Int) ≤ (size post : Int) := by
    have h := congrArg (Option.map size) hpe
    have h3 : (putEntry sample 3 30).map size = some 3 := by decide!
    rw [h3] at h
    have h4 : size post = 3 := (Option.some.inj h).symm
    omega
  exact ⟨post, c', hpe, hput, hs, (hge hs).1, (hge hs).2⟩

/-- C16 (as the claim states it, refuted). Capacity 1 with compact factor 2^-30 (a
`float` of (0,1)): floor(capacity * (1 - compactFactor)) is 0, but the code computes
`1 - f` in `float`, where it rounds to 1, so the cut position is 1.  The first `Put`
reaches the capacity and triggers the compaction, which keeps the entry: the sequence and
the Index hold the key just put, and `Exists` of it is true. -/
theorem C16_floor_zero_does_not_clear :
    (0 < (1 / 1073741824 : ℚ) ∧ (1 / 1073741824 : ℚ) < 1 ∧
      toFloat (1 / 1073741824) = 1 / 1073741824) ∧
    ⌊((1 : Int) : ℚ) * (1 - 1 / 1073741824)⌋ = 0 ∧
    cutOf 1 (1 / 1073741824) = some 1 ∧
    (putEntry (new 1 (1 / 1073741824) true : LRUCache Nat Nat) 7 8).map
      (fun post => (size post, decide ((post.m_lruList.length : Int) < post.m_capacity)))
      = some (1, false) ∧
    (Put (new 1 (1 / 1073741824) true : LRUCache Nat Nat) 7 8).map
      (fun c' => (keys c', indexKeys c', (Exists c' 7).1)) = some ([7], [7], true) := by
  refine ⟨⟨by norm_num, by norm_num, by decide!⟩, ?_, by decide!, by decide!, by decide!⟩
  rw [Int.floor_eq_iff]; norm_num

/-- C16 (amended). For every configuration with capacity between 0 and 2^24 and a
`float` compact factor in (0,1) for which floor(capacity * (1 - compactFactor)) is 0,
except capacity 1 with a compact factor below 2^-24 (so for example capacity 1 with any
`float` compact factor from 2^-24 up to 1), and more generally for every configuration
whose cut position, as the code computes it in `float` arithmetic, is 0: in every
reachable state a `Put` whose insert brings the entry count to the capacity or beyond
leaves the Recency Sequence and the Index empty, the key just put included: `Exists` of
that key is false right after the `Put`. -/
theorem C16_zero_cut_clears (capacity : Int) (f : ℚ) (ts : Bool)
    (hcut : (0 ≤ capacity ∧ capacity ≤ 16777216 ∧ 0 < f ∧ f < 1 ∧ toFloat f = f ∧
        ⌊(capacity : ℚ) * (1 - f)⌋ = 0 ∧ (capacity ≠ 1 ∨ 1 / 16777216 ≤ f)) ∨
      cutOf capacity f = some 0)
    (c : LRUCache TKey TValue) (hr : Reachable capacity f ts c) (k : TKey) (v : TValue) :
    ∃ post, putEntry c k v = some post ∧
      (capacity ≤ (size post : Int) →
        ∃ c', Put c k v = some c' ∧ c'.m_lruList = [] ∧ c'.m_lookUpMap = [] ∧
          (Exists c' k).1 = false) := by
  have hc : cutOf capacity f = some 0 := by
    rcases hcut with ⟨hcap, h24, h0, h1, hfl, hfloor, hne⟩ | h
    · exact cutOf_zero_of_floor capacity f hcap h24 h0 h1 hfl hfloor hne
    · exact h
  have hinv := hr.inv
  obtain ⟨post, hpe⟩ := putEntry_total hinv.wf k v
  have hpinv := Inv_putEntry hinv hpe
  have hwf := hpinv.wf
  have hcp : post.cutPosition = some 0 := by rw [hpinv.cutPosition_eq, hc]
  refine ⟨post, hpe, fun hge => ?_⟩
  have hput : Put c k v = some (trimmed post 0) := by
    unfold Put
    simp only [hpe]
    exact @ensureCompaction_of_ge _ _ _ post 0
      (by rw [hpinv.cap]; unfold size at hge; omega) hcp (le_refl 0) (by omega)
  obtain ⟨hl, hm⟩ := trimmed_zero hwf
  exact ⟨_, hput, hl, hm, by simp [Exists, hm, find]⟩

theorem C16_zero_cut_clears_witness :
    ∃ post c', putEntry (new 1 (1 / 2) true : LRUCache Nat Nat) 7 8 = some post ∧
      (1 : Int) ≤ (size post : Int) ∧
      Put (new 1 (1 / 2) true : LRUCache Nat Nat) 7 8 = some c' ∧
      c'.m_lruList = [] ∧ c'.m_lookUpMap = [] ∧ (Exists c' 7).1 = false := by
  obtain ⟨post, hpe, hge⟩ := C16_zero_cut_clears 1 (1 / 2) true
    (Or.inl ⟨by decide, by decide, by norm_num, by norm_num, by decide!,
      by rw [Int.floor_eq_iff]; norm_num, Or.inr (by norm_num)⟩)
    (new 1 (1 / 2) true : LRUCache Nat Nat) ⟨[], [], rfl⟩ 7 8
  have hs : (1 : Int) ≤ (size post : Int) := by
    have h := congrArg (Option.map size) hpe
    have h3 : (putEntry (new 1 (1 / 2) true : LRUCache Nat Nat) 7 8).map size = some 1 := by
      decide!
    rw [h3] at h
    have h4 : size post = 1 := (Option.some.inj h).symm
    omega
  obtain ⟨c', h1, h2, h3, h4⟩ := hge hs
  exact ⟨post, c', hpe, hs, h1, h2, h3, h4⟩

end LRUCache

end LRUCacheModel

namespace LRUCacheModel

namespace LRUCache

/-- C17 (as the claim states it, refuted). With capacity 1 and compact factor 5/2, and
with capacity -2 and compact factor 1/2 (all of them `float`s), the cut position is -1:
nothing clamps it.  The first `Put` into the cache with capacity 1 and factor 5/2 reaches
the capacity and advances the iterator by -1 from `begin()`, which is outside the
list. -/
theorem C17_cut_position_negative :
    (toFloat (5 / 2) = 5 / 2 ∧ toFloat (1 / 2) = 1 / 2) ∧
    (new 1 (5 / 2) true : LRUCache Nat Nat).cutPosition = some (-1) ∧
    (new (-2) (1 / 2) true : LRUCache Nat Nat).cutPosition = some (-1) ∧
    (putEntry (new 1 (5 / 2) true : LRUCache Nat Nat) 7 8).map
      (fun post => (size post, post.cutPosition, advance post.m_lruList (-1)))
      = some (1, some (-1), none) ∧
    Put (new 1 (5 / 2) true : LRUCache Nat Nat) 7 8 = none := by
  refine ⟨⟨by decide!, by decide!⟩, by decide!, by decide!, by decide!, by decide!⟩

/-- C17 (amended). No clamp is applied to the cut position.  For a capacity of at least 0
and a compact factor of at most 1 the product computed in `float` is not negative, so
the cut position, when the conversion to `int` defines it, is at least 0; for a capacity
between 0 and 2^24 and a compact factor in [0,1] it is defined and lies between 0 and
the capacity. -/
theorem C17_cut_position_nonneg {TKey TValue : Type} (c : LRUCache TKey TValue)
    (hcap : 0 ≤ c.m_capacity) (hf : c.m_compactFactor ≤ 1) :
    (∀ cut, c.cutPosition = some cut → 0 ≤ cut) ∧
    (c.m_capacity ≤ 16777216 → 0 ≤ c.m_compactFactor →
      ∃ cut, c.cutPosition = some cut ∧ 0 ≤ cut ∧ cut ≤ c.m_capacity) := by
  refine ⟨fun cut h => cutOf_nonneg _ _ hcap hf cut h, fun h24 h0 => ?_⟩
  obtain ⟨cut, hc, hc0, hc1, _⟩ := cutOf_bounds _ _ hcap h24 h0 hf
  exact ⟨cut, hc, hc0, hc1⟩

theorem C17_cut_position_nonneg_witness :
    ∃ cut, sample.cutPosition = some cut ∧ 0 ≤ cut ∧ cut ≤ sample.m_capacity :=
  (C17_cut_position_nonneg sample (by decide) (by simp only [sample]; norm_num)).2
    (by decide) (by simp only [sample]; norm_num)

end LRUCache

end LRUCacheModel

namespace LRUCacheModel

namespace LRUCache

variable {TKey TValue : Type} [DecidableEq TKey]

/-- C18 (as the claim states it, refuted). Capacity 2 with compact factor 2^-30 (a
`float` of (0,1)): `1 - f` rounds to 1 in `float` and the cut position is 2, the
capacity.  After `Put(0,0); Put(1,1)` the cache holds 2 entries, not fewer than its
capacity; the next `Put(2,2)` runs the compaction with 3 entries, not 2, and the
compaction leaves 2 entries, whereas floor(capacity * (1 - compactFactor)) is 1.
Capacity 16777219 with compact factor 2^-30: the cut position is 16777220, and the
compaction that runs with 16777219 entries advances the iterator beyond the end of the
list. -/
theorem C18_full_cache_is_reachable :
    (0 < (1 / 1073741824 : ℚ) ∧ (1 / 1073741824 : ℚ) < 1 ∧
      toFloat (1 / 1073741824) = 1 / 1073741824) ∧
    ⌊((2 : Int) : ℚ) * (1 - 1 / 1073741824)⌋ = 1 ∧
    cutOf 2 (1 / 1073741824) = some 2 ∧
    (exec ((new 2 (1 / 1073741824) true : LRUCache Nat Nat), [])
      (putRange 2)).map (fun s => size s.1) = some 2 ∧
    ((exec ((new 2 (1 / 1073741824) true : LRUCache Nat Nat), [])
      (putRange 2)).bind (fun s => putEntry s.1 2 2)).map
        (fun post => (size post, decide ((post.m_lruList.length : Int) < post.m_capacity)))
      = some (3, false) ∧
    (exec ((new 2 (1 / 1073741824) true : LRUCache Nat Nat), [])
      (putRange 3)).map (fun s => size s.1) = some 2 ∧
    (∃ (c post : LRUCache Nat Nat), Reachable 16777219 (1 / 1073741824) true c ∧
      putEntry c 16777218 0 = some post ∧ size post = 16777219 ∧
      post.cutPosition = some 16777220 ∧ Put c 16777218 0 = none) := by
  refine ⟨⟨by norm_num, by norm_num, by decide!⟩, ?_, by decide!, by decide!, by decide!,
    by decide!, large_capacity_out_of_range⟩
  rw [Int.floor_eq_iff]; norm_num

/-- C18 (amended). With capacity at least 1, whatever the compact factor, every reachable
state has strictly fewer entries than the capacity, or exactly as many, and this only
when the cut position the code computes in `float` arithmetic equals the capacity.  With
capacity between 1 and 2^24 and compact factor in (0,1) the cut position is defined, and
it is below the capacity whenever capacity * compactFactor is at least 1; whenever it is
below the capacity, a `Put` runs the compaction only with an entry count exactly equal
to the capacity, and the compaction leaves exactly `cutPosition` entries, a number that
is at least floor(capacity * (1 - compactFactor)) - 1 and at most
ceil(capacity * (1 - compactFactor)). -/
theorem C18_size_below_capacity (capacity : Int) (f : ℚ) (ts : Bool) (hcap : 1 ≤ capacity)
    (c : LRUCache TKey TValue) (hr : Reachable capacity f ts c) (k : TKey) (v : TValue) :
    ((size c : Int) < capacity ∨
      ((size c : Int) = capacity ∧ cutOf capacity f = some capacity)) ∧
    (capacity ≤ 16777216 → 0 < f → f < 1 →
      ∃ cut, cutOf capacity f = some cut ∧
        (1 ≤ (capacity : ℚ) * f → cut < capacity) ∧
        (cut < capacity →
          (size c : Int) < capacity ∧
          ∃ post c', putEntry c k v = some post ∧ Put c k v = some c' ∧
            (size c' : Int) < capacity ∧
            ((size post : Int) < capacity → c' = post) ∧
            (capacity ≤ (size post : Int) →
              (size post : Int) = capacity ∧ (size c' : Int) = cut ∧
              ⌊(capacity : ℚ) * (1 - f)⌋ - 1 ≤ cut ∧
              cut ≤ ⌈(capacity : ℚ) * (1 - f)⌉))) := by
  have hinv := hr.inv
  refine ⟨hr.size_le hcap, fun h24 h0 h1 => ?_⟩
  obtain ⟨cut, hc, hc0, hc1, _⟩ := cutOf_bounds capacity f (by omega) h24 h0.le h1.le
  obtain ⟨hn1, hn2⟩ := cutOf_near capacity f (by omega) h24 h0 h1.le cut hc
  refine ⟨cut, hc, ?_, fun hlt => ?_⟩
  · intro hf
    have hx : (capacity : ℚ) * (1 - f) ≤ ((capacity - 1 : Int) : ℚ) := by
      push_cast; linarith
    have : ⌈(capacity : ℚ) * (1 - f)⌉ ≤ capacity - 1 := Int.ceil_le.2 hx
    omega
  · have hsz := hr.size_bound hc hc0 hc1
    refine ⟨by omega, ?_⟩
    obtain ⟨post, hpe, _, hlt', _⟩ := Put_spec hinv hc hc0 hc1 k v
    by_cases hs : (post.size : Int) < capacity
    · exact ⟨post, post, hpe, hlt' hs, hs, fun _ => rfl, fun h => absurd hs (by omega)⟩
    · have hge : capacity ≤ (post.size : Int) := by omega
      obtain ⟨_, _, _, hpc, hput, hsize⟩ := Put_trim hr hc hc0 hc1 hpe hge
      exact ⟨post, _, hpe, hput, by omega, fun h => absurd h hs,
        fun _ => ⟨hpc hlt, hsize, hn1, hn2⟩⟩

theorem C18_size_below_capacity_witness :
    ∃ cut, cutOf 3 (1 / 4) = some cut ∧ cut < 3 ∧
      (size sample : Int) < 3 ∧
      ∃ post c', putEntry sample 3 30 = some post ∧ Put sample 3 30 = some c' ∧
        (size c' : Int) < 3 ∧ (3 : Int) ≤ (size post : Int) ∧
        (size post : Int) = 3 ∧ (size c' : Int) = cut ∧
        ⌊((3 : Int) : ℚ) * (1 - 1 / 4)⌋ - 1 ≤ cut ∧
        cut ≤ ⌈((3 : Int) : ℚ) * (1 - 1 / 4)⌉ := by
  obtain ⟨cut, hc, _, hbelow⟩ := (C18_size_below_capacity 3 (1 / 4) true (by decide)
    sample sample_reachable 3 30).2 (by decide) (by norm_num) (by norm_num)
  have hc' := hc
  have hcut : cut = 2 := by
    have h2 : cutOf 3 (1 / 4) = some 2 := by decide!
    rw [h2] at hc
    exact (Option.some.inj hc).symm
  obtain ⟨hsz, post, c', hpe, hput, hlt, _, hge⟩ := hbelow (by omega)
  have hs : (3 : Int) ≤ (size post : Int) := by
    have h := congrArg (Option.map size) hpe
    have h3 : (putEntry sample 3 30).map size = some 3 := by decide!
    rw [h3] at h
    have h4 : size post = 3 := (Option.some.inj h).symm
    omega
  obtain ⟨h1, h2, h3, h4⟩ := hge hs
  exact ⟨cut, hc', by omega, hsz, post, c', hpe, hput, hlt, hs, h1, h2, h3, h4⟩

/-- C19. In every reachable state, and in the state a `Put` hands to `ensureCompaction`,
the keys of the entries of the Recency Sequence are pairwise distinct and the locator the
Index stores for a key designates the sequence entry with that key; hence erasing the
keys of a trimmed suffix from the Index leaves the Index entry (key and locator) of every
retained node in place.  This holds for every configuration, in particular for capacity
at least 1 and compact factor in (0,1). -/
theorem C19_locators_consistent (capacity : Int) (f : ℚ) (ts : Bool)
    (c : LRUCache TKey TValue) (hr : Reachable capacity f ts c) (k : TKey) (v : TValue) :
    ((keys c).Nodup ∧
      (∀ k' e, find c.m_lookUpMap k' = some e →
        ∃ entry, deref c.m_lruList e.LRUEntryRef = some entry ∧ entry.Key = k') ∧
      (∀ pos, ∀ n ∈ c.m_lruList.take pos,
        find ((c.m_lruList.drop pos).foldl (fun m x => erase m x.entry.Key) c.m_lookUpMap)
          n.entry.Key = some ⟨n.ref⟩)) ∧
    ∃ post, putEntry c k v = some post ∧
      (keys post).Nodup ∧
      (∀ k' e, find post.m_lookUpMap k' = some e →
        ∃ entry, deref post.m_lruList e.LRUEntryRef = some entry ∧ entry.Key = k') ∧
      (∀ pos, ∀ n ∈ post.m_lruList.take pos,
        find ((post.m_lruList.drop pos).foldl (fun m x => erase m x.entry.Key)
          post.m_lookUpMap) n.entry.Key = some ⟨n.ref⟩) := by
  have hwf := hr.inv.wf
  obtain ⟨post, hpe⟩ := putEntry_total hwf k v
  exact ⟨hwf.locators, post, hpe, (WF_putEntry hwf hpe).locators⟩

theorem C19_locators_consistent_witness :
    ((keys sample).Nodup ∧
      (∀ k' e, find sample.m_lookUpMap k' = some e →
        ∃ entry, deref sample.m_lruList e.LRUEntryRef = some entry ∧ entry.Key = k') ∧
      (∀ pos, ∀ n ∈ sample.m_lruList.take pos,
        find ((sample.m_lruList.drop pos).foldl (fun m x => erase m x.entry.Key)
          sample.m_lookUpMap) n.entry.Key = some ⟨n.ref⟩)) ∧
    ∃ post, putEntry sample 3 30 = some post ∧
      (keys post).Nodup ∧
      (∀ k' e, find post.m_lookUpMap k' = some e →
        ∃ entry, deref post.m_lruList e.LRUEntryRef = some entry ∧ entry.Key = k') ∧
      (∀ pos, ∀ n ∈ post.m_lruList.take pos,
        find ((post.m_lruList.drop pos).foldl (fun m x => erase m x.entry.Key)
          post.m_lookUpMap) n.entry.Key = some ⟨n.ref⟩) :=
  C19_locators_consistent 3 (1 / 4) true sample sample_reachable 3 30

/-- C20 (as the claim states it, refuted). Capacity 16777219 with compact factor 2^-30 (a
`float` of (0,1)): `int` 16777219 becomes the `float` 16777220 and `1 - f` rounds to 1,
so the cut position is 16777220.  After 16777218 `Put`s of distinct keys the next `Put`
of a new key brings the entry count to 16777219, the capacity, `ensureCompaction` trims,
and the cut position lies beyond the entry count: `std::advance` leaves the list. -/
theorem C20_cut_beyond_the_list :
    (0 < (1 / 1073741824 : ℚ) ∧ (1 / 1073741824 : ℚ) < 1 ∧
      toFloat (1 / 1073741824) = 1 / 1073741824) ∧
    ∃ (c post : LRUCache Nat Nat), Reachable 16777219 (1 / 1073741824) true c ∧
      putEntry c 16777218 0 = some post ∧ size post = 16777219 ∧
      ¬ ((post.m_lruList.length : Int) < post.m_capacity) ∧
      post.cutPosition = some 16777220 ∧
      advance post.m_lruList 16777220 = none ∧
      ensureCompaction post = none ∧ Put c 16777218 0 = none := by
  refine ⟨⟨by norm_num, by norm_num, by decide!⟩, ?_⟩
  obtain ⟨c, hr, hsize, hkeys⟩ := puts_reach 16777219 (1 / 1073741824) true 16777218
    (by norm_num)
  obtain ⟨post, hpe, hps⟩ := putEntry_fresh_size (0 : Nat) hr.inv.wf
    (fun hk => absurd ((hkeys 16777218).1 hk) (lt_irrefl _))
  have hps' : size post = 16777219 := by rw [hps, hsize]
  have hlen : post.m_lruList.length = 16777219 := hps'
  have hpinv := Inv_putEntry hr.inv hpe
  have hc : cutOf 16777219 (1 / 1073741824) = some 16777220 := by decide!
  have hcp : post.cutPosition = some 16777220 := by rw [hpinv.cutPosition_eq, hc]
  have hguard : ¬ ((post.m_lruList.length : Int) < post.m_capacity) := by
    rw [hpinv.cap, hlen]; norm_num
  have hout : ¬ ((0 : Int) ≤ 16777220 ∧ (16777220 : Int) ≤ (post.m_lruList.length : Int)) := by
    rw [hlen]; norm_num
  have hens := ensureCompaction_of_out hguard hcp hout
  refine ⟨c, post, hr, hpe, hps', hguard, hcp, ?_, hens, ?_⟩
  · unfold advance
    simp only [hout, if_false]
  · unfold Put
    simp only [hpe]
    exact hens

/-- C20 (amended). With capacity between 1 and 2^24 (the range in which the conversion of
the capacity to `float` is exact) and compact factor in (0,1), in every reachable state
and for every `Put`: the cut position is defined, and whenever its `ensureCompaction`
trims, the cut position is between 0 and the current entry count, so `std::advance` from
`begin()` by `cutPosition` stays within the list; the `Put` never takes the out-of-range
case. -/
theorem C20_cut_within_list (capacity : Int) (f : ℚ) (ts : Bool)
    (hcap : 1 ≤ capacity) (h24 : capacity ≤ 16777216) (h0 : 0 < f) (h1 : f < 1)
    (c : LRUCache TKey TValue) (hr : Reachable capacity f ts c) (k : TKey) (v : TValue) :
    ∃ cut post c', putEntry c k v = some post ∧ post.cutPosition = some cut ∧
      ensureCompaction post = some c' ∧ Put c k v = some c' ∧
      (capacity ≤ (size post : Int) →
        0 ≤ cut ∧ cut ≤ (size post : Int) ∧
        advance post.m_lruList cut = some cut.toNat ∧
        cut.toNat ≤ post.m_lruList.length) := by
  have hinv := hr.inv
  obtain ⟨cut, hc, hc0, hc1, _⟩ := cutOf_bounds capacity f (by omega) h24 h0.le h1.le
  obtain ⟨post, hpe, hpinv, hlt, _⟩ := Put_spec hinv hc hc0 hc1 k v
  have hcp : post.cutPosition = some cut := by rw [hpinv.cutPosition_eq, hc]
  have hunf : Put c k v = ensureCompaction post := by
    unfold Put; simp only [hpe]
  by_cases hs : (post.size : Int) < capacity
  · exact ⟨cut, post, post, hpe, hcp, by rw [← hunf]; exact hlt hs, hlt hs,
      fun h => absurd hs (by omega)⟩
  · have hge : capacity ≤ (post.size : Int) := by omega
    obtain ⟨_, hcs, _, _, hput, _⟩ := Put_trim hr hc hc0 hc1 hpe hge
    have hle : cut ≤ (post.m_lruList.length : Int) := by
      unfold size at hcs; omega
    refine ⟨cut, post, _, hpe, hcp, by rw [← hunf]; exact hput, hput,
      fun _ => ⟨hc0, hcs, ?_, ?_⟩⟩
    · unfold advance
      simp only [hc0, hle, and_self, if_true]
    · have := Int.toNat_of_nonneg hc0
      omega

theorem C20_cut_within_list_witness :
    ∃ cut post c', putEntry sample 3 30 = some post ∧ post.cutPosition = some cut ∧
      ensureCompaction post = some c' ∧ Put sample 3 30 = some c' ∧
      (3 : Int) ≤ (size post : Int) ∧
      0 ≤ cut ∧ cut ≤ (size post : Int) ∧
      advance post.m_lruList cut = some cut.toNat ∧
      cut.toNat ≤ post.m_lruList.length := by
  obtain ⟨cut, post, c', hpe, hcp, hens, hput, hge⟩ := C20_cut_within_list 3 (1 / 4) true
    (by decide) (by decide) (by norm_num) (by norm_num) sample sample_reachable 3 30
  have hs : (3 : Int) ≤ (size post : Int) := by
    have h := congrArg (Option.map size) hpe
    have h3 : (putEntry sample 3 30).map size = some 3 := by decide!
    rw [h3] at h
    have h4 : size post = 3 := (Option.some.inj h).symm
    omega
  obtain ⟨h1, h2, h3, h4⟩ := hge hs
  exact ⟨cut, post, c', hpe, hcp, hens, hput, hs, h1, h2, h3, h4⟩

end LRUCache

end LRUCacheModel
